import Mathlib

/-!
# sdlpathfinder: grid and incremental A* engine

A shallow embedding of `grid.c` and `pathfinder.c`.

* C arrays (`walls`, `nodes`, `heap`) are lists whose length is the allocated
  element count; a read is `List.getD`, a write is `List.set`.
* `size_t` is a natural number reduced modulo `2^64` and `unsigned int` one
  reduced modulo `2^32`, at the places where the C arithmetic can wrap.
* A pointer into `walls` is the index it points at.
* The pathfinder keeps a pointer to the grid; here the grid is an explicit
  argument of every function that dereferences it.
* `assert` is compiled out unless `DEBUG` is set (`debug.h`); the functions
  below are the assertion-free code and the asserted conditions are separate
  predicates.
-/

namespace Pathfinder

/-! ## grid.h / grid.c -/

/-- The `struct cell_walls` of `grid.h`. -/
structure cell_walls where
  right : Bool
  lower : Bool
  left : Bool
  upper : Bool
deriving DecidableEq, Repr

/-- The `struct grid` of `grid.c`; `walls` holds the right walls followed by the
lower walls. -/
structure grid where
  width : Nat
  height : Nat
  walls : List Bool
deriving DecidableEq, Repr

/-- Function `grid_init`: `calloc` zero-fills `2*width*height - width - height` flags. -/
def grid_init (width height : Nat) : grid :=
  { width := width
    height := height
    walls := List.replicate (2 * width * height - width - height) false }

/-- Function `grid_right_wall`: the index of the flag `&g->walls[(g->width-1) * y + x]`. -/
def grid_right_wall (g : grid) (x y : Nat) : Nat :=
  (g.width - 1) * y + x

/-- Function `grid_lower_wall`: the index of `&lower_walls[g->width * y + x]` where
`lower_walls = g->walls + (g->width-1)*g->height`. -/
def grid_lower_wall (g : grid) (x y : Nat) : Nat :=
  (g.width - 1) * g.height + (g.width * y + x)

/-- Function `grid_left_wall`: `grid_right_wall(g, x-1, y)`. -/
def grid_left_wall (g : grid) (x y : Nat) : Nat :=
  grid_right_wall g (x - 1) y

/-- Function `grid_upper_wall`: `grid_lower_wall(g, x, y-1)`. -/
def grid_upper_wall (g : grid) (x y : Nat) : Nat :=
  grid_lower_wall g x (y - 1)

/-- Reading through a wall pointer, `*p`. -/
def wall_read (g : grid) (p : Nat) : Bool :=
  g.walls.getD p false

/-- Writing through a wall pointer, `*p = v`. -/
def wall_write (g : grid) (p : Nat) (v : Bool) : grid :=
  { g with walls := g.walls.set p v }

/-- Function `grid_cell_walls`; `||` short-circuits in C, so the accessor on the right is
only reached when the boundary test on the left is false. -/
def grid_cell_walls (g : grid) (x y : Nat) : cell_walls :=
  { right := x == g.width - 1 || wall_read g (grid_right_wall g x y)
    lower := y == g.height - 1 || wall_read g (grid_lower_wall g x y)
    left := x == 0 || wall_read g (grid_left_wall g x y)
    upper := y == 0 || wall_read g (grid_upper_wall g x y) }

/-- Function `grid_width` of the source. -/
def grid_width (g : grid) : Nat := g.width

/-- Function `grid_height` of the source. -/
def grid_height (g : grid) : Nat := g.height

/-- A grid as `grid_init` allocates it: positive dimensions and one stored flag
per interior edge. -/
def grid_wf (g : grid) : Prop :=
  1 ≤ g.width ∧ 1 ≤ g.height ∧
    g.walls.length = 2 * g.width * g.height - g.width - g.height

instance (g : grid) : Decidable (grid_wf g) := by
  unfold grid_wf; infer_instance

/-! ## pathfinder.h / pathfinder.c -/

/-- Range of `size_t`. -/
def SIZE_MOD : Nat := 2 ^ 64

/-- Range of `unsigned int`. -/
def UINT_MOD : Nat := 2 ^ 32

/-- Constant `INVALID_PATH_SUM`, `(unsigned int)-1`. -/
def INVALID_PATH_SUM : Nat := 2 ^ 32 - 1

/-- Constant `INVALID_INDEX`, `(size_t)-1`. -/
def INVALID_INDEX : Nat := 2 ^ 64 - 1

/-- The `enum node_color` of `pathfinder.h`. -/
inductive NodeColor where
  | RED_NODE
  | YELLOW_NODE
  | GREEN_NODE
deriving DecidableEq, Repr

/-- The integer value of an enumerator: `RED_NODE = 0`, `YELLOW_NODE = 1`,
`GREEN_NODE = 2`. -/
def NodeColor.rank : NodeColor → Nat
  | .RED_NODE => 0
  | .YELLOW_NODE => 1
  | .GREEN_NODE => 2

/-- The `struct node`. -/
structure node where
  path_sum : Nat
  hix : Nat
deriving DecidableEq, Repr

/-- The `struct pathfinder` without its grid pointer. -/
structure pathfinder where
  heap : List Nat
  heap_size : Nat
  goal_x : Nat
  goal_y : Nat
  nodes : List node
deriving DecidableEq, Repr

/-- The read `pf->nodes[coord]`. -/
def node_at (pf : pathfinder) (coord : Nat) : node :=
  pf.nodes.getD coord ⟨INVALID_PATH_SUM, INVALID_INDEX⟩

/-- The read `pf->heap[hix]`. -/
def heap_at (pf : pathfinder) (hix : Nat) : Nat :=
  pf.heap.getD hix 0

/-- The write `pf->nodes[coord].hix = v`. -/
def set_hix (pf : pathfinder) (coord v : Nat) : pathfinder :=
  { pf with nodes := pf.nodes.set coord { node_at pf coord with hix := v } }

/-- The write `pf->nodes[coord].path_sum = v`. -/
def set_path_sum (pf : pathfinder) (coord v : Nat) : pathfinder :=
  { pf with nodes := pf.nodes.set coord { node_at pf coord with path_sum := v } }

/-- The write `pf->heap[hix] = v`. -/
def set_heap (pf : pathfinder) (hix v : Nat) : pathfinder :=
  { pf with heap := pf.heap.set hix v }

/-- Function `diff` of the source. -/
def diff (a b : Nat) : Nat := if a < b then b - a else a - b

/-- Function `get_coord`, in `size_t` arithmetic. -/
def get_coord (g : grid) (x y : Nat) : Nat :=
  (grid_width g * y + x) % SIZE_MOD

/-- Function `get_surround`: the static buffer `ret` as a list, the `INVALID_INDEX`
terminator included. `x-1` and `y-1` are only evaluated behind a wall test that
fails for `x = 0` resp. `y = 0`. -/
def get_surround (g : grid) (coord : Nat) : List Nat :=
  let y := coord / grid_width g
  let x := coord % grid_width g
  let walls := grid_cell_walls g x y
  (if !walls.left then [get_coord g (x - 1) y] else []) ++
  (if !walls.right then [get_coord g (x + 1) y] else []) ++
  (if !walls.upper then [get_coord g x (y - 1)] else []) ++
  (if !walls.lower then [get_coord g x (y + 1)] else []) ++
  [INVALID_INDEX]

/-- Function `node_color` of the source. -/
def node_color (n : node) : NodeColor :=
  if n.hix = INVALID_INDEX then
    if n.path_sum = INVALID_PATH_SUM then .RED_NODE else .GREEN_NODE
  else .YELLOW_NODE

/-- The condition asserted inside `node_color`: on the path that returns
`YELLOW_NODE`, `node->path_sum != INVALID_PATH_SUM`. -/
def node_color_assert (n : node) : Prop :=
  n.hix ≠ INVALID_INDEX → n.path_sum ≠ INVALID_PATH_SUM

instance (n : node) : Decidable (node_color_assert n) := by
  unfold node_color_assert; infer_instance

/-- Function `heap_weight`: `unsigned int + size_t + size_t`, computed in `size_t`. -/
def heap_weight (g : grid) (pf : pathfinder) (coord : Nat) : Nat :=
  let x := coord % grid_width g
  let y := coord / grid_width g
  ((node_at pf coord).path_sum + diff x pf.goal_x + diff y pf.goal_y) % SIZE_MOD

/-- Function `heap_swap` of the source. -/
def heap_swap (pf : pathfinder) (hix1 hix2 : Nat) : pathfinder :=
  let coord1 := heap_at pf hix1
  let coord2 := heap_at pf hix2
  let pf1 := set_heap pf hix1 coord2
  let pf2 := set_heap pf1 hix2 coord1
  let pf3 := set_hix pf2 (heap_at pf2 hix1) hix1
  set_hix pf3 (heap_at pf3 hix2) hix2

/-- Function `heap_compare` of the source. -/
def heap_compare (g : grid) (pf : pathfinder) (hix1 hix2 : Nat) : Bool :=
  let coord1 := heap_at pf hix1
  let coord2 := heap_at pf hix2
  decide (heap_weight g pf coord1 ≤ heap_weight g pf coord2)

/-- The `parent_hix` of `sift_up`, `(hix-1)/2` in `size_t` arithmetic. -/
def parent_hix (hix : Nat) : Nat :=
  ((hix + SIZE_MOD - 1) % SIZE_MOD) / 2

/-- The body of `sift_up`, unrolled at most `fuel` times. -/
def sift_up_fuel (g : grid) : Nat → pathfinder → Nat → pathfinder
  | 0, pf, _ => pf
  | fuel + 1, pf, hix =>
    if hix = 0 ∨ ¬ heap_compare g pf hix (parent_hix hix) = true then pf
    else sift_up_fuel g fuel (heap_swap pf hix (parent_hix hix)) (parent_hix hix)

/-- Function `sift_up`: every recursive call at least halves `hix`, so `hix + 1`
unrollings reach the base case; `sift_up_unfold` below is the recursion of the
source with no fuel left in it. -/
def sift_up (g : grid) (pf : pathfinder) (hix : Nat) : pathfinder :=
  sift_up_fuel g (hix + 1) pf hix

/-- The `swap_hix` that `sift_down` computes. A child index `2*hix + 1` or
`2*hix + 2` is only used when it is below `heap_size`, a count of allocated
`size_t` slots, and is written without reduction modulo `2^64`. -/
def sift_down_target (g : grid) (pf : pathfinder) (hix : Nat) : Nat :=
  let left_hix := 2 * hix + 1
  let right_hix := 2 * hix + 2
  let swap_hix :=
    if left_hix < pf.heap_size ∧ heap_compare g pf left_hix hix = true then left_hix else hix
  if right_hix < pf.heap_size ∧ heap_compare g pf right_hix swap_hix = true then right_hix
  else swap_hix

/-- The body of `sift_down`, unrolled at most `fuel` times. -/
def sift_down_fuel (g : grid) : Nat → pathfinder → Nat → pathfinder
  | 0, pf, _ => pf
  | fuel + 1, pf, hix =>
    if sift_down_target g pf hix = hix then pf
    else sift_down_fuel g fuel (heap_swap pf hix (sift_down_target g pf hix))
      (sift_down_target g pf hix)

/-- Function `sift_down`: every recursive call moves to a child slot below
`heap_size`, so `heap_size + 1` unrollings reach the base case; `sift_down_unfold`
below is the recursion of the source with no fuel left in it. -/
def sift_down (g : grid) (pf : pathfinder) (hix : Nat) : pathfinder :=
  sift_down_fuel g (pf.heap_size + 1) pf hix

/-- Function `update_path_sum` of the source. -/
def update_path_sum (g : grid) (pf : pathfinder) (coord path_sum : Nat) : pathfinder :=
  if node_color (node_at pf coord) ≠ .GREEN_NODE ∧ path_sum < (node_at pf coord).path_sum then
    let pf1 := set_path_sum pf coord (path_sum % UINT_MOD)
    let pf2 :=
      if (node_at pf1 coord).hix = INVALID_INDEX then
        let pf3 := set_heap pf1 pf1.heap_size coord
        { set_hix pf3 coord pf3.heap_size with heap_size := pf3.heap_size + 1 }
      else pf1
    sift_up g pf2 (node_at pf2 coord).hix
  else pf

/-- Function `next_green_coord`: the popped coord and the state left behind. -/
def next_green_coord (g : grid) (pf : pathfinder) : Nat × pathfinder :=
  let ret := heap_at pf 0
  let pf1 := { pf with heap_size := pf.heap_size - 1 }
  let pf2 := set_heap pf1 0 (heap_at pf1 pf1.heap_size)
  let pf3 := set_hix pf2 (heap_at pf2 0) 0
  let pf4 := set_hix pf3 ret INVALID_INDEX
  (ret, sift_down g pf4 0)

/-- The two conditions asserted at the top of `next_green_coord`. -/
def next_green_coord_assert (pf : pathfinder) : Prop :=
  pf.heap_size ≠ 0 ∧ (node_at pf (heap_at pf 0)).hix = 0

/-- Function `pathfinder_init`; the `malloc`ed heap buffer is taken as zero-filled. -/
def pathfinder_init (g : grid) (start_x start_y end_x end_y : Nat) : pathfinder :=
  let width := grid_width g
  let height := grid_height g
  let start_coord := get_coord g start_x start_y
  let ret : pathfinder :=
    { heap := List.replicate (width * height) 0
      heap_size := 0
      goal_x := end_x
      goal_y := end_y
      nodes := List.replicate (width * height) ⟨INVALID_PATH_SUM, INVALID_INDEX⟩ }
  let ret1 := { set_heap ret 0 start_coord with heap_size := 1 }
  set_hix (set_path_sum ret1 start_coord 0) start_coord 0

/-- The loop of `pathfinder_step` over the buffer returned by `get_surround`,
which stops at the first `INVALID_INDEX`. -/
def relax_surround (g : grid) (pf : pathfinder) (path_sum : Nat) : List Nat → pathfinder
  | [] => pf
  | n :: rest =>
    if n = INVALID_INDEX then pf
    else relax_surround g (update_path_sum g pf n path_sum) path_sum rest

/-- Function `pathfinder_step` of the source. -/
def pathfinder_step (g : grid) (pf : pathfinder) : pathfinder :=
  if pf.heap_size = 0 then pf
  else
    let r := next_green_coord g pf
    let coord := r.1
    let pf1 := r.2
    let path_sum := ((node_at pf1 coord).path_sum + 1) % UINT_MOD
    relax_surround g pf1 path_sum (get_surround g coord)

/-- Function `pathfinder_node_color` of the source. -/
def pathfinder_node_color (g : grid) (pf : pathfinder) (x y : Nat) : NodeColor :=
  node_color (node_at pf (get_coord g x y))

/-- The state after `k` calls of `pathfinder_step`. -/
def run (g : grid) (pf : pathfinder) : Nat → pathfinder
  | 0 => pf
  | k + 1 => pathfinder_step g (run g pf k)

/-! ## Specification-level notions -/

/-- Number of cells, the length of `nodes` and of `heap`. -/
def cell_count (g : grid) : Nat := grid_width g * grid_height g

/-- The heap-slot bookkeeping: the first `heap_size` heap entries and the nodes
with a valid `hix` point at each other. -/
structure HeapWF (N : Nat) (pf : pathfinder) : Prop where
  hlen : pf.heap.length = N
  nlen : pf.nodes.length = N
  hsz : pf.heap_size ≤ N
  fwd : ∀ i, i < pf.heap_size →
    heap_at pf i < N ∧ (node_at pf (heap_at pf i)).hix = i
  bwd : ∀ c, c < N → (node_at pf c).hix ≠ INVALID_INDEX →
    (node_at pf c).hix < pf.heap_size ∧ heap_at pf (node_at pf c).hix = c

/-- Two states that agree on the heap size, the goal, every path sum and on which
nodes have a heap slot. -/
structure SameCells (pf pf2 : pathfinder) : Prop where
  size : pf2.heap_size = pf.heap_size
  gx : pf2.goal_x = pf.goal_x
  gy : pf2.goal_y = pf.goal_y
  ps : ∀ c, (node_at pf2 c).path_sum = (node_at pf c).path_sum
  inv : ∀ c, (node_at pf2 c).hix = INVALID_INDEX ↔ (node_at pf c).hix = INVALID_INDEX

/-- The binary min-heap order on the live slots. -/
def HeapOrd (g : grid) (pf : pathfinder) : Prop :=
  ∀ i, 0 < i → i < pf.heap_size →
    heap_weight g pf (heap_at pf ((i - 1) / 2)) ≤ heap_weight g pf (heap_at pf i)

/-- Heap order that may fail only between slot `k` and its parent, the parent of
`k` being no heavier than the children of `k`. -/
def HeapOrdUp (g : grid) (pf : pathfinder) (k : Nat) : Prop :=
  (∀ i, 0 < i → i < pf.heap_size → i ≠ k →
    heap_weight g pf (heap_at pf ((i - 1) / 2)) ≤ heap_weight g pf (heap_at pf i)) ∧
  (∀ i, 0 < i → i < pf.heap_size → (i - 1) / 2 = k → 0 < k →
    heap_weight g pf (heap_at pf ((k - 1) / 2)) ≤ heap_weight g pf (heap_at pf i))

/-- Heap order that may fail only between slot `k` and its children, the parent
of `k` being no heavier than the children of `k`. -/
def HeapOrdDown (g : grid) (pf : pathfinder) (k : Nat) : Prop :=
  (∀ i, 0 < i → i < pf.heap_size → (i - 1) / 2 ≠ k →
    heap_weight g pf (heap_at pf ((i - 1) / 2)) ≤ heap_weight g pf (heap_at pf i)) ∧
  (∀ i, 0 < i → i < pf.heap_size → (i - 1) / 2 = k → 0 < k →
    heap_weight g pf (heap_at pf ((k - 1) / 2)) ≤ heap_weight g pf (heap_at pf i))

/-- An open edge from cell `a` to cell `b`: both are cells of the grid, `b` is the
right, left, lower or upper neighbour of `a`, and `grid_cell_walls` reports that
direction of `a` as not blocked. -/
def open_edge (g : grid) (a b : Nat) : Bool :=
  decide (a < cell_count g) && decide (b < cell_count g) &&
  ((decide (a / g.width = b / g.width) && decide (a % g.width + 1 = b % g.width) &&
      !(grid_cell_walls g (a % g.width) (a / g.width)).right) ||
   (decide (a / g.width = b / g.width) && decide (b % g.width + 1 = a % g.width) &&
      !(grid_cell_walls g (a % g.width) (a / g.width)).left) ||
   (decide (a % g.width = b % g.width) && decide (a / g.width + 1 = b / g.width) &&
      !(grid_cell_walls g (a % g.width) (a / g.width)).lower) ||
   (decide (a % g.width = b % g.width) && decide (b / g.width + 1 = a / g.width) &&
      !(grid_cell_walls g (a % g.width) (a / g.width)).upper))

/-- A walk of `k` edge traversals from `s` to a cell, through open edges only. -/
inductive Walk (g : grid) (s : Nat) : Nat → Nat → Prop where
  | start : Walk g s s 0
  | step {c n k : Nat} : Walk g s c k → open_edge g c n = true → Walk g s n (k + 1)

/-- A cell that some walk from `s` reaches. -/
def Reachable (g : grid) (s c : Nat) : Prop := ∃ k, Walk g s c k

/-- The true shortest distance: `d` is the length of a walk from `s` to `c` and no
walk from `s` to `c` is shorter. -/
def IsDist (g : grid) (s c d : Nat) : Prop :=
  Walk g s c d ∧ ∀ k, Walk g s c k → d ≤ k

/-- The cells classified closed. -/
def closed_set (N : Nat) (pf : pathfinder) : Finset Nat :=
  (Finset.range N).filter (fun c => node_color (node_at pf c) = .GREEN_NODE)

/-- Number of cells classified closed. -/
def closed_count (N : Nat) (pf : pathfinder) : Nat := (closed_set N pf).card

/-- The Manhattan distance from a cell to the goal, the heuristic inside
`heap_weight`. -/
def manhattan (g : grid) (pf : pathfinder) (coord : Nat) : Nat :=
  diff (coord % grid_width g) pf.goal_x + diff (coord / grid_width g) pf.goal_y

/-- The node table of `width*height` nodes of 16 bytes each has a size that fits
in `size_t`, which the `malloc` call of `pathfinder_init` takes for granted. -/
def alloc_fits (g : grid) : Prop := cell_count g * 16 < SIZE_MOD

instance (g : grid) : Decidable (alloc_fits g) := by
  unfold alloc_fits; infer_instance

/-- The invariant of the search from start cell `s` that depends neither on the
order in which cells leave the heap nor on the size of the grid. -/
structure SInv (g : grid) (s : Nat) (pf : pathfinder) : Prop where
  wf : HeapWF (cell_count g) pf
  typed : ∀ c, (node_at pf c).path_sum < UINT_MOD
  vis : ∀ c, c < cell_count g → (node_at pf c).hix ≠ INVALID_INDEX →
    (node_at pf c).path_sum ≠ INVALID_PATH_SUM
  walk : ∀ c, c < cell_count g → (node_at pf c).path_sum ≠ INVALID_PATH_SUM →
    Walk g s c (node_at pf c).path_sum
  start : (node_at pf s).path_sum = 0

/-- The part of the invariant that needs path sums to stay below
`INVALID_PATH_SUM`: path sums are bounded by the number of closed cells, and the
cells next to a closed cell have been visited. -/
structure CInv (g : grid) (pf : pathfinder) : Prop where
  bound : ∀ c, c < cell_count g → (node_at pf c).path_sum ≠ INVALID_PATH_SUM →
    (node_at pf c).path_sum ≤ closed_count (cell_count g) pf ∧
    ((node_at pf c).hix = INVALID_INDEX →
      (node_at pf c).path_sum < closed_count (cell_count g) pf)
  clos : ∀ c, c < cell_count g → node_color (node_at pf c) = .GREEN_NODE →
    ∀ n, open_edge g c n = true → (node_at pf n).path_sum ≠ INVALID_PATH_SUM

/-- The invariant of the search that rests on the heap order and on the
consistency of the Manhattan heuristic. -/
structure AInv (g : grid) (s : Nat) (pf : pathfinder) : Prop where
  ord : HeapOrd g pf
  man : ∀ c, c < cell_count g → manhattan g pf c + UINT_MOD ≤ SIZE_MOD
  near : ∀ c, c < cell_count g → node_color (node_at pf c) = .GREEN_NODE →
    ∀ n, open_edge g c n = true → (node_at pf n).path_sum ≤ (node_at pf c).path_sum + 1
  opt : ∀ c, c < cell_count g → node_color (node_at pf c) = .GREEN_NODE →
    ∀ k, Walk g s c k → (node_at pf c).path_sum ≤ k
  mono : ∀ c, c < cell_count g → node_color (node_at pf c) = .GREEN_NODE →
    ∀ o, o < cell_count g → (node_at pf o).hix ≠ INVALID_INDEX →
    (node_at pf c).path_sum + manhattan g pf c ≤ (node_at pf o).path_sum + manhattan g pf o

/-! ## Debug configuration and instrumentation -/

/-- The two conditions asserted by `grid_right_wall`. -/
def grid_right_wall_assert (g : grid) (x y : Nat) : Prop :=
  x < g.width - 1 ∧ y < g.height

/-- The two conditions asserted by `grid_lower_wall`. -/
def grid_lower_wall_assert (g : grid) (x y : Nat) : Prop :=
  y < g.height - 1 ∧ x < g.width

/-- The condition asserted by `grid_left_wall` together with those of the
`grid_right_wall` call it makes. -/
def grid_left_wall_assert (g : grid) (x y : Nat) : Prop :=
  0 < x ∧ grid_right_wall_assert g (x - 1) y

/-- The condition asserted by `grid_upper_wall` together with those of the
`grid_lower_wall` call it makes. -/
def grid_upper_wall_assert (g : grid) (x y : Nat) : Prop :=
  0 < y ∧ grid_lower_wall_assert g x (y - 1)

instance (g : grid) (x y : Nat) : Decidable (grid_right_wall_assert g x y) := by
  unfold grid_right_wall_assert; infer_instance

instance (g : grid) (x y : Nat) : Decidable (grid_lower_wall_assert g x y) := by
  unfold grid_lower_wall_assert; infer_instance

instance (g : grid) (x y : Nat) : Decidable (grid_left_wall_assert g x y) := by
  unfold grid_left_wall_assert; infer_instance

instance (g : grid) (x y : Nat) : Decidable (grid_upper_wall_assert g x y) := by
  unfold grid_upper_wall_assert; infer_instance

/-- Reading through a wall pointer with the storage bound checked: `none` when
the index lies outside `walls`. -/
def wall_read_checked (g : grid) (p : Nat) : Option Bool :=
  if p < g.walls.length then some (wall_read g p) else none

/-- One direction of `grid_cell_walls` with assertions enabled: the boundary test
short-circuits; otherwise the accessor is called, which fails (`none`) when an
assertion does not hold or the flag lies outside the storage. -/
def cell_wall_checked (g : grid) (boundary asserted : Bool) (p : Nat) : Option Bool :=
  if boundary then some true
  else if asserted then wall_read_checked g p else none

/-- Function `grid_cell_walls` with assertions enabled and storage bounds
checked; `none` stands for an assertion failure or an access outside `walls`. -/
def grid_cell_walls_checked (g : grid) (x y : Nat) : Option cell_walls :=
  (cell_wall_checked g (x == g.width - 1) (decide (grid_right_wall_assert g x y))
    (grid_right_wall g x y)).bind fun right =>
  (cell_wall_checked g (y == g.height - 1) (decide (grid_lower_wall_assert g x y))
    (grid_lower_wall g x y)).bind fun lower =>
  (cell_wall_checked g (x == 0) (decide (grid_left_wall_assert g x y))
    (grid_left_wall g x y)).bind fun left =>
  (cell_wall_checked g (y == 0) (decide (grid_upper_wall_assert g x y))
    (grid_upper_wall g x y)).bind fun upper =>
  some { right := right, lower := lower, left := left, upper := upper }

/-- Function `node_color` with its assertion enabled: `none` stands for the
assertion failure. -/
def node_color_debug (n : node) : Option NodeColor :=
  if n.hix = INVALID_INDEX then
    if n.path_sum = INVALID_PATH_SUM then some .RED_NODE else some .GREEN_NODE
  else if n.path_sum ≠ INVALID_PATH_SUM then some .YELLOW_NODE else none

/-- Function `pathfinder_node_color` with assertions enabled. Neither it nor
`get_coord` asserts anything; the only assertion on the way is the one inside
`node_color`. -/
def pathfinder_node_color_debug (g : grid) (pf : pathfinder) (x y : Nat) :
    Option NodeColor :=
  node_color_debug (node_at pf (get_coord g x y))

/-- Number of `heap_swap` calls made by the body of `sift_up` unrolled at most
`fuel` times. -/
def sift_up_swaps (g : grid) : Nat → pathfinder → Nat → Nat
  | 0, _, _ => 0
  | fuel + 1, pf, hix =>
    if hix = 0 ∨ ¬ heap_compare g pf hix (parent_hix hix) = true then 0
    else 1 + sift_up_swaps g fuel (heap_swap pf hix (parent_hix hix)) (parent_hix hix)

/-- Number of `heap_swap` calls made by the body of `sift_down` unrolled at most
`fuel` times. -/
def sift_down_swaps (g : grid) : Nat → pathfinder → Nat → Nat
  | 0, _, _ => 0
  | fuel + 1, pf, hix =>
    if sift_down_target g pf hix = hix then 0
    else 1 + sift_down_swaps g fuel (heap_swap pf hix (sift_down_target g pf hix))
      (sift_down_target g pf hix)

end Pathfinder

namespace Pathfinder

/-! ## Grid: fresh state and wall symmetry -/

theorem wall_read_grid_init (width height p : Nat) :
    wall_read (grid_init width height) p = false := by
  unfold wall_read grid_init
  simp only [List.getD_eq_getElem?_getD, List.getElem?_replicate]
  split <;> rfl

theorem getD_set_self {α : Type} (l : List α) (i : Nat) (v d : α) (h : i < l.length) :
    (l.set i v).getD i d = v := by
  simp [List.getD_eq_getElem?_getD, List.getElem?_set, h]

theorem getD_set_ne {α : Type} (l : List α) (i j : Nat) (v d : α) (h : i ≠ j) :
    (l.set i v).getD j d = l.getD j d := by
  simp [List.getD_eq_getElem?_getD, List.getElem?_set, h]

theorem right_wall_in_bounds (g : grid) (hg : grid_wf g) (x y : Nat)
    (hx : x < g.width - 1) (hy : y < g.height) :
    grid_right_wall g x y < g.walls.length := by
  obtain ⟨gw, gh, ws⟩ := g
  obtain ⟨hw, hh, hl⟩ := hg
  unfold grid_right_wall
  rw [hl]
  simp only at hx hy hw hh ⊢
  obtain ⟨w, rfl⟩ : ∃ w, gw = w + 1 := ⟨gw - 1, by omega⟩
  obtain ⟨h, rfl⟩ : ∃ h, gh = y + 1 + h := ⟨gh - (y + 1), by omega⟩
  simp only [Nat.add_sub_cancel] at hx ⊢
  have e : 2 * (w + 1) * (y + 1 + h) = 2 * (w * y) + 2 * w + 2 * (w * h) + 2 * y + 2 + 2 * h := by
    ring
  rw [e]
  have : 0 ≤ w * h := Nat.zero_le _
  omega

theorem lower_wall_in_bounds (g : grid) (hg : grid_wf g) (x y : Nat)
    (hx : x < g.width) (hy : y < g.height - 1) :
    grid_lower_wall g x y < g.walls.length := by
  obtain ⟨gw, gh, ws⟩ := g
  obtain ⟨hw, hh, hl⟩ := hg
  unfold grid_lower_wall
  rw [hl]
  simp only at hx hy hw hh ⊢
  obtain ⟨w, rfl⟩ : ∃ w, gw = w + 1 := ⟨gw - 1, by omega⟩
  obtain ⟨h, rfl⟩ : ∃ h, gh = y + 2 + h := ⟨gh - (y + 2), by omega⟩
  simp only [Nat.add_sub_cancel]
  have e : 2 * (w + 1) * (y + 2 + h) = 2 * (w * y) + 4 * w + 2 * (w * h) + 2 * y + 4 + 2 * h := by
    ring
  have e2 : w * (y + 2 + h) + ((w + 1) * y + x) = 2 * (w * y) + 2 * w + w * h + y + x := by
    ring
  rw [e, e2]
  have : 0 ≤ w * h := Nat.zero_le _
  omega

/-- C9: on a grid fresh from `grid_init` with positive dimensions, every in-range
cell reports right blocked iff it is in the last column, lower blocked iff it is
in the last row, left blocked iff it is in column 0 and upper blocked iff it is
in row 0; for the 1x1 grid all four directions are blocked. -/
theorem grid_init_cell_walls (width height x y : Nat)
    (hw : 1 ≤ width) (hh : 1 ≤ height) (hx : x < width) (hy : y < height) :
    grid_cell_walls (grid_init width height) x y =
        { right := decide (x = width - 1)
          lower := decide (y = height - 1)
          left := decide (x = 0)
          upper := decide (y = 0) } ∧
      grid_cell_walls (grid_init 1 1) 0 0 =
        { right := true, lower := true, left := true, upper := true } := by
  constructor
  · simp only [grid_cell_walls, wall_read_grid_init, Bool.or_false]
    simp [grid_init, beq_eq_decide]
  · decide

theorem grid_init_cell_walls_witness :
    (1 ≤ 3 ∧ 1 ≤ 2 ∧ 2 < 3 ∧ 0 < 2) ∧
      grid_cell_walls (grid_init 3 2) 2 0 =
        { right := true, lower := false, left := false, upper := true } :=
  ⟨by decide, (grid_init_cell_walls 3 2 2 0 (by decide) (by decide) (by decide) (by decide)).1⟩

/-- C10: in a well-formed grid the right wall of `(x,y)` and the left wall of
`(x+1,y)` are one stored flag, as are the lower wall of `(x,y)` and the upper
wall of `(x,y+1)`; the two cells always report the same value for the shared
edge, and after the flag is set through either accessor both report it
blocked. -/
theorem wall_symmetry (g : grid) (hg : grid_wf g) (x y : Nat) :
    (x < g.width - 1 → y < g.height →
      grid_right_wall g x y = grid_left_wall g (x + 1) y ∧
      (grid_cell_walls g x y).right = (grid_cell_walls g (x + 1) y).left ∧
      (grid_cell_walls (wall_write g (grid_right_wall g x y) true) x y).right = true ∧
      (grid_cell_walls (wall_write g (grid_right_wall g x y) true) (x + 1) y).left = true ∧
      (grid_cell_walls (wall_write g (grid_left_wall g (x + 1) y) true) x y).right = true ∧
      (grid_cell_walls (wall_write g (grid_left_wall g (x + 1) y) true) (x + 1) y).left = true) ∧
    (x < g.width → y < g.height - 1 →
      grid_lower_wall g x y = grid_upper_wall g x (y + 1) ∧
      (grid_cell_walls g x y).lower = (grid_cell_walls g x (y + 1)).upper ∧
      (grid_cell_walls (wall_write g (grid_lower_wall g x y) true) x y).lower = true ∧
      (grid_cell_walls (wall_write g (grid_lower_wall g x y) true) x (y + 1)).upper = true ∧
      (grid_cell_walls (wall_write g (grid_upper_wall g x (y + 1)) true) x y).lower = true ∧
      (grid_cell_walls (wall_write g (grid_upper_wall g x (y + 1)) true) x (y + 1)).upper
        = true) := by
  constructor
  · intro hx hy
    have hb := right_wall_in_bounds g hg x y hx hy
    have e : grid_left_wall g (x + 1) y = grid_right_wall g x y := by
      simp [grid_left_wall]
    have hne : ¬ x = g.width - 1 := by omega
    have hrd : wall_read (wall_write g (grid_right_wall g x y) true)
        (grid_right_wall (wall_write g (grid_right_wall g x y) true) x y) = true := by
      simp only [wall_read, wall_write, grid_right_wall]
      exact getD_set_self _ _ _ _ hb
    refine ⟨e.symm, ?_, ?_, ?_, ?_, ?_⟩
    · simp [grid_cell_walls, grid_left_wall, hne]
    · simp [grid_cell_walls, hrd]
    · simp only [grid_cell_walls, grid_left_wall, Nat.add_sub_cancel, hrd]; simp
    · rw [e]; simp [grid_cell_walls, hrd]
    · rw [e]; simp only [grid_cell_walls, grid_left_wall, Nat.add_sub_cancel, hrd]; simp
  · intro hx hy
    have hb := lower_wall_in_bounds g hg x y hx hy
    have e : grid_upper_wall g x (y + 1) = grid_lower_wall g x y := by
      simp [grid_upper_wall]
    have hne : ¬ y = g.height - 1 := by omega
    have hrd : wall_read (wall_write g (grid_lower_wall g x y) true)
        (grid_lower_wall (wall_write g (grid_lower_wall g x y) true) x y) = true := by
      simp only [wall_read, wall_write, grid_lower_wall]
      exact getD_set_self _ _ _ _ hb
    refine ⟨e.symm, ?_, ?_, ?_, ?_, ?_⟩
    · simp [grid_cell_walls, grid_upper_wall, hne]
    · simp [grid_cell_walls, hrd]
    · simp only [grid_cell_walls, grid_upper_wall, Nat.add_sub_cancel, hrd]; simp
    · rw [e]; simp [grid_cell_walls, hrd]
    · rw [e]; simp only [grid_cell_walls, grid_upper_wall, Nat.add_sub_cancel, hrd]; simp

theorem wall_symmetry_witness :
    grid_wf (grid_init 3 2) ∧
      (grid_cell_walls (wall_write (grid_init 3 2) (grid_left_wall (grid_init 3 2) (1 + 1) 0)
        true) 1 0).right = true :=
  ⟨by decide, ((wall_symmetry (grid_init 3 2) (by decide) 1 0).1 (by decide) (by decide)).2.2.2.2.1⟩

end Pathfinder

namespace Pathfinder

/-! ## Reads after writes -/

@[simp] theorem set_hix_heap (pf : pathfinder) (c v : Nat) : (set_hix pf c v).heap = pf.heap := rfl
@[simp] theorem set_hix_heap_size (pf : pathfinder) (c v : Nat) :
    (set_hix pf c v).heap_size = pf.heap_size := rfl
@[simp] theorem set_hix_goal_x (pf : pathfinder) (c v : Nat) :
    (set_hix pf c v).goal_x = pf.goal_x := rfl
@[simp] theorem set_hix_goal_y (pf : pathfinder) (c v : Nat) :
    (set_hix pf c v).goal_y = pf.goal_y := rfl
@[simp] theorem set_hix_nodes_length (pf : pathfinder) (c v : Nat) :
    (set_hix pf c v).nodes.length = pf.nodes.length := by simp [set_hix]
@[simp] theorem heap_at_set_hix (pf : pathfinder) (c v i : Nat) :
    heap_at (set_hix pf c v) i = heap_at pf i := rfl

@[simp] theorem set_path_sum_heap (pf : pathfinder) (c v : Nat) :
    (set_path_sum pf c v).heap = pf.heap := rfl
@[simp] theorem set_path_sum_heap_size (pf : pathfinder) (c v : Nat) :
    (set_path_sum pf c v).heap_size = pf.heap_size := rfl
@[simp] theorem set_path_sum_goal_x (pf : pathfinder) (c v : Nat) :
    (set_path_sum pf c v).goal_x = pf.goal_x := rfl
@[simp] theorem set_path_sum_goal_y (pf : pathfinder) (c v : Nat) :
    (set_path_sum pf c v).goal_y = pf.goal_y := rfl
@[simp] theorem set_path_sum_nodes_length (pf : pathfinder) (c v : Nat) :
    (set_path_sum pf c v).nodes.length = pf.nodes.length := by simp [set_path_sum]
@[simp] theorem heap_at_set_path_sum (pf : pathfinder) (c v i : Nat) :
    heap_at (set_path_sum pf c v) i = heap_at pf i := rfl

@[simp] theorem set_heap_nodes (pf : pathfinder) (i v : Nat) :
    (set_heap pf i v).nodes = pf.nodes := rfl
@[simp] theorem set_heap_heap_size (pf : pathfinder) (i v : Nat) :
    (set_heap pf i v).heap_size = pf.heap_size := rfl
@[simp] theorem set_heap_goal_x (pf : pathfinder) (i v : Nat) :
    (set_heap pf i v).goal_x = pf.goal_x := rfl
@[simp] theorem set_heap_goal_y (pf : pathfinder) (i v : Nat) :
    (set_heap pf i v).goal_y = pf.goal_y := rfl
@[simp] theorem set_heap_heap_length (pf : pathfinder) (i v : Nat) :
    (set_heap pf i v).heap.length = pf.heap.length := by simp [set_heap]
@[simp] theorem node_at_set_heap (pf : pathfinder) (i v c : Nat) :
    node_at (set_heap pf i v) c = node_at pf c := rfl

theorem heap_at_set_heap_self (pf : pathfinder) (i v : Nat) (h : i < pf.heap.length) :
    heap_at (set_heap pf i v) i = v := by
  simp only [heap_at, set_heap]
  exact getD_set_self _ _ _ _ h

theorem heap_at_set_heap_ne (pf : pathfinder) (i j v : Nat) (h : i ≠ j) :
    heap_at (set_heap pf i v) j = heap_at pf j := by
  simp only [heap_at, set_heap]
  exact getD_set_ne _ _ _ _ _ h

theorem node_at_set_hix_self (pf : pathfinder) (c v : Nat) (h : c < pf.nodes.length) :
    node_at (set_hix pf c v) c = { node_at pf c with hix := v } := by
  simp only [node_at, set_hix]
  exact getD_set_self _ _ _ _ h

theorem node_at_set_hix_ne (pf : pathfinder) (c d v : Nat) (h : c ≠ d) :
    node_at (set_hix pf c v) d = node_at pf d := by
  simp only [node_at, set_hix]
  exact getD_set_ne _ _ _ _ _ h

theorem node_at_set_path_sum_self (pf : pathfinder) (c v : Nat) (h : c < pf.nodes.length) :
    node_at (set_path_sum pf c v) c = { node_at pf c with path_sum := v } := by
  simp only [node_at, set_path_sum]
  exact getD_set_self _ _ _ _ h

theorem node_at_set_path_sum_ne (pf : pathfinder) (c d v : Nat) (h : c ≠ d) :
    node_at (set_path_sum pf c v) d = node_at pf d := by
  simp only [node_at, set_path_sum]
  exact getD_set_ne _ _ _ _ _ h

theorem path_sum_set_hix (pf : pathfinder) (c d v : Nat) :
    (node_at (set_hix pf c v) d).path_sum = (node_at pf d).path_sum := by
  by_cases h : c = d
  · subst h
    by_cases hl : c < pf.nodes.length
    · rw [node_at_set_hix_self pf c v hl]
    · simp only [node_at, set_hix]
      rw [List.set_eq_of_length_le (by omega)]
  · rw [node_at_set_hix_ne pf c d v h]

theorem hix_set_path_sum (pf : pathfinder) (c d v : Nat) :
    (node_at (set_path_sum pf c v) d).hix = (node_at pf d).hix := by
  by_cases h : c = d
  · subst h
    by_cases hl : c < pf.nodes.length
    · rw [node_at_set_path_sum_self pf c v hl]
    · simp only [node_at, set_path_sum]
      rw [List.set_eq_of_length_le (by omega)]
  · rw [node_at_set_path_sum_ne pf c d v h]

theorem hix_set_hix_self (pf : pathfinder) (c v : Nat) (h : c < pf.nodes.length) :
    (node_at (set_hix pf c v) c).hix = v := by
  rw [node_at_set_hix_self pf c v h]

theorem path_sum_set_path_sum_self (pf : pathfinder) (c v : Nat) (h : c < pf.nodes.length) :
    (node_at (set_path_sum pf c v) c).path_sum = v := by
  rw [node_at_set_path_sum_self pf c v h]

/-! ## Frames -/

theorem SameCells.refl (pf : pathfinder) : SameCells pf pf :=
  ⟨rfl, rfl, rfl, fun _ => rfl, fun _ => Iff.rfl⟩

theorem SameCells.trans {a b c : pathfinder} (h1 : SameCells a b) (h2 : SameCells b c) :
    SameCells a c :=
  ⟨h2.size.trans h1.size, h2.gx.trans h1.gx, h2.gy.trans h1.gy,
    fun x => (h2.ps x).trans (h1.ps x), fun x => (h2.inv x).trans (h1.inv x)⟩

theorem SameCells.weight {a b : pathfinder} (h : SameCells a b) (g : grid) (c : Nat) :
    heap_weight g b c = heap_weight g a c := by
  simp only [heap_weight, h.ps, h.gx, h.gy]

theorem SameCells.color {a b : pathfinder} (h : SameCells a b) (c : Nat) :
    node_color (node_at b c) = node_color (node_at a c) := by
  have h1 := h.ps c
  have h2 := h.inv c
  unfold node_color
  by_cases hb : (node_at b c).hix = INVALID_INDEX
  · rw [if_pos hb, if_pos (h2.1 hb), h1]
  · rw [if_neg hb, if_neg (fun x => hb (h2.2 x))]

/-! ## heap_swap -/

theorem heap_swap_spec (N : Nat) (pf : pathfinder) (i j : Nat) (hN : N < INVALID_INDEX)
    (wf : HeapWF N pf) (hi : i < pf.heap_size) (hj : j < pf.heap_size) (hij : i ≠ j) :
    HeapWF N (heap_swap pf i j) ∧ SameCells pf (heap_swap pf i j) ∧
      heap_at (heap_swap pf i j) i = heap_at pf j ∧
      heap_at (heap_swap pf i j) j = heap_at pf i ∧
      (∀ k, k ≠ i → k ≠ j → heap_at (heap_swap pf i j) k = heap_at pf k) := by
  have hiN : i < N := lt_of_lt_of_le hi wf.hsz
  have hjN : j < N := lt_of_lt_of_le hj wf.hsz
  obtain ⟨hci, hhi⟩ := wf.fwd i hi
  obtain ⟨hcj, hhj⟩ := wf.fwd j hj
  have hcne : heap_at pf i ≠ heap_at pf j := by
    intro e; rw [e, hhj] at hhi; exact hij hhi.symm
  -- the heap array after the two writes
  have H1 : ∀ k, heap_at (set_heap (set_heap pf i (heap_at pf j)) j (heap_at pf i)) k =
      if k = j then heap_at pf i else if k = i then heap_at pf j else heap_at pf k := by
    intro k
    by_cases hkj : k = j
    · subst hkj
      rw [if_pos rfl, heap_at_set_heap_self _ _ _ (by simp [wf.hlen, hjN])]
    · rw [if_neg hkj, heap_at_set_heap_ne _ _ _ _ (Ne.symm hkj)]
      by_cases hki : k = i
      · subst hki
        rw [if_pos rfl, heap_at_set_heap_self _ _ _ (by simp [wf.hlen, hiN])]
      · rw [if_neg hki, heap_at_set_heap_ne _ _ _ _ (Ne.symm hki)]
  have Hheap : ∀ k, heap_at (heap_swap pf i j) k =
      if k = j then heap_at pf i else if k = i then heap_at pf j else heap_at pf k := by
    intro k
    simp only [heap_swap, heap_at_set_hix]
    exact H1 k
  have Hnode : ∀ c, node_at (heap_swap pf i j) c =
      if c = heap_at pf i then { node_at pf c with hix := j }
      else if c = heap_at pf j then { node_at pf c with hix := i } else node_at pf c := by
    intro c
    simp only [heap_swap, heap_at_set_hix]
    rw [H1 i, H1 j, if_neg hij, if_pos rfl, if_pos rfl]
    by_cases hc1 : c = heap_at pf i
    · subst hc1
      rw [if_pos rfl, node_at_set_hix_self _ _ _ (by simp [wf.nlen, hci]),
        node_at_set_hix_ne _ _ _ _ (Ne.symm hcne)]
      rfl
    · rw [if_neg hc1, node_at_set_hix_ne _ _ _ _ (Ne.symm hc1)]
      by_cases hc2 : c = heap_at pf j
      · subst hc2
        rw [if_pos rfl, node_at_set_hix_self _ _ _ (by simp [wf.nlen, hcj])]
        rfl
      · rw [if_neg hc2, node_at_set_hix_ne _ _ _ _ (Ne.symm hc2)]
        rfl
  have Hsize : (heap_swap pf i j).heap_size = pf.heap_size := rfl
  have hiI : i ≠ INVALID_INDEX := by omega
  have hjI : j ≠ INVALID_INDEX := by omega
  refine ⟨⟨?_, ?_, ?_, ?_, ?_⟩, ⟨Hsize, rfl, rfl, ?_, ?_⟩, ?_, ?_, ?_⟩
  · simp [heap_swap, wf.hlen]
  · simp [heap_swap, wf.nlen]
  · rw [Hsize]; exact wf.hsz
  · intro k hk
    rw [Hsize] at hk
    rw [Hheap k]
    by_cases hkj : k = j
    · subst hkj
      rw [if_pos rfl, Hnode, if_pos rfl]
      exact ⟨hci, rfl⟩
    · rw [if_neg hkj]
      by_cases hki : k = i
      · subst hki
        rw [if_pos rfl, Hnode, if_neg (Ne.symm hcne), if_pos rfl]
        exact ⟨hcj, rfl⟩
      · rw [if_neg hki]
        obtain ⟨hck, hhk⟩ := wf.fwd k hk
        have n1 : heap_at pf k ≠ heap_at pf i := by
          intro e; rw [e, hhi] at hhk; exact hki hhk.symm
        have n2 : heap_at pf k ≠ heap_at pf j := by
          intro e; rw [e, hhj] at hhk; exact hkj hhk.symm
        rw [Hnode, if_neg n1, if_neg n2]
        exact ⟨hck, hhk⟩
  · intro c hc hne
    rw [Hsize]
    rw [Hnode] at hne ⊢
    by_cases hc1 : c = heap_at pf i
    · rw [if_pos hc1]
      refine ⟨hj, ?_⟩
      show heap_at (heap_swap pf i j) j = c
      rw [Hheap, if_pos rfl, hc1]
    · rw [if_neg hc1] at hne ⊢
      by_cases hc2 : c = heap_at pf j
      · rw [if_pos hc2]
        refine ⟨hi, ?_⟩
        show heap_at (heap_swap pf i j) i = c
        rw [Hheap, if_neg hij, if_pos rfl, hc2]
      · rw [if_neg hc2] at hne ⊢
        obtain ⟨b1, b2⟩ := wf.bwd c hc hne
        refine ⟨b1, ?_⟩
        have n1 : (node_at pf c).hix ≠ j := by
          intro e; rw [e] at b2; exact hc2 b2.symm
        have n2 : (node_at pf c).hix ≠ i := by
          intro e; rw [e] at b2; exact hc1 b2.symm
        rw [Hheap, if_neg n1, if_neg n2]
        exact b2
  · intro c
    rw [Hnode]
    split
    · rfl
    · split <;> rfl
  · intro c
    rw [Hnode]
    by_cases hc1 : c = heap_at pf i
    · rw [if_pos hc1]
      subst hc1
      simp only [hhi]
      exact ⟨fun e => absurd e hjI, fun e => absurd e hiI⟩
    · rw [if_neg hc1]
      by_cases hc2 : c = heap_at pf j
      · rw [if_pos hc2]
        subst hc2
        simp only [hhj]
        exact ⟨fun e => absurd e hiI, fun e => absurd e hjI⟩
      · rw [if_neg hc2]
  · rw [Hheap, if_neg hij, if_pos rfl]
  · rw [Hheap, if_pos rfl]
  · intro k hki hkj
    rw [Hheap, if_neg hkj, if_neg hki]

end Pathfinder

namespace Pathfinder

/-! ## sift_up and sift_down -/

theorem parent_hix_eq (k : Nat) (h0 : 0 < k) (hk : k < SIZE_MOD) :
    parent_hix k = (k - 1) / 2 := by
  have hk2 : k < 2 ^ 64 := hk
  show ((k + 2 ^ 64 - 1) % 2 ^ 64) / 2 = (k - 1) / 2
  omega

theorem INVALID_INDEX_lt_SIZE_MOD : INVALID_INDEX < SIZE_MOD := by
  show 2 ^ 64 - 1 < 2 ^ 64
  omega

/-- Weights of the slots after a swap of two live slots. -/
theorem heap_swap_weights (g : grid) (N : Nat) (pf : pathfinder) (i j : Nat)
    (hN : N < INVALID_INDEX) (wf : HeapWF N pf) (hi : i < pf.heap_size)
    (hj : j < pf.heap_size) (hij : i ≠ j) :
    heap_weight g (heap_swap pf i j) (heap_at (heap_swap pf i j) i)
        = heap_weight g pf (heap_at pf j) ∧
      heap_weight g (heap_swap pf i j) (heap_at (heap_swap pf i j) j)
        = heap_weight g pf (heap_at pf i) ∧
      ∀ k, k ≠ i → k ≠ j →
        heap_weight g (heap_swap pf i j) (heap_at (heap_swap pf i j) k)
          = heap_weight g pf (heap_at pf k) := by
  obtain ⟨_, sc, e1, e2, e3⟩ := heap_swap_spec N pf i j hN wf hi hj hij
  refine ⟨?_, ?_, ?_⟩
  · rw [sc.weight, e1]
  · rw [sc.weight, e2]
  · intro k h1 h2
    rw [sc.weight, e3 k h1 h2]

theorem sift_up_fuel_wf (g : grid) (N : Nat) (hN : N < INVALID_INDEX) :
    ∀ (fuel : Nat) (pf : pathfinder) (k : Nat), HeapWF N pf → k < pf.heap_size →
      HeapWF N (sift_up_fuel g fuel pf k) ∧ SameCells pf (sift_up_fuel g fuel pf k) := by
  intro fuel
  induction fuel with
  | zero => intro pf k wf _; exact ⟨wf, SameCells.refl pf⟩
  | succ fuel ih =>
    intro pf k wf hk
    unfold sift_up_fuel
    split
    · exact ⟨wf, SameCells.refl pf⟩
    · rename_i hc
      have h0 : 0 < k := by
        rcases Nat.eq_zero_or_pos k with h | h
        · exact absurd (Or.inl h) hc
        · exact h
      have hkS : k < SIZE_MOD := by
        have := wf.hsz
        have := INVALID_INDEX_lt_SIZE_MOD
        omega
      rw [parent_hix_eq k h0 hkS]
      have hp : (k - 1) / 2 < pf.heap_size := by omega
      have hne : k ≠ (k - 1) / 2 := by omega
      obtain ⟨wf2, sc, _⟩ := heap_swap_spec N pf k ((k - 1) / 2) hN wf hk hp hne
      obtain ⟨wf3, sc3⟩ := ih (heap_swap pf k ((k - 1) / 2)) ((k - 1) / 2) wf2
        (by rw [sc.size]; exact hp)
      exact ⟨wf3, sc.trans sc3⟩

theorem HeapOrdUp_zero (g : grid) (pf : pathfinder) (h : HeapOrdUp g pf 0) : HeapOrd g pf := by
  intro i h0 hi
  exact h.1 i h0 hi (by omega)

theorem sift_up_fuel_ord (g : grid) (N : Nat) (hN : N < INVALID_INDEX) :
    ∀ (fuel : Nat) (pf : pathfinder) (k : Nat), HeapWF N pf → k < pf.heap_size → k < fuel →
      HeapOrdUp g pf k → HeapOrd g (sift_up_fuel g fuel pf k) := by
  intro fuel
  induction fuel with
  | zero => intro pf k _ _ hf; omega
  | succ fuel ih =>
    intro pf k wf hk hf ho
    unfold sift_up_fuel
    by_cases h0 : k = 0
    · rw [if_pos (Or.inl h0)]
      subst h0
      exact HeapOrdUp_zero g pf ho
    · have hpos : 0 < k := Nat.pos_of_ne_zero h0
      have hkS : k < SIZE_MOD := by
        have := wf.hsz
        have := INVALID_INDEX_lt_SIZE_MOD
        omega
      rw [parent_hix_eq k hpos hkS]
      by_cases hc : heap_compare g pf k ((k - 1) / 2) = true
      · rw [if_neg (by simp [h0, hc])]
        have hp : (k - 1) / 2 < pf.heap_size := by omega
        have hne : k ≠ (k - 1) / 2 := by omega
        obtain ⟨wf2, sc, _⟩ := heap_swap_spec N pf k ((k - 1) / 2) hN wf hk hp hne
        obtain ⟨w1, w2, w3⟩ := heap_swap_weights g N pf k ((k - 1) / 2) hN wf hk hp hne
        have hle : heap_weight g pf (heap_at pf k) ≤ heap_weight g pf (heap_at pf ((k - 1) / 2)) := by
          simpa [heap_compare] using hc
        apply ih _ _ wf2 (by rw [sc.size]; exact hp) (by omega)
        constructor
        · intro i hi0 hi hip
          rw [sc.size] at hi
          by_cases hik : i = k
          · subst hik
            rw [w1, w2]; exact hle
          · by_cases hqk : (i - 1) / 2 = k
            · rw [hqk, w1, w3 i hik hip]
              exact ho.2 i hi0 hi hqk hpos
            · by_cases hqp : (i - 1) / 2 = (k - 1) / 2
              · rw [hqp, w2, w3 i hik hip]
                have := ho.1 i hi0 hi hik
                rw [hqp] at this
                exact le_trans hle this
              · rw [w3 _ hqk hqp, w3 i hik hip]
                exact ho.1 i hi0 hi hik
        · intro i hi0 hi hq hp0
          rw [sc.size] at hi
          have hppk : ((k - 1) / 2 - 1) / 2 ≠ k := by omega
          have hppp : ((k - 1) / 2 - 1) / 2 ≠ (k - 1) / 2 := by omega
          rw [w3 _ hppk hppp]
          have hpo := ho.1 ((k - 1) / 2) hp0 hp (by omega)
          by_cases hik : i = k
          · subst hik
            rw [w1]; exact hpo
          · have hip : i ≠ (k - 1) / 2 := by omega
            rw [w3 i hik hip]
            have := ho.1 i hi0 hi hik
            rw [hq] at this
            exact le_trans hpo this
      · rw [if_pos (Or.inr hc)]
        have hlt : heap_weight g pf (heap_at pf ((k - 1) / 2)) < heap_weight g pf (heap_at pf k) := by
          simpa [heap_compare] using hc
        intro i hi0 hi
        by_cases hik : i = k
        · subst hik; exact le_of_lt hlt
        · exact ho.1 i hi0 hi hik

theorem sift_down_target_cases (g : grid) (pf : pathfinder) (k : Nat) :
    (sift_down_target g pf k = k ∧
      (2 * k + 1 < pf.heap_size →
        heap_weight g pf (heap_at pf k) < heap_weight g pf (heap_at pf (2 * k + 1))) ∧
      (2 * k + 2 < pf.heap_size →
        heap_weight g pf (heap_at pf k) < heap_weight g pf (heap_at pf (2 * k + 2)))) ∨
    (sift_down_target g pf k = 2 * k + 1 ∧ 2 * k + 1 < pf.heap_size ∧
      heap_weight g pf (heap_at pf (2 * k + 1)) ≤ heap_weight g pf (heap_at pf k) ∧
      (2 * k + 2 < pf.heap_size →
        heap_weight g pf (heap_at pf (2 * k + 1)) < heap_weight g pf (heap_at pf (2 * k + 2)))) ∨
    (sift_down_target g pf k = 2 * k + 2 ∧ 2 * k + 2 < pf.heap_size ∧
      heap_weight g pf (heap_at pf (2 * k + 2)) ≤ heap_weight g pf (heap_at pf k) ∧
      heap_weight g pf (heap_at pf (2 * k + 2)) ≤ heap_weight g pf (heap_at pf (2 * k + 1))) := by
  simp only [sift_down_target, heap_compare, decide_eq_true_eq]
  by_cases hl : 2 * k + 1 < pf.heap_size ∧
      heap_weight g pf (heap_at pf (2 * k + 1)) ≤ heap_weight g pf (heap_at pf k)
  · rw [if_pos hl]
    by_cases hr : 2 * k + 2 < pf.heap_size ∧
        heap_weight g pf (heap_at pf (2 * k + 2)) ≤ heap_weight g pf (heap_at pf (2 * k + 1))
    · rw [if_pos hr]
      exact Or.inr (Or.inr ⟨rfl, hr.1, le_trans hr.2 hl.2, hr.2⟩)
    · rw [if_neg hr]
      refine Or.inr (Or.inl ⟨rfl, hl.1, hl.2, fun h => ?_⟩)
      exact lt_of_not_le (fun h2 => hr ⟨h, h2⟩)
  · rw [if_neg hl]
    by_cases hr : 2 * k + 2 < pf.heap_size ∧
        heap_weight g pf (heap_at pf (2 * k + 2)) ≤ heap_weight g pf (heap_at pf k)
    · rw [if_pos hr]
      refine Or.inr (Or.inr ⟨rfl, hr.1, hr.2, ?_⟩)
      have h1 : 2 * k + 1 < pf.heap_size := by omega
      have : heap_weight g pf (heap_at pf k) < heap_weight g pf (heap_at pf (2 * k + 1)) :=
        lt_of_not_le (fun h2 => hl ⟨h1, h2⟩)
      omega
    · rw [if_neg hr]
      refine Or.inl ⟨rfl, fun h => ?_, fun h => ?_⟩
      · exact lt_of_not_le (fun h2 => hl ⟨h, h2⟩)
      · exact lt_of_not_le (fun h2 => hr ⟨h, h2⟩)

theorem sift_down_fuel_wf (g : grid) (N : Nat) (hN : N < INVALID_INDEX) :
    ∀ (fuel : Nat) (pf : pathfinder) (k : Nat), HeapWF N pf →
      HeapWF N (sift_down_fuel g fuel pf k) ∧ SameCells pf (sift_down_fuel g fuel pf k) := by
  intro fuel
  induction fuel with
  | zero => intro pf k wf; exact ⟨wf, SameCells.refl pf⟩
  | succ fuel ih =>
    intro pf k wf
    unfold sift_down_fuel
    split
    · exact ⟨wf, SameCells.refl pf⟩
    · rename_i hc
      have ht : sift_down_target g pf k < pf.heap_size ∧ k < sift_down_target g pf k := by
        rcases sift_down_target_cases g pf k with h | h | h
        · exact absurd h.1 hc
        · rw [h.1]; exact ⟨h.2.1, by omega⟩
        · rw [h.1]; exact ⟨h.2.1, by omega⟩
      obtain ⟨wf2, sc, _⟩ := heap_swap_spec N pf k (sift_down_target g pf k) hN wf
        (by omega) ht.1 (by omega)
      obtain ⟨wf3, sc3⟩ := ih (heap_swap pf k (sift_down_target g pf k))
        (sift_down_target g pf k) wf2
      exact ⟨wf3, sc.trans sc3⟩

theorem HeapOrdDown_swap (g : grid) (N : Nat) (hN : N < INVALID_INDEX) (pf : pathfinder)
    (k t : Nat) (wf : HeapWF N pf) (ht : t < pf.heap_size) (htk : t = 2 * k + 1 ∨ t = 2 * k + 2)
    (hle : heap_weight g pf (heap_at pf t) ≤ heap_weight g pf (heap_at pf k))
    (hsib : ∀ i, i < pf.heap_size → (i = 2 * k + 1 ∨ i = 2 * k + 2) →
      heap_weight g pf (heap_at pf t) ≤ heap_weight g pf (heap_at pf i))
    (ho : HeapOrdDown g pf k) : HeapOrdDown g (heap_swap pf k t) t := by
  have hk : k < pf.heap_size := by omega
  have hne : k ≠ t := by omega
  obtain ⟨wf2, sc, _⟩ := heap_swap_spec N pf k t hN wf hk ht hne
  obtain ⟨w1, w2, w3⟩ := heap_swap_weights g N pf k t hN wf hk ht hne
  have hpt : (t - 1) / 2 = k := by omega
  constructor
  · intro i hi0 hi hq
    rw [sc.size] at hi
    by_cases hit : i = t
    · subst hit
      rw [hpt, w1, w2]; exact hle
    · by_cases hik : i = k
      · subst hik
        have hq1 : (i - 1) / 2 ≠ i := by omega
        have hq2 : (i - 1) / 2 ≠ t := by omega
        rw [w1, w3 _ hq1 hq2]
        exact ho.2 t (by omega) ht hpt hi0
      · by_cases hqk : (i - 1) / 2 = k
        · rw [hqk, w1, w3 i hik hit]
          exact hsib i hi (by omega)
        · rw [w3 _ hqk hq, w3 i hik hit]
          exact ho.1 i hi0 hi hqk
  · intro i hi0 hi hq ht0
    rw [sc.size] at hi
    have hik : i ≠ k := by omega
    have hit : i ≠ t := by omega
    rw [hpt, w1, w3 i hik hit]
    have := ho.1 i hi0 hi (by omega)
    rw [hq] at this
    exact this

theorem sift_down_fuel_ord (g : grid) (N : Nat) (hN : N < INVALID_INDEX) :
    ∀ (fuel : Nat) (pf : pathfinder) (k : Nat), HeapWF N pf → pf.heap_size < fuel + k →
      HeapOrdDown g pf k → HeapOrd g (sift_down_fuel g fuel pf k) := by
  intro fuel
  induction fuel with
  | zero =>
    intro pf k _ hf ho
    intro i hi0 hi
    have hi2 : i < pf.heap_size := hi
    exact ho.1 i hi0 hi (by omega)
  | succ fuel ih =>
    intro pf k wf hf ho
    unfold sift_down_fuel
    rcases sift_down_target_cases g pf k with h | h | h
    · rw [if_pos h.1]
      intro i hi0 hi
      by_cases hq : (i - 1) / 2 = k
      · rw [hq]
        have hcase : i = 2 * k + 1 ∨ i = 2 * k + 2 := by omega
        rcases hcase with e | e
        · subst e; exact le_of_lt (h.2.1 hi)
        · subst e; exact le_of_lt (h.2.2 hi)
      · exact ho.1 i hi0 hi hq
    · rw [if_neg (by rw [h.1]; omega), h.1]
      have hsw := HeapOrdDown_swap g N hN pf k (2 * k + 1) wf h.2.1 (Or.inl rfl) h.2.2.1
        (by
          intro i hi hc
          rcases hc with e | e
          · subst e; exact le_refl _
          · subst e; exact le_of_lt (h.2.2.2 hi)) ho
      obtain ⟨wf2, sc, _⟩ := heap_swap_spec N pf k (2 * k + 1) hN wf (by omega) h.2.1 (by omega)
      exact ih _ _ wf2 (by rw [sc.size]; omega) hsw
    · rw [if_neg (by rw [h.1]; omega), h.1]
      have hsw := HeapOrdDown_swap g N hN pf k (2 * k + 2) wf h.2.1 (Or.inr rfl) h.2.2.1
        (by
          intro i hi hc
          rcases hc with e | e
          · subst e; exact h.2.2.2
          · subst e; exact le_refl _) ho
      obtain ⟨wf2, sc, _⟩ := heap_swap_spec N pf k (2 * k + 2) hN wf (by omega) h.2.1 (by omega)
      exact ih _ _ wf2 (by rw [sc.size]; omega) hsw

theorem sift_up_spec (g : grid) (N : Nat) (hN : N < INVALID_INDEX) (pf : pathfinder) (k : Nat)
    (wf : HeapWF N pf) (hk : k < pf.heap_size) :
    HeapWF N (sift_up g pf k) ∧ SameCells pf (sift_up g pf k) ∧
      (HeapOrdUp g pf k → HeapOrd g (sift_up g pf k)) :=
  ⟨(sift_up_fuel_wf g N hN (k + 1) pf k wf hk).1, (sift_up_fuel_wf g N hN (k + 1) pf k wf hk).2,
    sift_up_fuel_ord g N hN (k + 1) pf k wf hk (by omega)⟩

theorem sift_down_spec (g : grid) (N : Nat) (hN : N < INVALID_INDEX) (pf : pathfinder)
    (wf : HeapWF N pf) :
    HeapWF N (sift_down g pf 0) ∧ SameCells pf (sift_down g pf 0) ∧
      (HeapOrdDown g pf 0 → HeapOrd g (sift_down g pf 0)) :=
  ⟨(sift_down_fuel_wf g N hN _ pf 0 wf).1, (sift_down_fuel_wf g N hN _ pf 0 wf).2,
    sift_down_fuel_ord g N hN _ pf 0 wf (by omega)⟩

end Pathfinder

namespace Pathfinder

/-! ## next_green_coord -/

theorem heap_weight_congr (g : grid) (a b : pathfinder) (c : Nat)
    (h1 : (node_at b c).path_sum = (node_at a c).path_sum)
    (h2 : b.goal_x = a.goal_x) (h3 : b.goal_y = a.goal_y) :
    heap_weight g b c = heap_weight g a c := by
  simp only [heap_weight, h1, h2, h3]

theorem HeapWF.slot_ne (N : Nat) (pf : pathfinder) (wf : HeapWF N pf) (i j : Nat)
    (hi : i < pf.heap_size) (hj : j < pf.heap_size) (hij : i ≠ j) :
    heap_at pf i ≠ heap_at pf j := by
  intro e
  have h1 := (wf.fwd i hi).2
  have h2 := (wf.fwd j hj).2
  rw [e, h2] at h1
  exact hij h1.symm

theorem next_green_coord_spec (g : grid) (N : Nat) (hN : N < INVALID_INDEX) (pf : pathfinder)
    (wf : HeapWF N pf) (hs : pf.heap_size ≠ 0) :
    (next_green_coord g pf).1 = heap_at pf 0 ∧
    HeapWF N (next_green_coord g pf).2 ∧
    (next_green_coord g pf).2.heap_size = pf.heap_size - 1 ∧
    (next_green_coord g pf).2.goal_x = pf.goal_x ∧
    (next_green_coord g pf).2.goal_y = pf.goal_y ∧
    (∀ c, (node_at (next_green_coord g pf).2 c).path_sum = (node_at pf c).path_sum) ∧
    (node_at (next_green_coord g pf).2 (heap_at pf 0)).hix = INVALID_INDEX ∧
    (∀ c, c ≠ heap_at pf 0 →
      ((node_at (next_green_coord g pf).2 c).hix = INVALID_INDEX ↔
        (node_at pf c).hix = INVALID_INDEX)) ∧
    (HeapOrd g pf → HeapOrd g (next_green_coord g pf).2) := by
  have h0 : 0 < pf.heap_size := Nat.pos_of_ne_zero hs
  have hlast : pf.heap_size - 1 < pf.heap_size := by omega
  obtain ⟨hmN, hmh⟩ := wf.fwd 0 h0
  obtain ⟨hlN, hlh⟩ := wf.fwd (pf.heap_size - 1) hlast
  have hNpos : 0 < N := lt_of_lt_of_le h0 wf.hsz
  -- the state before the final sift_down
  obtain ⟨pf4, hpf4⟩ : ∃ pf4, pf4 = set_hix (set_hix (set_heap { pf with heap_size := pf.heap_size - 1 }
      0 (heap_at pf (pf.heap_size - 1))) (heap_at pf (pf.heap_size - 1)) 0) (heap_at pf 0)
      INVALID_INDEX := ⟨_, rfl⟩
  have hheap0 : heap_at (set_heap { pf with heap_size := pf.heap_size - 1 } 0
      (heap_at pf (pf.heap_size - 1))) 0 = heap_at pf (pf.heap_size - 1) :=
    heap_at_set_heap_self _ _ _ (by show 0 < pf.heap.length; rw [wf.hlen]; exact hNpos)
  have hdef : next_green_coord g pf = (heap_at pf 0, sift_down g pf4 0) := by
    rw [hpf4]
    show (heap_at pf 0, sift_down g (set_hix (set_hix (set_heap
      { pf with heap_size := pf.heap_size - 1 } 0 (heap_at pf (pf.heap_size - 1)))
      (heap_at (set_heap { pf with heap_size := pf.heap_size - 1 } 0
        (heap_at pf (pf.heap_size - 1))) 0) 0) (heap_at pf 0) INVALID_INDEX) 0) = _
    rw [hheap0]
  have Hsize : pf4.heap_size = pf.heap_size - 1 := by rw [hpf4]; rfl
  have Hgx : pf4.goal_x = pf.goal_x := by rw [hpf4]; rfl
  have Hgy : pf4.goal_y = pf.goal_y := by rw [hpf4]; rfl
  have Hheap : ∀ i, heap_at pf4 i = if i = 0 then heap_at pf (pf.heap_size - 1) else heap_at pf i := by
    intro i
    rw [hpf4]
    simp only [heap_at_set_hix]
    by_cases hi : i = 0
    · subst hi; rw [if_pos rfl]; exact hheap0
    · rw [if_neg hi, heap_at_set_heap_ne _ _ _ _ (Ne.symm hi)]; rfl
  have Hps : ∀ c, (node_at pf4 c).path_sum = (node_at pf c).path_sum := by
    intro c
    rw [hpf4, path_sum_set_hix, path_sum_set_hix]; rfl
  have Hm : (node_at pf4 (heap_at pf 0)).hix = INVALID_INDEX := by
    rw [hpf4]
    exact hix_set_hix_self _ _ _ (by simp [set_heap, wf.nlen, hmN])
  have Hother : ∀ c, c ≠ heap_at pf 0 → (node_at pf4 c).hix =
      if c = heap_at pf (pf.heap_size - 1) then 0 else (node_at pf c).hix := by
    intro c hc
    rw [hpf4, node_at_set_hix_ne _ _ _ _ (Ne.symm hc)]
    by_cases hcl : c = heap_at pf (pf.heap_size - 1)
    · rw [if_pos hcl, hcl]
      exact hix_set_hix_self _ _ _ (by simp [set_heap, wf.nlen, hlN])
    · rw [if_neg hcl, node_at_set_hix_ne _ _ _ _ (Ne.symm hcl)]; rfl
  have Hinv : ∀ c, c ≠ heap_at pf 0 →
      ((node_at pf4 c).hix = INVALID_INDEX ↔ (node_at pf c).hix = INVALID_INDEX) := by
    intro c hc
    rw [Hother c hc]
    by_cases hcl : c = heap_at pf (pf.heap_size - 1)
    · rw [if_pos hcl, hcl, hlh]
      constructor
      · intro e; exact absurd e.symm (by omega)
      · intro e; exact absurd e (by have := wf.hsz; omega)
    · rw [if_neg hcl]
  have wf4 : HeapWF N pf4 := by
    refine ⟨?_, ?_, ?_, ?_, ?_⟩
    · rw [hpf4]; simp [set_heap, wf.hlen]
    · rw [hpf4]; simp [set_heap, wf.nlen]
    · rw [Hsize]; have := wf.hsz; omega
    · intro i hi
      rw [Hsize] at hi
      rw [Hheap i]
      by_cases hi0 : i = 0
      · subst hi0
        rw [if_pos rfl]
        have hne : heap_at pf (pf.heap_size - 1) ≠ heap_at pf 0 :=
          wf.slot_ne N pf _ _ hlast h0 (by omega)
        rw [Hother _ hne, if_pos rfl]
        exact ⟨hlN, rfl⟩
      · rw [if_neg hi0]
        have hi2 : i < pf.heap_size := by omega
        obtain ⟨hcN, hch⟩ := wf.fwd i hi2
        have hne : heap_at pf i ≠ heap_at pf 0 := wf.slot_ne N pf _ _ hi2 h0 hi0
        have hne2 : heap_at pf i ≠ heap_at pf (pf.heap_size - 1) :=
          wf.slot_ne N pf _ _ hi2 hlast (by omega)
        rw [Hother _ hne, if_neg hne2]
        exact ⟨hcN, hch⟩
    · intro c hc hne
      have hcm : c ≠ heap_at pf 0 := by
        intro e; rw [e] at hne; exact hne Hm
      rw [Hother c hcm] at hne ⊢
      rw [Hsize]
      by_cases hcl : c = heap_at pf (pf.heap_size - 1)
      · rw [if_pos hcl]
        have h1 : pf.heap_size - 1 ≠ 0 := by
          intro e; rw [e] at hcl; exact hcm hcl
        refine ⟨by omega, ?_⟩
        rw [Hheap, if_pos rfl, hcl]
      · rw [if_neg hcl] at hne ⊢
        obtain ⟨b1, b2⟩ := wf.bwd c hc hne
        have n1 : (node_at pf c).hix ≠ 0 := by
          intro e; rw [e] at b2; exact hcm b2.symm
        have n2 : (node_at pf c).hix ≠ pf.heap_size - 1 := by
          intro e; rw [e] at b2; exact hcl b2.symm
        refine ⟨by omega, ?_⟩
        rw [Hheap, if_neg n1]
        exact b2
  obtain ⟨wf5, sc, hord⟩ := sift_down_spec g N hN pf4 wf4
  rw [hdef]
  refine ⟨rfl, wf5, ?_, ?_, ?_, ?_, ?_, ?_, ?_⟩
  · show (sift_down g pf4 0).heap_size = _
    rw [sc.size, Hsize]
  · show (sift_down g pf4 0).goal_x = _
    rw [sc.gx, Hgx]
  · show (sift_down g pf4 0).goal_y = _
    rw [sc.gy, Hgy]
  · intro c
    show (node_at (sift_down g pf4 0) c).path_sum = _
    rw [sc.ps, Hps]
  · show (node_at (sift_down g pf4 0) _).hix = _
    exact (sc.inv _).2 Hm
  · intro c hc
    show (node_at (sift_down g pf4 0) c).hix = _ ↔ _
    exact (sc.inv c).trans (Hinv c hc)
  · intro ho
    show HeapOrd g (sift_down g pf4 0)
    apply hord
    constructor
    · intro i hi0 hi hq
      rw [Hsize] at hi
      rw [Hheap, Hheap, if_neg hq, if_neg (by omega),
        heap_weight_congr g pf pf4 _ (Hps _) Hgx Hgy,
        heap_weight_congr g pf pf4 _ (Hps _) Hgx Hgy]
      exact ho i hi0 (by omega)
    · intro i _ _ _ h; omega

end Pathfinder

namespace Pathfinder

/-! ## update_path_sum -/

/-- A node without a heap slot leaves room in the heap buffer. -/
theorem heap_size_lt_of_unqueued (N : Nat) (hN : N < INVALID_INDEX) (pf : pathfinder)
    (wf : HeapWF N pf) (n : Nat) (hn : n < N) (hq : (node_at pf n).hix = INVALID_INDEX) :
    pf.heap_size < N := by
  have hmaps : ∀ i ∈ Finset.range pf.heap_size, heap_at pf i ∈ (Finset.range N).erase n := by
    intro i hi
    rw [Finset.mem_range] at hi
    obtain ⟨h1, h2⟩ := wf.fwd i hi
    rw [Finset.mem_erase, Finset.mem_range]
    refine ⟨?_, h1⟩
    intro e
    rw [e, hq] at h2
    have := wf.hsz
    omega
  have hinj : Set.InjOn (heap_at pf) (Finset.range pf.heap_size : Set Nat) := by
    intro i hi j hj e
    rw [Finset.mem_coe, Finset.mem_range] at hi hj
    by_contra hne
    exact wf.slot_ne N pf i j hi hj hne e
  have hcard := Finset.card_le_card_of_injOn (heap_at pf) hmaps hinj
  rw [Finset.card_range, Finset.card_erase_of_mem (Finset.mem_range.2 hn), Finset.card_range] at hcard
  omega

theorem node_color_ne_green_iff (n : node) :
    node_color n ≠ .GREEN_NODE ↔ (n.hix ≠ INVALID_INDEX ∨ n.path_sum = INVALID_PATH_SUM) := by
  unfold node_color
  by_cases h1 : n.hix = INVALID_INDEX
  · by_cases h2 : n.path_sum = INVALID_PATH_SUM
    · simp [h1, h2]
    · simp [h1, h2]
  · simp [h1]

theorem update_path_sum_skip (g : grid) (pf : pathfinder) (n d : Nat)
    (h : ¬ (node_color (node_at pf n) ≠ .GREEN_NODE ∧ d < (node_at pf n).path_sum)) :
    update_path_sum g pf n d = pf := by
  unfold update_path_sum
  rw [if_neg h]

theorem update_path_sum_spec (g : grid) (N : Nat) (hN : N < INVALID_INDEX) (pf : pathfinder)
    (wf : HeapWF N pf) (n d : Nat) (hn : n < N) (hd : d < UINT_MOD)
    (hc : node_color (node_at pf n) ≠ .GREEN_NODE ∧ d < (node_at pf n).path_sum) :
    HeapWF N (update_path_sum g pf n d) ∧
    (update_path_sum g pf n d).goal_x = pf.goal_x ∧
    (update_path_sum g pf n d).goal_y = pf.goal_y ∧
    (update_path_sum g pf n d).heap_size =
      (if (node_at pf n).hix = INVALID_INDEX then pf.heap_size + 1 else pf.heap_size) ∧
    (node_at (update_path_sum g pf n d) n).path_sum = d ∧
    (node_at (update_path_sum g pf n d) n).hix ≠ INVALID_INDEX ∧
    (∀ c, c ≠ n →
      (node_at (update_path_sum g pf n d) c).path_sum = (node_at pf c).path_sum ∧
      ((node_at (update_path_sum g pf n d) c).hix = INVALID_INDEX ↔
        (node_at pf c).hix = INVALID_INDEX)) ∧
    (HeapOrd g pf →
      ((node_at pf n).hix ≠ INVALID_INDEX →
        heap_weight g (set_path_sum pf n d) n ≤ heap_weight g pf n) →
      HeapOrd g (update_path_sum g pf n d)) := by
  have hdm : d % UINT_MOD = d := Nat.mod_eq_of_lt hd
  have hnl : n < pf.nodes.length := by rw [wf.nlen]; exact hn
  -- facts about the state after the path_sum write
  have P1ps : (node_at (set_path_sum pf n d) n).path_sum = d :=
    path_sum_set_path_sum_self pf n d hnl
  have P1ps2 : ∀ c, c ≠ n → (node_at (set_path_sum pf n d) c).path_sum = (node_at pf c).path_sum := by
    intro c hcn
    rw [node_at_set_path_sum_ne pf n c d (Ne.symm hcn)]
  have P1hix : ∀ c, (node_at (set_path_sum pf n d) c).hix = (node_at pf c).hix :=
    fun c => hix_set_path_sum pf n c d
  have P1w : ∀ c, c ≠ n → heap_weight g (set_path_sum pf n d) c = heap_weight g pf c :=
    fun c hcn => heap_weight_congr g pf _ c (P1ps2 c hcn) rfl rfl
  by_cases hq : (node_at pf n).hix = INVALID_INDEX
  · -- insertion at the end of the heap
    have hsN : pf.heap_size < N := heap_size_lt_of_unqueued N hN pf wf n hn hq
    obtain ⟨pf2, hpf2⟩ : ∃ pf2 : pathfinder, pf2 =
        { set_hix (set_heap (set_path_sum pf n d) pf.heap_size n) n pf.heap_size with
          heap_size := pf.heap_size + 1 } := ⟨_, rfl⟩
    have H2hix : (node_at pf2 n).hix = pf.heap_size := by
      rw [hpf2]
      exact hix_set_hix_self (set_heap (set_path_sum pf n d) pf.heap_size n) n pf.heap_size
        (by simp [hnl])
    have hdef : update_path_sum g pf n d = sift_up g pf2 pf.heap_size := by
      unfold update_path_sum
      rw [if_pos hc]
      simp only [hdm, P1hix, hq, if_true]
      rw [← H2hix, hpf2]
      rfl
    have H2size : pf2.heap_size = pf.heap_size + 1 := by rw [hpf2]
    have H2ps : ∀ c, (node_at pf2 c).path_sum = (node_at (set_path_sum pf n d) c).path_sum := by
      intro c
      rw [hpf2]
      exact path_sum_set_hix (set_heap (set_path_sum pf n d) pf.heap_size n) n c pf.heap_size
    have H2hix2 : ∀ c, c ≠ n → (node_at pf2 c).hix = (node_at pf c).hix := by
      intro c hcn
      rw [hpf2, ← P1hix c]
      exact congrArg node.hix
        (node_at_set_hix_ne (set_heap (set_path_sum pf n d) pf.heap_size n) n c pf.heap_size
          (Ne.symm hcn))
    have H2heap : ∀ i, heap_at pf2 i = if i = pf.heap_size then n else heap_at pf i := by
      intro i
      rw [hpf2]
      show heap_at (set_heap (set_path_sum pf n d) pf.heap_size n) i = _
      by_cases hi : i = pf.heap_size
      · subst hi
        rw [if_pos rfl]
        exact heap_at_set_heap_self _ _ _ (by show pf.heap_size < pf.heap.length; rw [wf.hlen]; exact hsN)
      · rw [if_neg hi, heap_at_set_heap_ne _ _ _ _ (Ne.symm hi)]; rfl
    have hslot_ne : ∀ i, i < pf.heap_size → heap_at pf i ≠ n := by
      intro i hi e
      have := (wf.fwd i hi).2
      rw [e, hq] at this
      have := wf.hsz
      omega
    have wf2 : HeapWF N pf2 := by
      refine ⟨?_, ?_, ?_, ?_, ?_⟩
      · rw [hpf2]; simp [set_heap, wf.hlen]
      · rw [hpf2]; simp [set_heap, wf.nlen]
      · rw [H2size]; omega
      · intro i hi
        rw [H2size] at hi
        rw [H2heap i]
        by_cases hi2 : i = pf.heap_size
        · rw [if_pos hi2, H2hix, hi2]
          exact ⟨hn, rfl⟩
        · rw [if_neg hi2]
          have hi3 : i < pf.heap_size := by omega
          rw [H2hix2 _ (hslot_ne i hi3)]
          exact wf.fwd i hi3
      · intro c hcN hne
        rw [H2size]
        by_cases hcn : c = n
        · subst hcn
          rw [H2hix, H2heap, if_pos rfl]
          exact ⟨by omega, rfl⟩
        · rw [H2hix2 c hcn] at hne ⊢
          obtain ⟨b1, b2⟩ := wf.bwd c hcN hne
          refine ⟨by omega, ?_⟩
          rw [H2heap, if_neg (by omega)]
          exact b2
    obtain ⟨wf3, sc, hord⟩ := sift_up_spec g N hN pf2 pf.heap_size wf2 (by rw [H2size]; omega)
    rw [hdef]
    refine ⟨wf3, ?_, ?_, ?_, ?_, ?_, ?_, ?_⟩
    · rw [sc.gx, hpf2]; rfl
    · rw [sc.gy, hpf2]; rfl
    · rw [sc.size, H2size, if_pos hq]
    · rw [sc.ps, H2ps, P1ps]
    · intro e
      have := (sc.inv n).1 e
      rw [H2hix] at this
      have := wf.hsz
      omega
    · intro c hcn
      refine ⟨?_, ?_⟩
      · rw [sc.ps, H2ps, P1ps2 c hcn]
      · rw [sc.inv, H2hix2 c hcn]
    · intro ho _
      apply hord
      have H2w : ∀ c, c ≠ n → heap_weight g pf2 c = heap_weight g pf c := by
        intro c hcn
        refine heap_weight_congr g pf pf2 c ?_ (by rw [hpf2]; rfl) (by rw [hpf2]; rfl)
        rw [H2ps, P1ps2 c hcn]
      constructor
      · intro i hi0 hi hik
        rw [H2size] at hi
        have hi3 : i < pf.heap_size := by omega
        have hp3 : (i - 1) / 2 < pf.heap_size := by omega
        rw [H2heap, H2heap, if_neg (by omega), if_neg hik,
          H2w _ (hslot_ne _ hp3), H2w _ (hslot_ne _ hi3)]
        exact ho i hi0 hi3
      · intro i hi0 hi hq2 _
        rw [H2size] at hi
        omega
  · -- decrease of an open node
    obtain ⟨hk, hkc⟩ := wf.bwd n hn hq
    have hdef : update_path_sum g pf n d = sift_up g (set_path_sum pf n d) (node_at pf n).hix := by
      unfold update_path_sum
      rw [if_pos hc]
      simp only [hdm, P1hix, hq, if_false]
    have wf1 : HeapWF N (set_path_sum pf n d) := by
      refine ⟨?_, ?_, wf.hsz, ?_, ?_⟩
      · exact wf.hlen
      · simp [wf.nlen]
      · intro i hi
        rw [heap_at_set_path_sum, P1hix]
        exact wf.fwd i hi
      · intro c hcN hne
        rw [P1hix] at hne ⊢
        exact wf.bwd c hcN hne
    obtain ⟨wf3, sc, hord⟩ := sift_up_spec g N hN (set_path_sum pf n d) (node_at pf n).hix wf1 hk
    have hslot_ne : ∀ i, i < pf.heap_size → i ≠ (node_at pf n).hix → heap_at pf i ≠ n := by
      intro i hi hik e
      have := (wf.fwd i hi).2
      rw [e] at this
      exact hik this.symm
    rw [hdef]
    refine ⟨wf3, ?_, ?_, ?_, ?_, ?_, ?_, ?_⟩
    · rw [sc.gx]; rfl
    · rw [sc.gy]; rfl
    · rw [sc.size, if_neg hq]; rfl
    · rw [sc.ps, P1ps]
    · intro e
      have := (sc.inv n).1 e
      rw [P1hix] at this
      exact hq this
    · intro c hcn
      refine ⟨?_, ?_⟩
      · rw [sc.ps, P1ps2 c hcn]
      · rw [sc.inv, P1hix]
    · intro ho hw
      have hw2 := hw hq
      apply hord
      constructor
      · intro i hi0 hi hik
        have hi3 : i < pf.heap_size := hi
        have hp3 : (i - 1) / 2 < pf.heap_size := by omega
        simp only [heap_at_set_path_sum]
        rw [P1w _ (hslot_ne i hi3 hik)]
        by_cases hpk : (i - 1) / 2 = (node_at pf n).hix
        · rw [hpk, hkc]
          have := ho i hi0 hi3
          rw [hpk, hkc] at this
          exact le_trans hw2 this
        · rw [P1w _ (hslot_ne _ hp3 hpk)]
          exact ho i hi0 hi3
      · intro i hi0 hi hpk hk0
        have hi3 : i < pf.heap_size := hi
        simp only [heap_at_set_path_sum]
        rw [P1w _ (hslot_ne i hi3 (by omega)), P1w _ (hslot_ne _ (by omega) (by omega))]
        have h1 := ho i hi0 hi3
        rw [hpk] at h1
        have h2 := ho _ hk0 hk
        exact le_trans h2 h1

end Pathfinder

namespace Pathfinder

/-! ## get_surround and the relaxation loop -/

theorem coord_lt (w h x y : Nat) (hx : x < w) (hy : y < h) : w * y + x < w * h := by
  have : w * (y + 1) ≤ w * h := Nat.mul_le_mul_left w hy
  rw [Nat.mul_add] at this
  omega

theorem coord_div (w x y : Nat) (hx : x < w) : (w * y + x) / w = y := by
  rw [Nat.add_comm, Nat.add_mul_div_left _ _ (by omega), Nat.div_eq_of_lt hx, Nat.zero_add]

theorem coord_mod (w x y : Nat) (hx : x < w) : (w * y + x) % w = x := by
  rw [Nat.add_comm, Nat.add_mul_mod_self_left, Nat.mod_eq_of_lt hx]

theorem cell_row_lt (w h c : Nat) (hc : c < w * h) : c / w < h := by
  have hw : 0 < w := by
    rcases Nat.eq_zero_or_pos w with e | e
    · subst e; simp at hc
    · exact e
  exact (Nat.div_lt_iff_lt_mul hw).2 (by rw [Nat.mul_comm] at hc; exact hc)

/-- Every cell is `width * y + x` for an in-range `(x, y)`. -/
theorem cell_decompose (w h c : Nat) (hc : c < w * h) :
    ∃ x y, x < w ∧ y < h ∧ c = w * y + x := by
  have hw : 0 < w := by
    rcases Nat.eq_zero_or_pos w with e | e
    · subst e; simp at hc
    · exact e
  exact ⟨c % w, c / w, Nat.mod_lt c hw, cell_row_lt w h c hc, (Nat.div_add_mod c w).symm⟩

/-- The relation `open_edge` in coordinates. -/
theorem open_edge_xy (w h : Nat) (ws : List Bool) (x y p q : Nat)
    (hx : x < w) (hy : y < h) (hp : p < w) (hq : q < h) :
    open_edge ⟨w, h, ws⟩ (w * y + x) (w * q + p) = true ↔
      ((y = q ∧ x + 1 = p ∧ (grid_cell_walls ⟨w, h, ws⟩ x y).right = false) ∨
       (y = q ∧ p + 1 = x ∧ (grid_cell_walls ⟨w, h, ws⟩ x y).left = false) ∨
       (x = p ∧ y + 1 = q ∧ (grid_cell_walls ⟨w, h, ws⟩ x y).lower = false) ∨
       (x = p ∧ q + 1 = y ∧ (grid_cell_walls ⟨w, h, ws⟩ x y).upper = false)) := by
  have h1 := coord_lt w h x y hx hy
  have h2 := coord_lt w h p q hp hq
  simp only [open_edge, cell_count, grid_width, grid_height, coord_div w x y hx,
    coord_mod w x y hx, coord_div w p q hp, coord_mod w p q hp, h1, h2, decide_True,
    Bool.true_and, Bool.and_eq_true, Bool.or_eq_true, decide_eq_true_eq, Bool.not_eq_true',
    and_assoc, or_assoc]

theorem open_edge_lt (g : grid) (a b : Nat) (h : open_edge g a b = true) :
    a < cell_count g ∧ b < cell_count g := by
  simp only [open_edge, Bool.and_eq_true, decide_eq_true_eq] at h
  exact h.1

/-- The buffer of `get_surround` for the cell `(x, y)`. -/
theorem get_surround_xy (w h : Nat) (ws : List Bool) (x y : Nat)
    (hx : x < w) (hy : y < h) (hS : w * h < INVALID_INDEX) :
    get_surround ⟨w, h, ws⟩ (w * y + x) =
      (if (grid_cell_walls ⟨w, h, ws⟩ x y).left = false then [w * y + (x - 1)] else []) ++
      (if (grid_cell_walls ⟨w, h, ws⟩ x y).right = false then [w * y + (x + 1)] else []) ++
      (if (grid_cell_walls ⟨w, h, ws⟩ x y).upper = false then [w * (y - 1) + x] else []) ++
      (if (grid_cell_walls ⟨w, h, ws⟩ x y).lower = false then [w * (y + 1) + x] else []) ++
      [INVALID_INDEX] := by
  have hI : INVALID_INDEX < SIZE_MOD := INVALID_INDEX_lt_SIZE_MOD
  have h1 := coord_lt w h x y hx hy
  simp only [get_surround, grid_width, coord_div w x y hx, coord_mod w x y hx, get_coord,
    Bool.not_eq_true']
  have e1 : (w * y + (x - 1)) % SIZE_MOD = w * y + (x - 1) := Nat.mod_eq_of_lt (by omega)
  have e2 : (grid_cell_walls ⟨w, h, ws⟩ x y).right = false →
      (w * y + (x + 1)) % SIZE_MOD = w * y + (x + 1) := by
    intro _
    exact Nat.mod_eq_of_lt (by omega)
  have e3 : (w * (y - 1) + x) % SIZE_MOD = w * (y - 1) + x := by
    have : w * (y - 1) ≤ w * y := Nat.mul_le_mul_left w (Nat.sub_le y 1)
    exact Nat.mod_eq_of_lt (by omega)
  have e4 : (grid_cell_walls ⟨w, h, ws⟩ x y).lower = false →
      (w * (y + 1) + x) % SIZE_MOD = w * (y + 1) + x := by
    intro hwall
    have hy1 : y ≠ h - 1 := by
      intro e0
      simp [grid_cell_walls, e0] at hwall
    have := coord_lt w h x (y + 1) hx (by omega)
    exact Nat.mod_eq_of_lt (by omega)
  rw [e1, e3]
  by_cases hr : (grid_cell_walls ⟨w, h, ws⟩ x y).right = false
  · by_cases hl : (grid_cell_walls ⟨w, h, ws⟩ x y).lower = false
    · simp only [if_pos hr, if_pos hl, e2 hr, e4 hl]
    · simp only [if_pos hr, if_neg hl, e2 hr]
  · by_cases hl : (grid_cell_walls ⟨w, h, ws⟩ x y).lower = false
    · simp only [if_neg hr, if_pos hl, e4 hl]
    · simp only [if_neg hr, if_neg hl]

/-- The coords that `get_surround` stores before the terminator are exactly the
cells joined to `coord` by an open edge, and the buffer ends with the terminator. -/
theorem get_surround_spec (g : grid) (c : Nat) (hc : c < cell_count g)
    (hS : cell_count g < INVALID_INDEX) :
    ∃ L : List Nat, get_surround g c = L ++ [INVALID_INDEX] ∧
      (∀ n, n ∈ L ↔ open_edge g c n = true) := by
  obtain ⟨w, ht, ws⟩ := g
  simp only [cell_count, grid_width, grid_height] at hc hS
  obtain ⟨x, y, hx, hy, rfl⟩ := cell_decompose w ht c hc
  refine ⟨_, get_surround_xy w ht ws x y hx hy hS, ?_⟩
  intro n
  have hwl : (grid_cell_walls ⟨w, ht, ws⟩ x y).left = false → x ≠ 0 := by
    intro hwall e0
    simp [grid_cell_walls, e0] at hwall
  have hwr : (grid_cell_walls ⟨w, ht, ws⟩ x y).right = false → x ≠ w - 1 := by
    intro hwall e0
    simp [grid_cell_walls, e0] at hwall
  have hwu : (grid_cell_walls ⟨w, ht, ws⟩ x y).upper = false → y ≠ 0 := by
    intro hwall e0
    simp [grid_cell_walls, e0] at hwall
  have hwd : (grid_cell_walls ⟨w, ht, ws⟩ x y).lower = false → y ≠ ht - 1 := by
    intro hwall e0
    simp [grid_cell_walls, e0] at hwall
  simp only [List.mem_append, List.mem_ite_nil_right, List.mem_singleton]
  constructor
  · intro hm
    rcases hm with ((⟨hwall, e⟩ | ⟨hwall, e⟩) | ⟨hwall, e⟩) | ⟨hwall, e⟩
    · subst e
      have := hwl hwall
      rw [open_edge_xy w ht ws x y (x - 1) y hx hy (by omega) hy]
      exact Or.inr (Or.inl ⟨rfl, by omega, hwall⟩)
    · subst e
      have := hwr hwall
      rw [open_edge_xy w ht ws x y (x + 1) y hx hy (by omega) hy]
      exact Or.inl ⟨rfl, rfl, hwall⟩
    · subst e
      have := hwu hwall
      rw [open_edge_xy w ht ws x y x (y - 1) hx hy hx (by omega)]
      exact Or.inr (Or.inr (Or.inr ⟨rfl, by omega, hwall⟩))
    · subst e
      have := hwd hwall
      rw [open_edge_xy w ht ws x y x (y + 1) hx hy hx (by omega)]
      exact Or.inr (Or.inr (Or.inl ⟨rfl, rfl, hwall⟩))
  · intro he
    obtain ⟨p, q, hp, hq, rfl⟩ := cell_decompose w ht n (open_edge_lt _ _ _ he).2
    rw [open_edge_xy w ht ws x y p q hx hy hp hq] at he
    rcases he with ⟨e1, e2, hwall⟩ | ⟨e1, e2, hwall⟩ | ⟨e1, e2, hwall⟩ | ⟨e1, e2, hwall⟩
    · subst e1; subst e2
      exact Or.inl (Or.inl (Or.inr ⟨hwall, rfl⟩))
    · subst e1; subst e2
      exact Or.inl (Or.inl (Or.inl ⟨hwall, rfl⟩))
    · subst e1; subst e2
      exact Or.inr ⟨hwall, rfl⟩
    · subst e1; subst e2
      exact Or.inl (Or.inr ⟨hwall, rfl⟩)

end Pathfinder

namespace Pathfinder

/-! ## The relaxation loop and one step, cell by cell -/

theorem node_color_congr (a b : node) (h1 : b.path_sum = a.path_sum)
    (h2 : b.hix = INVALID_INDEX ↔ a.hix = INVALID_INDEX) : node_color b = node_color a := by
  unfold node_color
  by_cases hb : b.hix = INVALID_INDEX
  · rw [if_pos hb, if_pos (h2.1 hb), h1]
  · rw [if_neg hb, if_neg (fun x => hb (h2.2 x))]

theorem node_color_green_iff (n : node) :
    node_color n = .GREEN_NODE ↔ (n.hix = INVALID_INDEX ∧ n.path_sum ≠ INVALID_PATH_SUM) := by
  unfold node_color
  by_cases h1 : n.hix = INVALID_INDEX
  · by_cases h2 : n.path_sum = INVALID_PATH_SUM
    · simp [h1, h2]
    · simp [h1, h2]
  · simp [h1]

theorem node_color_red_iff (n : node) :
    node_color n = .RED_NODE ↔ (n.hix = INVALID_INDEX ∧ n.path_sum = INVALID_PATH_SUM) := by
  unfold node_color
  by_cases h1 : n.hix = INVALID_INDEX
  · by_cases h2 : n.path_sum = INVALID_PATH_SUM
    · simp [h1, h2]
    · simp [h1, h2]
  · simp [h1]

theorem node_color_yellow_iff (n : node) :
    node_color n = .YELLOW_NODE ↔ n.hix ≠ INVALID_INDEX := by
  unfold node_color
  by_cases h1 : n.hix = INVALID_INDEX
  · by_cases h2 : n.path_sum = INVALID_PATH_SUM
    · simp [h1, h2]
    · simp [h1, h2]
  · simp [h1]

theorem manhattan_congr (g : grid) (a b : pathfinder) (c : Nat)
    (h2 : b.goal_x = a.goal_x) (h3 : b.goal_y = a.goal_y) :
    manhattan g b c = manhattan g a c := by
  simp only [manhattan, h2, h3]

theorem heap_weight_eq (g : grid) (pf : pathfinder) (c : Nat)
    (h1 : (node_at pf c).path_sum < UINT_MOD) (h2 : manhattan g pf c + UINT_MOD ≤ SIZE_MOD) :
    heap_weight g pf c = (node_at pf c).path_sum + manhattan g pf c := by
  unfold heap_weight manhattan at *
  simp only
  rw [Nat.mod_eq_of_lt (by omega)]
  omega

theorem relax_surround_nil (g : grid) (pf : pathfinder) (d : Nat) :
    relax_surround g pf d ([] ++ [INVALID_INDEX]) = pf := by
  simp [relax_surround]

theorem relax_surround_cons (g : grid) (pf : pathfinder) (d n : Nat) (L : List Nat)
    (hn : n ≠ INVALID_INDEX) :
    relax_surround g pf d ((n :: L) ++ [INVALID_INDEX]) =
      relax_surround g (update_path_sum g pf n d) d (L ++ [INVALID_INDEX]) := by
  simp [relax_surround, hn]

theorem relax_surround_spec (g : grid) (N : Nat) (hN : N < INVALID_INDEX) (d : Nat)
    (hd : d < UINT_MOD) :
    ∀ (L : List Nat) (pf : pathfinder), (∀ n ∈ L, n < N) → HeapWF N pf →
      HeapWF N (relax_surround g pf d (L ++ [INVALID_INDEX])) ∧
      (relax_surround g pf d (L ++ [INVALID_INDEX])).goal_x = pf.goal_x ∧
      (relax_surround g pf d (L ++ [INVALID_INDEX])).goal_y = pf.goal_y ∧
      (∀ c, (c ∈ L ∧ node_color (node_at pf c) ≠ .GREEN_NODE ∧ d < (node_at pf c).path_sum) →
        (node_at (relax_surround g pf d (L ++ [INVALID_INDEX])) c).path_sum = d ∧
        (node_at (relax_surround g pf d (L ++ [INVALID_INDEX])) c).hix ≠ INVALID_INDEX) ∧
      (∀ c, ¬ (c ∈ L ∧ node_color (node_at pf c) ≠ .GREEN_NODE ∧ d < (node_at pf c).path_sum) →
        (node_at (relax_surround g pf d (L ++ [INVALID_INDEX])) c).path_sum
          = (node_at pf c).path_sum ∧
        ((node_at (relax_surround g pf d (L ++ [INVALID_INDEX])) c).hix = INVALID_INDEX ↔
          (node_at pf c).hix = INVALID_INDEX)) ∧
      (HeapOrd g pf → (∀ c, (node_at pf c).path_sum < UINT_MOD) →
        (∀ c, c < N → manhattan g pf c + UINT_MOD ≤ SIZE_MOD) →
        HeapOrd g (relax_surround g pf d (L ++ [INVALID_INDEX]))) := by
  intro L
  induction L with
  | nil =>
    intro pf _ wf
    rw [relax_surround_nil]
    refine ⟨wf, rfl, rfl, ?_, ?_, ?_⟩
    · intro c hc; exact absurd hc.1 (List.not_mem_nil c)
    · intro c _; exact ⟨rfl, Iff.rfl⟩
    · intro ho _ _; exact ho
  | cons n L ih =>
    intro pf hL wf
    have hnN : n < N := hL n (List.mem_cons_self n L)
    have hLN : ∀ k ∈ L, k < N := fun k hk => hL k (List.mem_cons_of_mem n hk)
    rw [relax_surround_cons g pf d n L (by omega)]
    by_cases hc : node_color (node_at pf n) ≠ .GREEN_NODE ∧ d < (node_at pf n).path_sum
    · obtain ⟨wf1, gx1, gy1, _, ps1, hx1, oth1, ord1⟩ :=
        update_path_sum_spec g N hN pf wf n d hnN hd hc
      obtain ⟨wf2, gx2, gy2, rel2, keep2, ord2⟩ := ih (update_path_sum g pf n d) hLN wf1
      have hn_keep := keep2 n (by rw [ps1]; intro h; exact absurd h.2.2 (lt_irrefl d))
      refine ⟨wf2, gx2.trans gx1, gy2.trans gy1, ?_, ?_, ?_⟩
      · intro c hcc
        by_cases hcn : c = n
        · subst hcn
          refine ⟨hn_keep.1.trans ps1, ?_⟩
          intro e
          exact hx1 (hn_keep.2.1 e)
        · obtain ⟨o1, o2⟩ := oth1 c hcn
          apply rel2 c
          have hmem : c ∈ L := by
            rcases List.mem_cons.1 hcc.1 with e | e
            · exact absurd e hcn
            · exact e
          refine ⟨hmem, ?_, ?_⟩
          · rw [node_color_congr _ _ o1 o2]; exact hcc.2.1
          · rw [o1]; exact hcc.2.2
      · intro c hcc
        have hcn : c ≠ n := by
          intro e
          subst e
          exact hcc ⟨List.mem_cons_self _ _, hc⟩
        obtain ⟨o1, o2⟩ := oth1 c hcn
        have hk := keep2 c (by
          intro h
          apply hcc
          refine ⟨List.mem_cons_of_mem _ h.1, ?_, ?_⟩
          · rw [← node_color_congr _ _ o1 o2]; exact h.2.1
          · rw [← o1]; exact h.2.2)
        exact ⟨hk.1.trans o1, hk.2.trans o2⟩
      · intro ho hty hman
        have hty1 : ∀ c, (node_at (update_path_sum g pf n d) c).path_sum < UINT_MOD := by
          intro c
          by_cases hcn : c = n
          · subst hcn; rw [ps1]; exact hd
          · rw [(oth1 c hcn).1]; exact hty c
        have hman1 : ∀ c, c < N → manhattan g (update_path_sum g pf n d) c + UINT_MOD ≤ SIZE_MOD := by
          intro c hcN
          rw [manhattan_congr g pf _ c gx1 gy1]
          exact hman c hcN
        apply ord2 _ hty1 hman1
        apply ord1 ho
        intro _
        have hnl : n < pf.nodes.length := by rw [wf.nlen]; exact hnN
        rw [heap_weight_eq g pf n (hty n) (hman n hnN),
          heap_weight_eq g (set_path_sum pf n d) n
            (by rw [path_sum_set_path_sum_self pf n d hnl]; exact hd)
            (by rw [manhattan_congr g pf (set_path_sum pf n d) n rfl rfl]; exact hman n hnN),
          path_sum_set_path_sum_self pf n d hnl,
          manhattan_congr g pf (set_path_sum pf n d) n rfl rfl]
        have := hc.2
        omega
    · rw [update_path_sum_skip g pf n d hc]
      obtain ⟨wf2, gx2, gy2, rel2, keep2, ord2⟩ := ih pf hLN wf
      refine ⟨wf2, gx2, gy2, ?_, ?_, ord2⟩
      · intro c hcc
        apply rel2 c
        refine ⟨?_, hcc.2⟩
        rcases List.mem_cons.1 hcc.1 with e | e
        · subst e; exact absurd hcc.2 hc
        · exact e
      · intro c hcc
        apply keep2 c
        intro h
        exact hcc ⟨List.mem_cons_of_mem _ h.1, h.2⟩

end Pathfinder

namespace Pathfinder

theorem pathfinder_step_idle (g : grid) (pf : pathfinder) (h : pf.heap_size = 0) :
    pathfinder_step g pf = pf := by
  unfold pathfinder_step
  rw [if_pos h]

/-- One step of an active engine, cell by cell: the root `m` of the heap loses
its slot and keeps its path sum; a cell joined to `m` by an open edge that is not
closed and has a larger path sum gets path sum `path_sum(m) + 1` and a slot;
every other cell keeps its path sum and whether it has a slot. -/
theorem pathfinder_step_spec (g : grid) (hN : cell_count g < INVALID_INDEX) (pf : pathfinder)
    (wf : HeapWF (cell_count g) pf) (hs : pf.heap_size ≠ 0)
    (hm : (node_at pf (heap_at pf 0)).path_sum ≠ INVALID_PATH_SUM) :
    HeapWF (cell_count g) (pathfinder_step g pf) ∧
    (pathfinder_step g pf).goal_x = pf.goal_x ∧
    (pathfinder_step g pf).goal_y = pf.goal_y ∧
    (node_at (pathfinder_step g pf) (heap_at pf 0)).path_sum
      = (node_at pf (heap_at pf 0)).path_sum ∧
    (node_at (pathfinder_step g pf) (heap_at pf 0)).hix = INVALID_INDEX ∧
    (∀ c, c ≠ heap_at pf 0 →
      (open_edge g (heap_at pf 0) c = true ∧ node_color (node_at pf c) ≠ .GREEN_NODE ∧
        ((node_at pf (heap_at pf 0)).path_sum + 1) % UINT_MOD < (node_at pf c).path_sum) →
      (node_at (pathfinder_step g pf) c).path_sum
        = ((node_at pf (heap_at pf 0)).path_sum + 1) % UINT_MOD ∧
      (node_at (pathfinder_step g pf) c).hix ≠ INVALID_INDEX) ∧
    (∀ c, c ≠ heap_at pf 0 →
      ¬ (open_edge g (heap_at pf 0) c = true ∧ node_color (node_at pf c) ≠ .GREEN_NODE ∧
        ((node_at pf (heap_at pf 0)).path_sum + 1) % UINT_MOD < (node_at pf c).path_sum) →
      (node_at (pathfinder_step g pf) c).path_sum = (node_at pf c).path_sum ∧
      ((node_at (pathfinder_step g pf) c).hix = INVALID_INDEX ↔
        (node_at pf c).hix = INVALID_INDEX)) ∧
    (HeapOrd g pf → (∀ c, (node_at pf c).path_sum < UINT_MOD) →
      (∀ c, c < cell_count g → manhattan g pf c + UINT_MOD ≤ SIZE_MOD) →
      HeapOrd g (pathfinder_step g pf)) := by
  obtain ⟨r1, wf1, _, gx1, gy1, ps1, hxm, inv1, ord1⟩ :=
    next_green_coord_spec g (cell_count g) hN pf wf hs
  have hmN : heap_at pf 0 < cell_count g := (wf.fwd 0 (Nat.pos_of_ne_zero hs)).1
  obtain ⟨L, hL, hmem⟩ := get_surround_spec g (heap_at pf 0) hmN hN
  have hLN : ∀ n ∈ L, n < cell_count g := fun n hn => (open_edge_lt g _ _ ((hmem n).1 hn)).2
  have hd : ((node_at pf (heap_at pf 0)).path_sum + 1) % UINT_MOD < UINT_MOD :=
    Nat.mod_lt _ (by unfold UINT_MOD; omega)
  have hdef : pathfinder_step g pf = relax_surround g (next_green_coord g pf).2
      (((node_at pf (heap_at pf 0)).path_sum + 1) % UINT_MOD) (L ++ [INVALID_INDEX]) := by
    unfold pathfinder_step
    rw [if_neg hs]
    simp only [r1, ps1, hL]
  obtain ⟨wf2, gx2, gy2, rel2, keep2, ord2⟩ :=
    relax_surround_spec g (cell_count g) hN _ hd L (next_green_coord g pf).2 hLN wf1
  rw [hdef]
  have hgreen : node_color (node_at (next_green_coord g pf).2 (heap_at pf 0)) = .GREEN_NODE := by
    rw [node_color_green_iff, ps1]
    exact ⟨hxm, hm⟩
  have hkm := keep2 (heap_at pf 0) (fun h => h.2.1 hgreen)
  refine ⟨wf2, gx2.trans gx1, gy2.trans gy1, hkm.1.trans (ps1 _), hkm.2.2 hxm, ?_, ?_, ?_⟩
  · intro c hcm hc
    apply rel2 c
    refine ⟨(hmem c).2 hc.1, ?_, ?_⟩
    · rw [node_color_congr _ _ (ps1 c) (inv1 c hcm)]; exact hc.2.1
    · rw [ps1]; exact hc.2.2
  · intro c hcm hc
    have hk := keep2 c (by
      intro h
      apply hc
      refine ⟨(hmem c).1 h.1, ?_, ?_⟩
      · rw [← node_color_congr _ _ (ps1 c) (inv1 c hcm)]; exact h.2.1
      · have := h.2.2; rw [ps1 c] at this; exact this)
    exact ⟨hk.1.trans (ps1 c), hk.2.trans (inv1 c hcm)⟩
  · intro ho hty hman
    apply ord2 (ord1 ho)
    · intro c; rw [ps1]; exact hty c
    · intro c hc
      rw [manhattan_congr g pf _ c gx1 gy1]
      exact hman c hc

end Pathfinder

namespace Pathfinder

/-! ## The initial state -/

theorem get_coord_in_range (g : grid) (x y : Nat) (hx : x < g.width) (hy : y < g.height)
    (hN : cell_count g < INVALID_INDEX) :
    get_coord g x y = g.width * y + x ∧ g.width * y + x < cell_count g := by
  have h1 : g.width * y + x < g.width * g.height := coord_lt g.width g.height x y hx hy
  have hI := INVALID_INDEX_lt_SIZE_MOD
  unfold cell_count grid_width grid_height at *
  refine ⟨?_, h1⟩
  unfold get_coord grid_width
  exact Nat.mod_eq_of_lt (by omega)

theorem getD_replicate_self {α : Type} (n c : Nat) (v : α) :
    (List.replicate n v).getD c v = v := by
  simp only [List.getD_eq_getElem?_getD, List.getElem?_replicate]
  split <;> rfl

theorem pathfinder_init_facts (g : grid) (sx sy ex ey : Nat) (hx : sx < g.width)
    (hy : sy < g.height) (hN : cell_count g < INVALID_INDEX) :
    (pathfinder_init g sx sy ex ey).heap.length = cell_count g ∧
    (pathfinder_init g sx sy ex ey).nodes.length = cell_count g ∧
    (pathfinder_init g sx sy ex ey).heap_size = 1 ∧
    (pathfinder_init g sx sy ex ey).goal_x = ex ∧
    (pathfinder_init g sx sy ex ey).goal_y = ey ∧
    heap_at (pathfinder_init g sx sy ex ey) 0 = g.width * sy + sx ∧
    node_at (pathfinder_init g sx sy ex ey) (g.width * sy + sx) = ⟨0, 0⟩ ∧
    (∀ c, c ≠ g.width * sy + sx →
      node_at (pathfinder_init g sx sy ex ey) c = ⟨INVALID_PATH_SUM, INVALID_INDEX⟩) := by
  obtain ⟨hs, hsN⟩ := get_coord_in_range g sx sy hx hy hN
  unfold pathfinder_init
  simp only [hs]
  unfold cell_count at *
  refine ⟨?_, ?_, rfl, rfl, rfl, ?_, ?_, ?_⟩
  · simp [set_heap]
  · simp [set_heap]
  · simp only [heap_at_set_hix, heap_at_set_path_sum]
    show (List.set _ 0 _).getD 0 0 = _
    have hpos : 0 < grid_width g * grid_height g := by omega
    exact getD_set_self _ _ _ _ (by rw [List.length_replicate]; exact hpos)
  · rw [node_at_set_hix_self _ _ _ (by simp [set_heap]; exact hsN),
      node_at_set_path_sum_self _ _ _ (by simp [set_heap]; exact hsN)]
  · intro c hc
    rw [node_at_set_hix_ne _ _ _ _ (Ne.symm hc), node_at_set_path_sum_ne _ _ _ _ (Ne.symm hc)]
    show (List.replicate _ _).getD c _ = _
    exact getD_replicate_self _ _ _

theorem mem_closed_set (N : Nat) (pf : pathfinder) (c : Nat) :
    c ∈ closed_set N pf ↔ c < N ∧ node_color (node_at pf c) = .GREEN_NODE := by
  simp [closed_set]

theorem closed_count_le (N : Nat) (pf : pathfinder) : closed_count N pf ≤ N := by
  unfold closed_count closed_set
  calc (Finset.filter _ (Finset.range N)).card ≤ (Finset.range N).card := Finset.card_filter_le _ _
    _ = N := Finset.card_range N

theorem closed_count_lt (N : Nat) (pf : pathfinder) (m : Nat) (hm : m < N)
    (hc : node_color (node_at pf m) ≠ .GREEN_NODE) : closed_count N pf < N := by
  unfold closed_count
  have hsub : closed_set N pf ⊆ (Finset.range N).erase m := by
    intro c hcs
    rw [mem_closed_set] at hcs
    rw [Finset.mem_erase, Finset.mem_range]
    refine ⟨?_, hcs.1⟩
    intro e
    rw [e] at hcs
    exact hc hcs.2
  have := Finset.card_le_card hsub
  rw [Finset.card_erase_of_mem (Finset.mem_range.2 hm), Finset.card_range] at this
  omega

theorem closed_count_lt_two (N : Nat) (pf : pathfinder) (m n : Nat) (hm : m < N) (hn : n < N)
    (hmn : m ≠ n) (hc : node_color (node_at pf m) ≠ .GREEN_NODE)
    (hd : node_color (node_at pf n) ≠ .GREEN_NODE) : closed_count N pf + 2 ≤ N := by
  unfold closed_count
  have hsub : closed_set N pf ⊆ ((Finset.range N).erase m).erase n := by
    intro c hcs
    rw [mem_closed_set] at hcs
    rw [Finset.mem_erase, Finset.mem_erase, Finset.mem_range]
    refine ⟨?_, ?_, hcs.1⟩
    · intro e
      rw [e] at hcs
      exact hd hcs.2
    · intro e
      rw [e] at hcs
      exact hc hcs.2
  have := Finset.card_le_card hsub
  rw [Finset.card_erase_of_mem (by
      rw [Finset.mem_erase, Finset.mem_range]; exact ⟨Ne.symm hmn, hn⟩),
    Finset.card_erase_of_mem (Finset.mem_range.2 hm), Finset.card_range] at this
  omega

theorem pathfinder_init_SInv (g : grid) (sx sy ex ey : Nat) (hx : sx < g.width)
    (hy : sy < g.height) (hN : cell_count g < INVALID_INDEX) :
    SInv g (g.width * sy + sx) (pathfinder_init g sx sy ex ey) ∧
      CInv g (pathfinder_init g sx sy ex ey) ∧
      closed_count (cell_count g) (pathfinder_init g sx sy ex ey) = 0 := by
  obtain ⟨hl, nl, hsz, _, _, h0, hself, hoth⟩ := pathfinder_init_facts g sx sy ex ey hx hy hN
  obtain ⟨_, hsN⟩ := get_coord_in_range g sx sy hx hy hN
  have hcolor : ∀ c, node_color (node_at (pathfinder_init g sx sy ex ey) c) ≠ .GREEN_NODE := by
    intro c
    by_cases hc : c = g.width * sy + sx
    · rw [hc, hself]; decide
    · rw [hoth c hc]; decide
  have hcc : closed_count (cell_count g) (pathfinder_init g sx sy ex ey) = 0 := by
    unfold closed_count
    rw [Finset.card_eq_zero, Finset.eq_empty_iff_forall_not_mem]
    intro c hc
    rw [mem_closed_set] at hc
    exact hcolor c hc.2
  have hvisited : ∀ c, (node_at (pathfinder_init g sx sy ex ey) c).path_sum ≠ INVALID_PATH_SUM →
      c = g.width * sy + sx := by
    intro c hc
    by_contra hne
    rw [hoth c hne] at hc
    exact hc rfl
  refine ⟨⟨⟨hl, nl, ?_, ?_, ?_⟩, ?_, ?_, ?_, ?_⟩, ⟨?_, ?_⟩, hcc⟩
  · rw [hsz]; omega
  · intro i hi
    rw [hsz] at hi
    have : i = 0 := by omega
    subst this
    rw [h0, hself]
    exact ⟨hsN, rfl⟩
  · intro c _ hc
    have : c = g.width * sy + sx := by
      by_contra hne
      rw [hoth c hne] at hc
      exact hc rfl
    subst this
    rw [hself, hsz, h0]
    exact ⟨Nat.one_pos, rfl⟩
  · intro c
    by_cases hc : c = g.width * sy + sx
    · rw [hc, hself]; decide
    · rw [hoth c hc]; decide
  · intro c _ hq
    by_cases hc : c = g.width * sy + sx
    · rw [hc, hself]; decide
    · rw [hoth c hc] at hq
      exact absurd rfl hq
  · intro c _ hc
    have := hvisited c hc
    subst this
    rw [hself]
    exact Walk.start
  · rw [hself]
  · intro c _ hc
    have := hvisited c hc
    subst this
    rw [hself]
    refine ⟨Nat.zero_le _, ?_⟩
    intro e
    exact absurd e (by decide)
  · intro c _ hc
    exact absurd hc (hcolor c)

end Pathfinder

namespace Pathfinder

/-! ## Preservation of the structural invariant -/

theorem INVALID_PATH_SUM_succ : INVALID_PATH_SUM + 1 = UINT_MOD := by
  show 2 ^ 32 - 1 + 1 = 2 ^ 32
  omega

theorem INVALID_PATH_SUM_lt_INVALID_INDEX : INVALID_PATH_SUM < INVALID_INDEX := by
  show 2 ^ 32 - 1 < 2 ^ 64 - 1
  omega

/-- One step of an active engine under the structural invariant; `path_sum + 1`
does not wrap because the path sum of an open cell is below `INVALID_PATH_SUM`. -/
theorem step_cells (g : grid) (s : Nat) (pf : pathfinder)
    (hN : cell_count g < INVALID_INDEX) (inv : SInv g s pf) (hs : pf.heap_size ≠ 0) :
    heap_at pf 0 < cell_count g ∧
    (node_at pf (heap_at pf 0)).hix = 0 ∧
    (node_at pf (heap_at pf 0)).path_sum ≠ INVALID_PATH_SUM ∧
    HeapWF (cell_count g) (pathfinder_step g pf) ∧
    (pathfinder_step g pf).goal_x = pf.goal_x ∧
    (pathfinder_step g pf).goal_y = pf.goal_y ∧
    (node_at (pathfinder_step g pf) (heap_at pf 0)).path_sum
      = (node_at pf (heap_at pf 0)).path_sum ∧
    (node_at (pathfinder_step g pf) (heap_at pf 0)).hix = INVALID_INDEX ∧
    (∀ c, c ≠ heap_at pf 0 →
      (open_edge g (heap_at pf 0) c = true ∧ node_color (node_at pf c) ≠ .GREEN_NODE ∧
        (node_at pf (heap_at pf 0)).path_sum + 1 < (node_at pf c).path_sum) →
      (node_at (pathfinder_step g pf) c).path_sum = (node_at pf (heap_at pf 0)).path_sum + 1 ∧
      (node_at (pathfinder_step g pf) c).hix ≠ INVALID_INDEX) ∧
    (∀ c, c ≠ heap_at pf 0 →
      ¬ (open_edge g (heap_at pf 0) c = true ∧ node_color (node_at pf c) ≠ .GREEN_NODE ∧
        (node_at pf (heap_at pf 0)).path_sum + 1 < (node_at pf c).path_sum) →
      (node_at (pathfinder_step g pf) c).path_sum = (node_at pf c).path_sum ∧
      ((node_at (pathfinder_step g pf) c).hix = INVALID_INDEX ↔
        (node_at pf c).hix = INVALID_INDEX)) ∧
    (HeapOrd g pf → (∀ c, c < cell_count g → manhattan g pf c + UINT_MOD ≤ SIZE_MOD) →
      HeapOrd g (pathfinder_step g pf)) := by
  obtain ⟨hmN, hmh⟩ := inv.wf.fwd 0 (Nat.pos_of_ne_zero hs)
  have hmq : (node_at pf (heap_at pf 0)).hix ≠ INVALID_INDEX := by
    rw [hmh]; exact fun e => absurd e.symm (by omega)
  have hmv := inv.vis _ hmN hmq
  have hty := inv.typed (heap_at pf 0)
  have hsucc := INVALID_PATH_SUM_succ
  have hmod : ((node_at pf (heap_at pf 0)).path_sum + 1) % UINT_MOD
      = (node_at pf (heap_at pf 0)).path_sum + 1 := Nat.mod_eq_of_lt (by omega)
  obtain ⟨wf2, gx, gy, psm, hxm, rel, keep, ord⟩ := pathfinder_step_spec g hN pf inv.wf hs hmv
  rw [hmod] at rel keep
  exact ⟨hmN, hmh, hmv, wf2, gx, gy, psm, hxm, rel, keep,
    fun ho hman => ord ho inv.typed hman⟩

/-- The popped cell is not closed before the step. -/
theorem root_not_closed (g : grid) (s : Nat) (pf : pathfinder)
    (hN : cell_count g < INVALID_INDEX) (inv : SInv g s pf) (hs : pf.heap_size ≠ 0) :
    (node_at pf (heap_at pf 0)).hix ≠ INVALID_INDEX ∧
      node_color (node_at pf (heap_at pf 0)) ≠ .GREEN_NODE := by
  obtain ⟨hmN, hmh⟩ := inv.wf.fwd 0 (Nat.pos_of_ne_zero hs)
  have hmq : (node_at pf (heap_at pf 0)).hix ≠ INVALID_INDEX := by
    rw [hmh]; exact fun e => absurd e.symm (by omega)
  refine ⟨hmq, ?_⟩
  rw [Ne, node_color_green_iff]
  exact fun h => hmq h.1

/-- Path sums after a step: unchanged, or lowered to `path_sum(root) + 1` at a
cell next to the root, which then has a heap slot. -/
theorem step_path_sum (g : grid) (s : Nat) (pf : pathfinder)
    (hN : cell_count g < INVALID_INDEX) (inv : SInv g s pf) (hs : pf.heap_size ≠ 0) (c : Nat) :
    (node_at (pathfinder_step g pf) c).path_sum = (node_at pf c).path_sum ∨
      ((node_at (pathfinder_step g pf) c).path_sum = (node_at pf (heap_at pf 0)).path_sum + 1 ∧
        (node_at (pathfinder_step g pf) c).hix ≠ INVALID_INDEX ∧ c ≠ heap_at pf 0 ∧
        open_edge g (heap_at pf 0) c = true ∧
        (node_at pf (heap_at pf 0)).path_sum + 1 < (node_at pf c).path_sum) := by
  obtain ⟨_, _, _, _, _, _, psm, _, rel, keep, _⟩ := step_cells g s pf hN inv hs
  by_cases hcm : c = heap_at pf 0
  · subst hcm; exact Or.inl psm
  · by_cases hc : open_edge g (heap_at pf 0) c = true ∧
        node_color (node_at pf c) ≠ .GREEN_NODE ∧
        (node_at pf (heap_at pf 0)).path_sum + 1 < (node_at pf c).path_sum
    · obtain ⟨r1, r2⟩ := rel c hcm hc
      exact Or.inr ⟨r1, r2, hcm, hc.1, hc.2.2⟩
    · exact Or.inl (keep c hcm hc).1

/-- Every cell other than the root is closed after the step iff it was before. -/
theorem step_green_iff (g : grid) (s : Nat) (pf : pathfinder)
    (hN : cell_count g < INVALID_INDEX) (inv : SInv g s pf) (hs : pf.heap_size ≠ 0) (c : Nat)
    (hcm : c ≠ heap_at pf 0) :
    node_color (node_at (pathfinder_step g pf) c) = .GREEN_NODE ↔
      node_color (node_at pf c) = .GREEN_NODE := by
  obtain ⟨_, _, _, _, _, _, _, _, rel, keep, _⟩ := step_cells g s pf hN inv hs
  by_cases hc : open_edge g (heap_at pf 0) c = true ∧ node_color (node_at pf c) ≠ .GREEN_NODE ∧
      (node_at pf (heap_at pf 0)).path_sum + 1 < (node_at pf c).path_sum
  · obtain ⟨_, r2⟩ := rel c hcm hc
    constructor
    · intro h; rw [node_color_green_iff] at h; exact absurd h.1 r2
    · intro h; exact absurd h hc.2.1
  · obtain ⟨k1, k2⟩ := keep c hcm hc
    rw [node_color_congr _ _ k1 k2]

theorem SInv_step (g : grid) (s : Nat) (pf : pathfinder)
    (hN : cell_count g < INVALID_INDEX) (inv : SInv g s pf) (hs : pf.heap_size ≠ 0) :
    SInv g s (pathfinder_step g pf) ∧
      heap_at pf 0 ∉ closed_set (cell_count g) pf ∧
      closed_set (cell_count g) (pathfinder_step g pf)
        = insert (heap_at pf 0) (closed_set (cell_count g) pf) ∧
      closed_count (cell_count g) (pathfinder_step g pf)
        = closed_count (cell_count g) pf + 1 := by
  obtain ⟨hmN, hmh, hmv, wf2, gx, gy, psm, hxm, rel, keep, _⟩ := step_cells g s pf hN inv hs
  have hsucc := INVALID_PATH_SUM_succ
  obtain ⟨hmq, hmc⟩ := root_not_closed g s pf hN inv hs
  have hmnot : heap_at pf 0 ∉ closed_set (cell_count g) pf := by
    rw [mem_closed_set]
    exact fun h => hmc h.2
  have hmgreen : node_color (node_at (pathfinder_step g pf) (heap_at pf 0)) = .GREEN_NODE := by
    rw [node_color_green_iff, psm]
    exact ⟨hxm, hmv⟩
  have hset : closed_set (cell_count g) (pathfinder_step g pf)
      = insert (heap_at pf 0) (closed_set (cell_count g) pf) := by
    ext c
    rw [Finset.mem_insert, mem_closed_set, mem_closed_set]
    by_cases hcm : c = heap_at pf 0
    · subst hcm
      constructor
      · intro _; exact Or.inl rfl
      · intro _; exact ⟨hmN, hmgreen⟩
    · rw [step_green_iff g s pf hN inv hs c hcm]
      constructor
      · intro h; exact Or.inr h
      · intro h
        rcases h with h | h
        · exact absurd h hcm
        · exact h
  have hcount : closed_count (cell_count g) (pathfinder_step g pf)
      = closed_count (cell_count g) pf + 1 := by
    unfold closed_count
    rw [hset, Finset.card_insert_of_not_mem hmnot]
  have hps := step_path_sum g s pf hN inv hs
  refine ⟨⟨wf2, ?_, ?_, ?_, ?_⟩, hmnot, hset, hcount⟩
  · intro c
    rcases hps c with h | h
    · rw [h]; exact inv.typed c
    · rw [h.1]
      have := inv.typed c
      omega
  · intro c hcN hq
    rcases hps c with h | h
    · rw [h]
      by_cases hcm : c = heap_at pf 0
      · rw [hcm]; exact hmv
      · by_cases hc : open_edge g (heap_at pf 0) c = true ∧
            node_color (node_at pf c) ≠ .GREEN_NODE ∧
            (node_at pf (heap_at pf 0)).path_sum + 1 < (node_at pf c).path_sum
        · have := (rel c hcm hc).1
          rw [h] at this
          have := hc.2.2
          omega
        · exact inv.vis c hcN (fun e => hq ((keep c hcm hc).2.2 e))
    · rw [h.1]
      have := inv.typed c
      omega
  · intro c hcN hv
    rcases hps c with h | h
    · rw [h] at hv ⊢
      exact inv.walk c hcN hv
    · rw [h.1]
      exact Walk.step (inv.walk _ hmN hmv) h.2.2.2.1
  · rcases hps s with h | h
    · rw [h]; exact inv.start
    · have := inv.start
      omega

theorem CInv_step (g : grid) (s : Nat) (pf : pathfinder)
    (hN : cell_count g ≤ INVALID_PATH_SUM) (inv : SInv g s pf) (cinv : CInv g pf)
    (hs : pf.heap_size ≠ 0) : CInv g (pathfinder_step g pf) := by
  have hNI : cell_count g < INVALID_INDEX :=
    lt_of_le_of_lt hN INVALID_PATH_SUM_lt_INVALID_INDEX
  have hsucc := INVALID_PATH_SUM_succ
  obtain ⟨hmN, hmh, hmv, wf2, gx, gy, psm, hxm, rel, keep, _⟩ := step_cells g s pf hNI inv hs
  obtain ⟨_, _, _, hcount⟩ := SInv_step g s pf hNI inv hs
  obtain ⟨hmq, hmc⟩ := root_not_closed g s pf hNI inv hs
  have hcc := closed_count_lt (cell_count g) pf _ hmN hmc
  have hb := (cinv.bound _ hmN hmv).1
  have hps := step_path_sum g s pf hNI inv hs
  have hvisited : ∀ c, (node_at pf c).path_sum ≠ INVALID_PATH_SUM →
      (node_at (pathfinder_step g pf) c).path_sum ≠ INVALID_PATH_SUM := by
    intro c hc
    rcases hps c with h | h
    · rw [h]; exact hc
    · rw [h.1]
      have := inv.typed c
      omega
  refine ⟨?_, ?_⟩
  · intro c hcN hv
    rw [hcount]
    rcases hps c with h | h
    · rw [h] at hv ⊢
      obtain ⟨b1, b2⟩ := cinv.bound c hcN hv
      refine ⟨by omega, fun hq => ?_⟩
      by_cases hcm : c = heap_at pf 0
      · omega
      · by_cases hc : open_edge g (heap_at pf 0) c = true ∧
            node_color (node_at pf c) ≠ .GREEN_NODE ∧
            (node_at pf (heap_at pf 0)).path_sum + 1 < (node_at pf c).path_sum
        · exact absurd hq (rel c hcm hc).2
        · have := b2 ((keep c hcm hc).2.1 hq)
          omega
    · rw [h.1]
      exact ⟨by omega, fun hq => absurd hq h.2.1⟩
  · intro c hcN hcg n hn
    by_cases hcm : c = heap_at pf 0
    · subst hcm
      by_cases hnm : n = heap_at pf 0
      · rw [hnm, psm]; exact hmv
      · by_cases hc : open_edge g (heap_at pf 0) n = true ∧
            node_color (node_at pf n) ≠ .GREEN_NODE ∧
            (node_at pf (heap_at pf 0)).path_sum + 1 < (node_at pf n).path_sum
        · rw [(rel n hnm hc).1]
          have := inv.typed n
          omega
        · rw [(keep n hnm hc).1]
          by_cases hng : node_color (node_at pf n) = .GREEN_NODE
          · rw [node_color_green_iff] at hng; exact hng.2
          · have : ¬ (node_at pf (heap_at pf 0)).path_sum + 1 < (node_at pf n).path_sum :=
              fun h => hc ⟨hn, hng, h⟩
            have := closed_count_lt_two (cell_count g) pf _ n hmN (open_edge_lt g _ _ hn).2
              (Ne.symm hnm) hmc hng
            omega
    · exact hvisited n (cinv.clos c hcN ((step_green_iff g s pf hNI inv hs c hcm).1 hcg) n hn)

end Pathfinder

namespace Pathfinder

/-! ## Preservation of the A* invariant -/

theorem heap_root_min (g : grid) (pf : pathfinder) (ho : HeapOrd g pf) :
    ∀ i, i < pf.heap_size →
      heap_weight g pf (heap_at pf 0) ≤ heap_weight g pf (heap_at pf i) := by
  intro i
  induction i using Nat.strong_induction_on with
  | _ i ih =>
    intro hi
    rcases Nat.eq_zero_or_pos i with h0 | h0
    · subst h0; exact le_refl _
    · exact le_trans (ih ((i - 1) / 2) (by omega) (by omega)) (ho i h0 hi)

theorem diff_succ_le (a b : Nat) : diff a b ≤ diff (a + 1) b + 1 ∧ diff (a + 1) b ≤ diff a b + 1 := by
  unfold diff
  constructor <;> split_ifs <;> omega

/-- Consistency of the Manhattan heuristic along an open edge. -/
theorem manhattan_edge (g : grid) (pf : pathfinder) (a b : Nat) (h : open_edge g a b = true) :
    manhattan g pf a ≤ manhattan g pf b + 1 := by
  simp only [open_edge, Bool.and_eq_true, Bool.or_eq_true, decide_eq_true_eq] at h
  obtain ⟨_, h⟩ := h
  unfold manhattan grid_width
  rcases h with ((⟨⟨e1, e2⟩, _⟩ | ⟨⟨e1, e2⟩, _⟩) | ⟨⟨e1, e2⟩, _⟩) | ⟨⟨e1, e2⟩, _⟩
  · rw [e1, ← e2]
    have := (diff_succ_le (a % g.width) pf.goal_x).1
    omega
  · rw [e1, ← e2]
    have := (diff_succ_le (b % g.width) pf.goal_x).2
    omega
  · rw [e1, ← e2]
    have := (diff_succ_le (a / g.width) pf.goal_y).1
    omega
  · rw [e1, ← e2]
    have := (diff_succ_le (b / g.width) pf.goal_y).2
    omega

/-- The root of the heap minimises `path_sum + manhattan` over the open cells. -/
theorem root_min_open (g : grid) (s : Nat) (pf : pathfinder) (inv : SInv g s pf)
    (ainv : AInv g s pf) (hs : pf.heap_size ≠ 0) (o : Nat) (ho : o < cell_count g)
    (hq : (node_at pf o).hix ≠ INVALID_INDEX) :
    (node_at pf (heap_at pf 0)).path_sum + manhattan g pf (heap_at pf 0)
      ≤ (node_at pf o).path_sum + manhattan g pf o := by
  obtain ⟨b1, b2⟩ := inv.wf.bwd o ho hq
  have hmN := (inv.wf.fwd 0 (Nat.pos_of_ne_zero hs)).1
  have := heap_root_min g pf ainv.ord _ b1
  rw [b2, heap_weight_eq g pf _ (inv.typed _) (ainv.man _ hmN),
    heap_weight_eq g pf _ (inv.typed _) (ainv.man _ ho)] at this
  exact this

/-- A walk from the start to a cell that is not closed passes an open cell whose
path sum is at most the number of edges walked so far, unless the walk is at
least `INVALID_PATH_SUM` edges long. -/
theorem walk_frontier (g : grid) (s : Nat) (pf : pathfinder) (hsN : s < cell_count g)
    (inv : SInv g s pf) (ainv : AInv g s pf) :
    ∀ v k, Walk g s v k → node_color (node_at pf v) ≠ .GREEN_NODE →
      (∃ o j, o < cell_count g ∧ (node_at pf o).hix ≠ INVALID_INDEX ∧
        (node_at pf o).path_sum ≤ j ∧ j ≤ k ∧
        manhattan g pf o ≤ manhattan g pf v + (k - j)) ∨ INVALID_PATH_SUM ≤ k := by
  intro v k hw
  induction hw with
  | start =>
    intro hc
    have hv : (node_at pf s).path_sum ≠ INVALID_PATH_SUM := by
      rw [inv.start]; decide
    have hq : (node_at pf s).hix ≠ INVALID_INDEX := by
      intro e
      exact hc ((node_color_green_iff _).2 ⟨e, hv⟩)
    exact Or.inl ⟨s, 0, hsN, hq, by rw [inv.start], le_refl _, by omega⟩
  | step hwu he ih =>
    rename_i u v k
    intro hc
    obtain ⟨huN, hvN⟩ := open_edge_lt g u v he
    by_cases hu : node_color (node_at pf u) = .GREEN_NODE
    · have h1 := ainv.near u huN hu v he
      have h2 := ainv.opt u huN hu k hwu
      by_cases hv : (node_at pf v).path_sum = INVALID_PATH_SUM
      · exact Or.inr (by omega)
      · have hq : (node_at pf v).hix ≠ INVALID_INDEX := by
          intro e
          exact hc ((node_color_green_iff _).2 ⟨e, hv⟩)
        exact Or.inl ⟨v, k + 1, hvN, hq, by omega, le_refl _, by omega⟩
    · rcases ih hu with ⟨o, j, hoN, hoq, hj1, hj2, hman⟩ | hbig
      · have := manhattan_edge g pf u v he
        exact Or.inl ⟨o, j, hoN, hoq, hj1, by omega, by omega⟩
      · exact Or.inr (by omega)

theorem AInv_step (g : grid) (s : Nat) (pf : pathfinder) (hsN : s < cell_count g)
    (hN : cell_count g < INVALID_INDEX) (inv : SInv g s pf) (ainv : AInv g s pf)
    (hs : pf.heap_size ≠ 0) : AInv g s (pathfinder_step g pf) := by
  obtain ⟨hmN, hmh, hmv, wf2, gx, gy, psm, hxm, rel, keep, ord⟩ := step_cells g s pf hN inv hs
  have hman : ∀ c, manhattan g (pathfinder_step g pf) c = manhattan g pf c :=
    fun c => manhattan_congr g pf _ c gx gy
  obtain ⟨hmq, hmc⟩ := root_not_closed g s pf hN inv hs
  -- closed after the step: the popped cell or closed before
  have hgreen : ∀ c, c ≠ heap_at pf 0 →
      node_color (node_at (pathfinder_step g pf) c) = .GREEN_NODE →
      node_color (node_at pf c) = .GREEN_NODE ∧
        (node_at (pathfinder_step g pf) c).path_sum = (node_at pf c).path_sum := by
    intro c hcm hg
    by_cases hc : open_edge g (heap_at pf 0) c = true ∧ node_color (node_at pf c) ≠ .GREEN_NODE ∧
        (node_at pf (heap_at pf 0)).path_sum + 1 < (node_at pf c).path_sum
    · rw [node_color_green_iff] at hg
      exact absurd hg.1 (rel c hcm hc).2
    · obtain ⟨k1, k2⟩ := keep c hcm hc
      rw [node_color_congr _ _ k1 k2] at hg
      exact ⟨hg, k1⟩
  have hle : ∀ c, (node_at (pathfinder_step g pf) c).path_sum ≤ (node_at pf c).path_sum := by
    intro c
    by_cases hcm : c = heap_at pf 0
    · rw [hcm, psm]
    · by_cases hc : open_edge g (heap_at pf 0) c = true ∧
          node_color (node_at pf c) ≠ .GREEN_NODE ∧
          (node_at pf (heap_at pf 0)).path_sum + 1 < (node_at pf c).path_sum
      · rw [(rel c hcm hc).1]; exact le_of_lt hc.2.2
      · rw [(keep c hcm hc).1]
  -- the popped cell is optimal
  have hopt : ∀ k, Walk g s (heap_at pf 0) k → (node_at pf (heap_at pf 0)).path_sum ≤ k := by
    intro k hw
    rcases walk_frontier g s pf hsN inv ainv _ k hw hmc with
      ⟨o, j, hoN, hoq, hj1, hj2, hmo⟩ | hbig
    · have := root_min_open g s pf inv ainv hs o hoN hoq
      omega
    · have := inv.typed (heap_at pf 0)
      have := INVALID_PATH_SUM_succ
      omega
  refine ⟨ord ainv.ord ainv.man, ?_, ?_, ?_, ?_⟩
  · intro c hc
    rw [hman]; exact ainv.man c hc
  · intro c hcN hcg n hn
    by_cases hcm : c = heap_at pf 0
    · subst hcm
      rw [psm]
      by_cases hnm : n = heap_at pf 0
      · rw [hnm, psm]; omega
      · by_cases hc : open_edge g (heap_at pf 0) n = true ∧
            node_color (node_at pf n) ≠ .GREEN_NODE ∧
            (node_at pf (heap_at pf 0)).path_sum + 1 < (node_at pf n).path_sum
        · rw [(rel n hnm hc).1]
        · rw [(keep n hnm hc).1]
          by_cases hng : node_color (node_at pf n) = .GREEN_NODE
          · have h1 := ainv.mono n (open_edge_lt g _ _ hn).2 hng _ hmN hmq
            have h2 := manhattan_edge g pf _ _ hn
            omega
          · have : ¬ (node_at pf (heap_at pf 0)).path_sum + 1 < (node_at pf n).path_sum :=
              fun h => hc ⟨hn, hng, h⟩
            omega
    · obtain ⟨g1, g2⟩ := hgreen c hcm hcg
      rw [g2]
      exact le_trans (hle n) (ainv.near c hcN g1 n hn)
  · intro c hcN hcg k hw
    by_cases hcm : c = heap_at pf 0
    · subst hcm; rw [psm]; exact hopt k hw
    · obtain ⟨g1, g2⟩ := hgreen c hcm hcg
      rw [g2]; exact ainv.opt c hcN g1 k hw
  · intro c hcN hcg o hoN hoq
    rw [hman, hman]
    have hom : o ≠ heap_at pf 0 := by
      intro e; rw [e] at hoq; exact hoq hxm
    -- the closed cell is no heavier than the popped cell
    have hcle : (node_at (pathfinder_step g pf) c).path_sum + manhattan g pf c
        ≤ (node_at pf (heap_at pf 0)).path_sum + manhattan g pf (heap_at pf 0) := by
      by_cases hcm : c = heap_at pf 0
      · rw [hcm, psm]
      · obtain ⟨g1, g2⟩ := hgreen c hcm hcg
        rw [g2]
        exact ainv.mono c hcN g1 _ hmN hmq
    by_cases hc : open_edge g (heap_at pf 0) o = true ∧
        node_color (node_at pf o) ≠ .GREEN_NODE ∧
        (node_at pf (heap_at pf 0)).path_sum + 1 < (node_at pf o).path_sum
    · rw [(rel o hom hc).1]
      have := manhattan_edge g pf _ _ hc.1
      omega
    · obtain ⟨k1, k2⟩ := keep o hom hc
      rw [k1]
      have hoq2 : (node_at pf o).hix ≠ INVALID_INDEX := fun e => hoq (k2.2 e)
      by_cases hcm : c = heap_at pf 0
      · rw [hcm, psm]
        exact root_min_open g s pf inv ainv hs o hoN hoq2
      · obtain ⟨g1, g2⟩ := hgreen c hcm hcg
        rw [g2]
        exact ainv.mono c hcN g1 o hoN hoq2

end Pathfinder

namespace Pathfinder

/-! ## Invariants along a run -/

theorem run_succ (g : grid) (pf : pathfinder) (k : Nat) :
    run g pf (k + 1) = pathfinder_step g (run g pf k) := rfl

theorem run_SInv (g : grid) (sx sy ex ey : Nat) (hx : sx < g.width) (hy : sy < g.height)
    (hN : cell_count g < INVALID_INDEX) (k : Nat) :
    SInv g (g.width * sy + sx) (run g (pathfinder_init g sx sy ex ey) k) ∧
      closed_count (cell_count g) (run g (pathfinder_init g sx sy ex ey) k) ≤ k ∧
      ((run g (pathfinder_init g sx sy ex ey) k).heap_size ≠ 0 →
        closed_count (cell_count g) (run g (pathfinder_init g sx sy ex ey) k) = k) := by
  induction k with
  | zero =>
    obtain ⟨h1, _, h2⟩ := pathfinder_init_SInv g sx sy ex ey hx hy hN
    exact ⟨h1, by rw [run, h2], fun _ => by rw [run, h2]⟩
  | succ k ih =>
    obtain ⟨inv, c1, c2⟩ := ih
    rw [run_succ]
    by_cases hs : (run g (pathfinder_init g sx sy ex ey) k).heap_size = 0
    · rw [pathfinder_step_idle g _ hs]
      exact ⟨inv, by omega, fun h => absurd hs h⟩
    · obtain ⟨inv2, _, _, hc⟩ := SInv_step g _ _ hN inv hs
      have := c2 hs
      exact ⟨inv2, by omega, fun _ => by omega⟩

theorem run_CInv (g : grid) (sx sy ex ey : Nat) (hx : sx < g.width) (hy : sy < g.height)
    (hN : cell_count g ≤ INVALID_PATH_SUM) (k : Nat) :
    CInv g (run g (pathfinder_init g sx sy ex ey) k) := by
  have hNI : cell_count g < INVALID_INDEX :=
    lt_of_le_of_lt hN INVALID_PATH_SUM_lt_INVALID_INDEX
  induction k with
  | zero => exact (pathfinder_init_SInv g sx sy ex ey hx hy hNI).2.1
  | succ k ih =>
    rw [run_succ]
    by_cases hs : (run g (pathfinder_init g sx sy ex ey) k).heap_size = 0
    · rw [pathfinder_step_idle g _ hs]; exact ih
    · exact CInv_step g _ _ hN (run_SInv g sx sy ex ey hx hy hNI k).1 ih hs

theorem alloc_fits_lt (g : grid) (h : alloc_fits g) : cell_count g < INVALID_INDEX := by
  unfold alloc_fits at h
  have h7 : SIZE_MOD = 2 ^ 64 := rfl
  have h8 : INVALID_INDEX = 2 ^ 64 - 1 := rfl
  omega

theorem alloc_fits_of_le (g : grid) (h : cell_count g ≤ INVALID_PATH_SUM) : alloc_fits g := by
  unfold alloc_fits
  have h7 : SIZE_MOD = 2 ^ 64 := rfl
  have h8 : INVALID_PATH_SUM = 2 ^ 32 - 1 := rfl
  omega

theorem manhattan_bound (g : grid) (pf : pathfinder) (c : Nat) (hc : c < cell_count g)
    (hgx : pf.goal_x < g.width) (hgy : pf.goal_y < g.height)
    (hN : alloc_fits g) : manhattan g pf c + UINT_MOD ≤ SIZE_MOD := by
  obtain ⟨w, h, ws⟩ := g
  simp only [alloc_fits, cell_count, grid_width, grid_height, manhattan] at *
  obtain ⟨x, y, hx, hy, rfl⟩ := cell_decompose w h c hc
  rw [coord_mod w x y hx, coord_div w x y hx]
  have h1 : w ≤ w * h := Nat.le_mul_of_pos_right w (by omega)
  have h2 : h ≤ w * h := Nat.le_mul_of_pos_left h (by omega)
  have h3 : diff x pf.goal_x ≤ w := by unfold diff; split_ifs <;> omega
  have h4 : diff y pf.goal_y ≤ h := by unfold diff; split_ifs <;> omega
  have h6 : UINT_MOD = 2 ^ 32 := rfl
  have h7 : SIZE_MOD = 2 ^ 64 := rfl
  omega

theorem run_goal (g : grid) (sx sy ex ey : Nat) (hx : sx < g.width) (hy : sy < g.height)
    (hN : cell_count g < INVALID_INDEX) (k : Nat) :
    (run g (pathfinder_init g sx sy ex ey) k).goal_x = ex ∧
      (run g (pathfinder_init g sx sy ex ey) k).goal_y = ey := by
  have hNI := hN
  induction k with
  | zero =>
    obtain ⟨_, _, _, h1, h2, _⟩ := pathfinder_init_facts g sx sy ex ey hx hy hNI
    exact ⟨h1, h2⟩
  | succ k ih =>
    rw [run_succ]
    by_cases hs : (run g (pathfinder_init g sx sy ex ey) k).heap_size = 0
    · rw [pathfinder_step_idle g _ hs]; exact ih
    · obtain ⟨_, _, _, _, gx, gy, _⟩ :=
        step_cells g _ _ hN (run_SInv g sx sy ex ey hx hy hN k).1 hs
      exact ⟨gx.trans ih.1, gy.trans ih.2⟩

theorem run_AInv (g : grid) (sx sy ex ey : Nat) (hx : sx < g.width) (hy : sy < g.height)
    (hex : ex < g.width) (hey : ey < g.height)
    (hN : alloc_fits g) (k : Nat) :
    AInv g (g.width * sy + sx) (run g (pathfinder_init g sx sy ex ey) k) := by
  have hNI : cell_count g < INVALID_INDEX := alloc_fits_lt g hN
  obtain ⟨_, hsN⟩ := get_coord_in_range g sx sy hx hy hNI
  induction k with
  | zero =>
    obtain ⟨_, _, hsz, h1, h2, _, hself, hoth⟩ := pathfinder_init_facts g sx sy ex ey hx hy hNI
    have hcolor : ∀ c, node_color (node_at (pathfinder_init g sx sy ex ey) c) ≠ .GREEN_NODE := by
      intro c
      by_cases hc : c = g.width * sy + sx
      · rw [hc, hself]; decide
      · rw [hoth c hc]; decide
    refine ⟨?_, ?_, ?_, ?_, ?_⟩
    · intro i hi0 hi
      have : i < 1 := by rw [← hsz]; exact hi
      omega
    · intro c hc
      exact manhattan_bound g _ c hc (by rw [run, h1]; exact hex) (by rw [run, h2]; exact hey) hN
    · intro c _ hg; exact absurd hg (hcolor c)
    · intro c _ hg; exact absurd hg (hcolor c)
    · intro c _ hg; exact absurd hg (hcolor c)
  | succ k ih =>
    rw [run_succ]
    by_cases hs : (run g (pathfinder_init g sx sy ex ey) k).heap_size = 0
    · rw [pathfinder_step_idle g _ hs]; exact ih
    · exact AInv_step g _ _ hsN hNI (run_SInv g sx sy ex ey hx hy hNI k).1 ih hs

theorem walk_lt (g : grid) (s : Nat) (hs : s < cell_count g) :
    ∀ c k, Walk g s c k → c < cell_count g := by
  intro c k hw
  induction hw with
  | start => exact hs
  | step _ he _ => exact (open_edge_lt g _ _ he).2

/-- Once the heap is empty every cell some walk reaches is closed. -/
theorem exhausted_closed (g : grid) (s : Nat) (pf : pathfinder) (inv : SInv g s pf)
    (cinv : CInv g pf) (hsN : s < cell_count g) (hs : pf.heap_size = 0) :
    ∀ c k, Walk g s c k → node_color (node_at pf c) = .GREEN_NODE := by
  have hq : ∀ c, c < cell_count g → (node_at pf c).hix = INVALID_INDEX := by
    intro c hc
    by_contra hne
    have := (inv.wf.bwd c hc hne).1
    omega
  intro c k hw
  induction hw with
  | start =>
    rw [node_color_green_iff, inv.start]
    exact ⟨hq s hsN, by decide⟩
  | step hwu he ih =>
    obtain ⟨huN, hvN⟩ := open_edge_lt g _ _ he
    rw [node_color_green_iff]
    exact ⟨hq _ hvN, cinv.clos _ huN ih _ he⟩

/-- A closed cell stays closed with the same path sum. -/
theorem closed_step (g : grid) (s : Nat) (pf : pathfinder)
    (hN : cell_count g < INVALID_INDEX) (inv : SInv g s pf) (c : Nat)
    (hc : node_color (node_at pf c) = .GREEN_NODE) :
    node_color (node_at (pathfinder_step g pf) c) = .GREEN_NODE ∧
      (node_at (pathfinder_step g pf) c).path_sum = (node_at pf c).path_sum := by
  by_cases hs : pf.heap_size = 0
  · rw [pathfinder_step_idle g _ hs]; exact ⟨hc, rfl⟩
  · obtain ⟨_, hmh, _, _, _, _, _, _, _, keep, _⟩ := step_cells g s pf hN inv hs
    have hcm : c ≠ heap_at pf 0 := by
      intro e
      rw [node_color_green_iff, e, hmh] at hc
      have := INVALID_INDEX_lt_SIZE_MOD
      exact absurd hc.1.symm (by unfold INVALID_INDEX; omega)
    obtain ⟨k1, k2⟩ := keep c hcm (fun h => h.2.1 hc)
    exact ⟨by rw [node_color_congr _ _ k1 k2]; exact hc, k1⟩

theorem closed_run (g : grid) (sx sy ex ey : Nat) (hx : sx < g.width) (hy : sy < g.height)
    (hN : cell_count g < INVALID_INDEX) (k c : Nat)
    (hc : node_color (node_at (run g (pathfinder_init g sx sy ex ey) k) c) = .GREEN_NODE) :
    ∀ j, node_color (node_at (run g (pathfinder_init g sx sy ex ey) (k + j)) c) = .GREEN_NODE ∧
      (node_at (run g (pathfinder_init g sx sy ex ey) (k + j)) c).path_sum
        = (node_at (run g (pathfinder_init g sx sy ex ey) k) c).path_sum := by
  intro j
  induction j with
  | zero => exact ⟨hc, rfl⟩
  | succ j ih =>
    have := closed_step g _ _ hN (run_SInv g sx sy ex ey hx hy hN (k + j)).1 c ih.1
    rw [← Nat.add_assoc, run_succ]
    exact ⟨this.1, this.2.trans ih.2⟩

theorem exhausted_stays (g : grid) (pf : pathfinder) (k : Nat)
    (h : (run g pf k).heap_size = 0) : ∀ j, run g pf (k + j) = run g pf k := by
  intro j
  induction j with
  | zero => rfl
  | succ j ih =>
    rw [← Nat.add_assoc, run_succ, ih, pathfinder_step_idle g _ h]

theorem closed_is_dist (g : grid) (s : Nat) (pf : pathfinder) (inv : SInv g s pf)
    (ainv : AInv g s pf) (c : Nat) (hcN : c < cell_count g)
    (hc : node_color (node_at pf c) = .GREEN_NODE) :
    IsDist g s c (node_at pf c).path_sum :=
  ⟨inv.walk c hcN ((node_color_green_iff _).1 hc).2, ainv.opt c hcN hc⟩

theorem pathfinder_node_color_eq (g : grid) (pf : pathfinder) (x y : Nat) (hx : x < g.width)
    (hy : y < g.height) (hN : cell_count g < INVALID_INDEX) :
    pathfinder_node_color g pf x y = node_color (node_at pf (g.width * y + x)) := by
  unfold pathfinder_node_color
  rw [(get_coord_in_range g x y hx hy hN).1]

end Pathfinder

namespace Pathfinder

/-! ## The pathfinder contracts -/

theorem node_at_out_of_range (pf : pathfinder) (c : Nat) (h : pf.nodes.length ≤ c) :
    node_at pf c = ⟨INVALID_PATH_SUM, INVALID_INDEX⟩ := by
  unfold node_at
  rw [List.getD_eq_getElem?_getD, List.getElem?_eq_none h]
  rfl

theorem run_exhausted (g : grid) (sx sy ex ey : Nat) (hx : sx < g.width) (hy : sy < g.height)
    (hN : cell_count g < INVALID_INDEX) :
    (run g (pathfinder_init g sx sy ex ey) (cell_count g)).heap_size = 0 := by
  by_contra hs
  obtain ⟨inv, _, hc⟩ := run_SInv g sx sy ex ey hx hy hN (cell_count g)
  obtain ⟨hmN, hmh⟩ := inv.wf.fwd 0 (Nat.pos_of_ne_zero hs)
  have hmc : node_color (node_at (run g (pathfinder_init g sx sy ex ey) (cell_count g))
      (heap_at (run g (pathfinder_init g sx sy ex ey) (cell_count g)) 0)) ≠ .GREEN_NODE := by
    rw [Ne, node_color_green_iff, hmh]
    have := INVALID_INDEX_lt_SIZE_MOD
    exact fun h => absurd h.1.symm (by unfold INVALID_INDEX; omega)
  have := closed_count_lt (cell_count g) _ _ hmN hmc
  have := hc hs
  omega

/-- C1: on a grid with fewer than `2^32 - 1` cells and an in-range start and goal,
`width * height` steps empty the heap, and in any state of the run whose heap is
empty every cell reachable from the start through open edges has the true
shortest walk length as its path sum, while every unreachable cell still has
`INVALID_PATH_SUM` and is classified `RED_NODE`. -/
theorem shortest_path_at_exhaustion (g : grid) (sx sy ex ey : Nat)
    (hsx : sx < g.width) (hsy : sy < g.height) (hex : ex < g.width) (hey : ey < g.height)
    (hN : cell_count g < INVALID_PATH_SUM) :
    (run g (pathfinder_init g sx sy ex ey) (cell_count g)).heap_size = 0 ∧
    ∀ k, (run g (pathfinder_init g sx sy ex ey) k).heap_size = 0 →
      ∀ x y, x < g.width → y < g.height →
        (Reachable g (g.width * sy + sx) (g.width * y + x) →
          IsDist g (g.width * sy + sx) (g.width * y + x)
            (node_at (run g (pathfinder_init g sx sy ex ey) k) (g.width * y + x)).path_sum) ∧
        (¬ Reachable g (g.width * sy + sx) (g.width * y + x) →
          (node_at (run g (pathfinder_init g sx sy ex ey) k) (g.width * y + x)).path_sum
            = INVALID_PATH_SUM ∧
          pathfinder_node_color g (run g (pathfinder_init g sx sy ex ey) k) x y = .RED_NODE) := by
  have hNI : cell_count g < INVALID_INDEX := lt_trans hN INVALID_PATH_SUM_lt_INVALID_INDEX
  refine ⟨run_exhausted g sx sy ex ey hsx hsy hNI, ?_⟩
  intro k hs x y hx hy
  obtain ⟨inv, _, _⟩ := run_SInv g sx sy ex ey hsx hsy hNI k
  have cinv := run_CInv g sx sy ex ey hsx hsy (le_of_lt hN) k
  have ainv := run_AInv g sx sy ex ey hsx hsy hex hey (alloc_fits_of_le g (le_of_lt hN)) k
  obtain ⟨_, hsN⟩ := get_coord_in_range g sx sy hsx hsy hNI
  obtain ⟨_, hcN⟩ := get_coord_in_range g x y hx hy hNI
  constructor
  · rintro ⟨j, hw⟩
    exact closed_is_dist g _ _ inv ainv _ hcN (exhausted_closed g _ _ inv cinv hsN hs _ j hw)
  · intro hnr
    have hq : (node_at (run g (pathfinder_init g sx sy ex ey) k) (g.width * y + x)).hix
        = INVALID_INDEX := by
      by_contra hne
      have := (inv.wf.bwd _ hcN hne).1
      omega
    have hv : (node_at (run g (pathfinder_init g sx sy ex ey) k) (g.width * y + x)).path_sum
        = INVALID_PATH_SUM := by
      by_contra hne
      exact hnr ⟨_, inv.walk _ hcN hne⟩
    refine ⟨hv, ?_⟩
    rw [pathfinder_node_color_eq g _ x y hx hy hNI, node_color_red_iff]
    exact ⟨hq, hv⟩

theorem shortest_path_at_exhaustion_witness :
    ((0 : Nat) < (grid_init 3 1).width ∧ (0 : Nat) < (grid_init 3 1).height ∧
      (2 : Nat) < (grid_init 3 1).width ∧ cell_count (grid_init 3 1) < INVALID_PATH_SUM) ∧
    (run (grid_init 3 1) (pathfinder_init (grid_init 3 1) 0 0 2 0) 3).heap_size = 0 ∧
    IsDist (grid_init 3 1) ((grid_init 3 1).width * 0 + 0) ((grid_init 3 1).width * 0 + 2)
      (node_at (run (grid_init 3 1) (pathfinder_init (grid_init 3 1) 0 0 2 0) 3)
        ((grid_init 3 1).width * 0 + 2)).path_sum :=
  ⟨by decide, by decide,
    ((shortest_path_at_exhaustion (grid_init 3 1) 0 0 2 0 (by decide) (by decide) (by decide)
      (by decide) (by decide)).2 3 (by decide) 2 0 (by decide) (by decide)).1
      ⟨2, Walk.step (Walk.step Walk.start (by decide : open_edge (grid_init 3 1) 0 1 = true))
        (by decide : open_edge (grid_init 3 1) 1 2 = true)⟩⟩

/-- C2: in every state of a run (a grid whose node table fits in memory, in-range
start and goal) a cell classified `GREEN_NODE` has the true shortest walk length
from the start as its path sum, and after any number of further steps it is
still `GREEN_NODE` with the same path sum. -/
theorem closed_distance_final (g : grid) (sx sy ex ey : Nat)
    (hsx : sx < g.width) (hsy : sy < g.height) (hex : ex < g.width) (hey : ey < g.height)
    (hN : alloc_fits g) (k x y : Nat) (hx : x < g.width) (hy : y < g.height)
    (hc : pathfinder_node_color g (run g (pathfinder_init g sx sy ex ey) k) x y = .GREEN_NODE) :
    IsDist g (g.width * sy + sx) (g.width * y + x)
      (node_at (run g (pathfinder_init g sx sy ex ey) k) (g.width * y + x)).path_sum ∧
    ∀ j, pathfinder_node_color g (run g (pathfinder_init g sx sy ex ey) (k + j)) x y
        = .GREEN_NODE ∧
      (node_at (run g (pathfinder_init g sx sy ex ey) (k + j)) (g.width * y + x)).path_sum
        = (node_at (run g (pathfinder_init g sx sy ex ey) k) (g.width * y + x)).path_sum := by
  have hNI : cell_count g < INVALID_INDEX := alloc_fits_lt g hN
  obtain ⟨_, hcN⟩ := get_coord_in_range g x y hx hy hNI
  rw [pathfinder_node_color_eq g _ x y hx hy hNI] at hc
  refine ⟨closed_is_dist g _ _ (run_SInv g sx sy ex ey hsx hsy hNI k).1
    (run_AInv g sx sy ex ey hsx hsy hex hey hN k) _ hcN hc, ?_⟩
  intro j
  rw [pathfinder_node_color_eq g _ x y hx hy hNI]
  exact closed_run g sx sy ex ey hsx hsy hNI k _ hc j

theorem closed_distance_final_witness :
    ((0 : Nat) < (grid_init 3 1).width ∧ (0 : Nat) < (grid_init 3 1).height ∧
      (2 : Nat) < (grid_init 3 1).width ∧ alloc_fits (grid_init 3 1) ∧
      (1 : Nat) < (grid_init 3 1).width ∧
      pathfinder_node_color (grid_init 3 1)
        (run (grid_init 3 1) (pathfinder_init (grid_init 3 1) 0 0 2 0) 2) 1 0 = .GREEN_NODE) ∧
    IsDist (grid_init 3 1) ((grid_init 3 1).width * 0 + 0) ((grid_init 3 1).width * 0 + 1)
      (node_at (run (grid_init 3 1) (pathfinder_init (grid_init 3 1) 0 0 2 0) 2)
        ((grid_init 3 1).width * 0 + 1)).path_sum :=
  ⟨by decide,
    (closed_distance_final (grid_init 3 1) 0 0 2 0 (by decide) (by decide) (by decide)
      (by decide) (by decide) 2 1 0 (by decide) (by decide) (by decide)).1⟩

/-- C3, amended: on a grid of at most `2^32 - 1` cells, for any goal, if `S` is the
set of cells reachable from the in-range start through open edges, the heap is
non-empty after `k` steps for every `k < |S|`, it is empty after `|S|` steps and
after every later step, and `|S| ≤ width * height`. -/
theorem exhausted_after_reachable_count (g : grid) (sx sy ex ey : Nat)
    (hsx : sx < g.width) (hsy : sy < g.height) (hN : cell_count g ≤ INVALID_PATH_SUM)
    (S : Finset Nat) (hS : ∀ c, c ∈ S ↔ Reachable g (g.width * sy + sx) c) :
    (∀ k, k < S.card → (run g (pathfinder_init g sx sy ex ey) k).heap_size ≠ 0) ∧
    (∀ k, S.card ≤ k → (run g (pathfinder_init g sx sy ex ey) k).heap_size = 0) ∧
    S.card ≤ g.width * g.height := by
  have hNI : cell_count g < INVALID_INDEX :=
    lt_of_le_of_lt hN INVALID_PATH_SUM_lt_INVALID_INDEX
  obtain ⟨_, hsN⟩ := get_coord_in_range g sx sy hsx hsy hNI
  have hSI := fun k => (run_SInv g sx sy ex ey hsx hsy hNI k)
  have hsub : ∀ k, closed_set (cell_count g) (run g (pathfinder_init g sx sy ex ey) k) ⊆ S := by
    intro k c hc
    rw [mem_closed_set, node_color_green_iff] at hc
    rw [hS]
    exact ⟨_, (hSI k).1.walk c hc.1 hc.2.2⟩
  have hsup : ∀ k, (run g (pathfinder_init g sx sy ex ey) k).heap_size = 0 →
      S ⊆ closed_set (cell_count g) (run g (pathfinder_init g sx sy ex ey) k) := by
    intro k hs c hc
    rw [hS] at hc
    obtain ⟨j, hw⟩ := hc
    rw [mem_closed_set]
    exact ⟨walk_lt g _ hsN c j hw,
      exhausted_closed g _ _ (hSI k).1 (run_CInv g sx sy ex ey hsx hsy hN k) hsN hs c j hw⟩
  refine ⟨?_, ?_, ?_⟩
  · intro k hk hs
    have h1 := Finset.card_le_card (hsup k hs)
    have h2 := (hSI k).2.1
    unfold closed_count at h2
    omega
  · intro k hk
    by_contra hs
    obtain ⟨inv, _, hc⟩ := hSI k
    have h1 := hc hs
    have h2 := Finset.card_le_card (hsub k)
    unfold closed_count at h1
    have heq : closed_set (cell_count g) (run g (pathfinder_init g sx sy ex ey) k) = S :=
      Finset.eq_of_subset_of_card_le (hsub k) (by omega)
    obtain ⟨hmN, hmh⟩ := inv.wf.fwd 0 (Nat.pos_of_ne_zero hs)
    have hmq : (node_at (run g (pathfinder_init g sx sy ex ey) k)
        (heap_at (run g (pathfinder_init g sx sy ex ey) k) 0)).hix ≠ INVALID_INDEX := by
      rw [hmh]; exact fun e => absurd e.symm (by omega)
    have hmS : heap_at (run g (pathfinder_init g sx sy ex ey) k) 0 ∈ S := by
      rw [hS]
      exact ⟨_, inv.walk _ hmN (inv.vis _ hmN hmq)⟩
    rw [← heq, mem_closed_set, node_color_green_iff] at hmS
    exact hmq hmS.2.1
  · have : S ⊆ Finset.range (cell_count g) := by
      intro c hc
      rw [hS] at hc
      obtain ⟨j, hw⟩ := hc
      exact Finset.mem_range.2 (walk_lt g _ hsN c j hw)
    have := Finset.card_le_card this
    rw [Finset.card_range] at this
    exact this

end Pathfinder

namespace Pathfinder

/-- In the 3x1 grid whose edge between `(0,0)` and `(1,0)` is walled, only the
start cell `(0,0)` is reachable from `(0,0)`. -/
theorem walled_reachable (c : Nat) :
    c ∈ ({0} : Finset Nat) ↔
      Reachable (wall_write (grid_init 3 1) (grid_right_wall (grid_init 3 1) 0 0) true)
        ((wall_write (grid_init 3 1) (grid_right_wall (grid_init 3 1) 0 0) true).width * 0 + 0)
        c := by
  have hedge : ∀ n, open_edge
      (wall_write (grid_init 3 1) (grid_right_wall (grid_init 3 1) 0 0) true) 0 n = true →
      False := by
    intro n h
    have hn : n < 3 := (open_edge_lt _ _ _ h).2
    interval_cases n <;> revert h <;> decide
  have hwalk : ∀ v k, Walk
      (wall_write (grid_init 3 1) (grid_right_wall (grid_init 3 1) 0 0) true) 0 v k → v = 0 := by
    intro v k hw
    induction hw with
    | start => rfl
    | step _ he ih =>
      subst ih
      exact absurd he (fun h => hedge _ h)
  rw [Finset.mem_singleton]
  constructor
  · intro e
    subst e
    exact ⟨0, Walk.start⟩
  · rintro ⟨k, hw⟩
    exact hwalk c k hw

theorem exhausted_after_reachable_count_witness :
    ((0 : Nat) < (wall_write (grid_init 3 1) (grid_right_wall (grid_init 3 1) 0 0) true).width ∧
      (0 : Nat) < (wall_write (grid_init 3 1) (grid_right_wall (grid_init 3 1) 0 0) true).height ∧
      cell_count (wall_write (grid_init 3 1) (grid_right_wall (grid_init 3 1) 0 0) true)
        ≤ INVALID_PATH_SUM) ∧
    (run (wall_write (grid_init 3 1) (grid_right_wall (grid_init 3 1) 0 0) true)
      (pathfinder_init (wall_write (grid_init 3 1) (grid_right_wall (grid_init 3 1) 0 0) true)
        0 0 2 0) 0).heap_size ≠ 0 ∧
    (run (wall_write (grid_init 3 1) (grid_right_wall (grid_init 3 1) 0 0) true)
      (pathfinder_init (wall_write (grid_init 3 1) (grid_right_wall (grid_init 3 1) 0 0) true)
        0 0 2 0) 1).heap_size = 0 :=
  ⟨by decide,
    (exhausted_after_reachable_count
      (wall_write (grid_init 3 1) (grid_right_wall (grid_init 3 1) 0 0) true) 0 0 2 0
      (by decide) (by decide) (by decide) {0} walled_reachable).1 0 (by decide),
    (exhausted_after_reachable_count
      (wall_write (grid_init 3 1) (grid_right_wall (grid_init 3 1) 0 0) true) 0 0 2 0
      (by decide) (by decide) (by decide) {0} walled_reachable).2.1 1 (by decide)⟩

/-- The classification of a cell does not regress in one step. -/
theorem color_step (g : grid) (s : Nat) (pf : pathfinder)
    (hN : cell_count g < INVALID_INDEX) (inv : SInv g s pf) (c : Nat) :
    (node_color (node_at pf c)).rank ≤ (node_color (node_at (pathfinder_step g pf) c)).rank := by
  by_cases hs : pf.heap_size = 0
  · rw [pathfinder_step_idle g _ hs]
  · obtain ⟨_, hmh, hmv, _, _, _, psm, hxm, rel, keep, _⟩ := step_cells g s pf hN inv hs
    by_cases hcm : c = heap_at pf 0
    · subst hcm
      have : node_color (node_at (pathfinder_step g pf) (heap_at pf 0)) = .GREEN_NODE := by
        rw [node_color_green_iff, psm]; exact ⟨hxm, hmv⟩
      rw [this]
      cases node_color (node_at pf (heap_at pf 0)) <;> decide
    · by_cases hc : open_edge g (heap_at pf 0) c = true ∧
          node_color (node_at pf c) ≠ .GREEN_NODE ∧
          (node_at pf (heap_at pf 0)).path_sum + 1 < (node_at pf c).path_sum
      · have : node_color (node_at (pathfinder_step g pf) c) = .YELLOW_NODE := by
          rw [node_color_yellow_iff]; exact (rel c hcm hc).2
        rw [this]
        have hng := hc.2.1
        revert hng
        cases node_color (node_at pf c) <;> decide
      · obtain ⟨k1, k2⟩ := keep c hcm hc
        rw [node_color_congr _ _ k1 k2]

/-- C4: along a run (representable cell count, in-range start, any goal) the
value of `pathfinder_node_color` at an in-range cell after one more step is at
least its value before in the order `RED_NODE < YELLOW_NODE < GREEN_NODE`; so a
closed cell stays closed and an open cell never becomes unvisited. -/
theorem classification_monotone (g : grid) (sx sy ex ey : Nat)
    (hsx : sx < g.width) (hsy : sy < g.height) (hN : cell_count g < INVALID_INDEX)
    (k x y : Nat) (hx : x < g.width) (hy : y < g.height) :
    (pathfinder_node_color g (run g (pathfinder_init g sx sy ex ey) k) x y).rank ≤
      (pathfinder_node_color g (run g (pathfinder_init g sx sy ex ey) (k + 1)) x y).rank ∧
    (pathfinder_node_color g (run g (pathfinder_init g sx sy ex ey) k) x y = .GREEN_NODE →
      pathfinder_node_color g (run g (pathfinder_init g sx sy ex ey) (k + 1)) x y
        = .GREEN_NODE) ∧
    (pathfinder_node_color g (run g (pathfinder_init g sx sy ex ey) k) x y = .YELLOW_NODE →
      pathfinder_node_color g (run g (pathfinder_init g sx sy ex ey) (k + 1)) x y
        ≠ .RED_NODE) := by
  have hNI := hN
  have h := color_step g _ _ hN (run_SInv g sx sy ex ey hsx hsy hN k).1 (g.width * y + x)
  rw [pathfinder_node_color_eq g _ x y hx hy hNI, pathfinder_node_color_eq g _ x y hx hy hNI,
    run_succ]
  refine ⟨h, ?_, ?_⟩
  · intro e
    rw [e] at h
    revert h
    cases node_color (node_at (pathfinder_step g (run g (pathfinder_init g sx sy ex ey) k))
      (g.width * y + x)) <;> decide
  · intro e
    rw [e] at h
    revert h
    cases node_color (node_at (pathfinder_step g (run g (pathfinder_init g sx sy ex ey) k))
      (g.width * y + x)) <;> decide

theorem classification_monotone_witness :
    ((0 : Nat) < (grid_init 3 1).width ∧ (0 : Nat) < (grid_init 3 1).height ∧
      cell_count (grid_init 3 1) < INVALID_INDEX ∧ (1 : Nat) < (grid_init 3 1).width) ∧
    (pathfinder_node_color (grid_init 3 1)
      (run (grid_init 3 1) (pathfinder_init (grid_init 3 1) 0 0 2 0) 1) 1 0).rank ≤
    (pathfinder_node_color (grid_init 3 1)
      (run (grid_init 3 1) (pathfinder_init (grid_init 3 1) 0 0 2 0) (1 + 1)) 1 0).rank :=
  ⟨by decide,
    (classification_monotone (grid_init 3 1) 0 0 2 0 (by decide) (by decide) (by decide)
      1 1 0 (by decide) (by decide)).1⟩

/-- C5: in a state of a run with a non-empty heap (a grid whose node table fits
in memory, in-range start and goal) one step closes exactly the heap root: the root is an
in-range cell that was `YELLOW_NODE`, its `heap_weight` is minimal among the
`YELLOW_NODE` cells, it is `GREEN_NODE` afterwards, every other cell is
`GREEN_NODE` afterwards iff it was before, and the number of closed cells grows
by one. In the initial state the root is the start cell. -/
theorem single_closure_per_step (g : grid) (sx sy ex ey : Nat)
    (hsx : sx < g.width) (hsy : sy < g.height) (hex : ex < g.width) (hey : ey < g.height)
    (hN : alloc_fits g) (k : Nat)
    (hs : (run g (pathfinder_init g sx sy ex ey) k).heap_size ≠ 0) :
    heap_at (run g (pathfinder_init g sx sy ex ey) k) 0 < cell_count g ∧
    node_color (node_at (run g (pathfinder_init g sx sy ex ey) k)
      (heap_at (run g (pathfinder_init g sx sy ex ey) k) 0)) = .YELLOW_NODE ∧
    (∀ c, c < cell_count g →
      node_color (node_at (run g (pathfinder_init g sx sy ex ey) k) c) = .YELLOW_NODE →
      heap_weight g (run g (pathfinder_init g sx sy ex ey) k)
          (heap_at (run g (pathfinder_init g sx sy ex ey) k) 0)
        ≤ heap_weight g (run g (pathfinder_init g sx sy ex ey) k) c) ∧
    node_color (node_at (run g (pathfinder_init g sx sy ex ey) (k + 1))
      (heap_at (run g (pathfinder_init g sx sy ex ey) k) 0)) = .GREEN_NODE ∧
    (∀ c, c ≠ heap_at (run g (pathfinder_init g sx sy ex ey) k) 0 →
      (node_color (node_at (run g (pathfinder_init g sx sy ex ey) (k + 1)) c) = .GREEN_NODE ↔
        node_color (node_at (run g (pathfinder_init g sx sy ex ey) k) c) = .GREEN_NODE)) ∧
    closed_count (cell_count g) (run g (pathfinder_init g sx sy ex ey) (k + 1))
      = closed_count (cell_count g) (run g (pathfinder_init g sx sy ex ey) k) + 1 ∧
    heap_at (run g (pathfinder_init g sx sy ex ey) 0) 0 = g.width * sy + sx := by
  have hNI : cell_count g < INVALID_INDEX := alloc_fits_lt g hN
  obtain ⟨inv, _, _⟩ := run_SInv g sx sy ex ey hsx hsy hNI k
  have ainv := run_AInv g sx sy ex ey hsx hsy hex hey hN k
  obtain ⟨inv2, hnot, hset, hcount⟩ := SInv_step g _ _ hNI inv hs
  obtain ⟨hmN, hmh⟩ := inv.wf.fwd 0 (Nat.pos_of_ne_zero hs)
  have hmq : (node_at (run g (pathfinder_init g sx sy ex ey) k)
      (heap_at (run g (pathfinder_init g sx sy ex ey) k) 0)).hix ≠ INVALID_INDEX := by
    rw [hmh]; exact fun e => absurd e.symm (by omega)
  have hmem : ∀ c, c ∈ closed_set (cell_count g) (run g (pathfinder_init g sx sy ex ey) (k + 1)) ↔
      c = heap_at (run g (pathfinder_init g sx sy ex ey) k) 0 ∨
        c ∈ closed_set (cell_count g) (run g (pathfinder_init g sx sy ex ey) k) := by
    intro c
    rw [run_succ, hset, Finset.mem_insert]
  refine ⟨hmN, (node_color_yellow_iff _).2 hmq, ?_, ?_, ?_, hcount, ?_⟩
  · intro c hcN hc
    obtain ⟨b1, b2⟩ := inv.wf.bwd c hcN ((node_color_yellow_iff _).1 hc)
    have := heap_root_min g _ ainv.ord _ b1
    rw [b2] at this
    exact this
  · have := (hmem _).2 (Or.inl rfl)
    rw [mem_closed_set] at this
    exact this.2
  · intro c hcm
    by_cases hcN : c < cell_count g
    · have := hmem c
      rw [mem_closed_set, mem_closed_set] at this
      constructor
      · intro h
        rcases this.1 ⟨hcN, h⟩ with e | e
        · exact absurd e hcm
        · exact e.2
      · intro h
        exact (this.2 (Or.inr ⟨hcN, h⟩)).2
    · have e1 := node_at_out_of_range (run g (pathfinder_init g sx sy ex ey) k) c
        (by rw [inv.wf.nlen]; omega)
      have e2 := node_at_out_of_range (run g (pathfinder_init g sx sy ex ey) (k + 1)) c
        (by rw [run_succ, inv2.wf.nlen]; omega)
      rw [e1, e2]
  · exact (pathfinder_init_facts g sx sy ex ey hsx hsy hNI).2.2.2.2.2.1

theorem single_closure_per_step_witness :
    ((0 : Nat) < (grid_init 3 1).width ∧ (0 : Nat) < (grid_init 3 1).height ∧
      (2 : Nat) < (grid_init 3 1).width ∧ alloc_fits (grid_init 3 1) ∧
      (run (grid_init 3 1) (pathfinder_init (grid_init 3 1) 0 0 2 0) 1).heap_size ≠ 0) ∧
    closed_count (cell_count (grid_init 3 1))
        (run (grid_init 3 1) (pathfinder_init (grid_init 3 1) 0 0 2 0) (1 + 1))
      = closed_count (cell_count (grid_init 3 1))
        (run (grid_init 3 1) (pathfinder_init (grid_init 3 1) 0 0 2 0) 1) + 1 :=
  ⟨by decide,
    (single_closure_per_step (grid_init 3 1) 0 0 2 0 (by decide) (by decide) (by decide)
      (by decide) (by decide) 1 (by decide)).2.2.2.2.2.1⟩

/-- C6: with `heap_size = 0`, `pathfinder_step` returns its input unchanged
(nodes, heap array, heap size and goal), so stepping an exhausted engine is
idempotent. -/
theorem step_exhausted_noop (g : grid) (pf : pathfinder) (h : pf.heap_size = 0) :
    pathfinder_step g pf = pf ∧
      pathfinder_step g (pathfinder_step g pf) = pathfinder_step g pf := by
  have e := pathfinder_step_idle g pf h
  rw [e]
  exact ⟨rfl, e⟩

theorem step_exhausted_noop_witness :
    (run (grid_init 3 1) (pathfinder_init (grid_init 3 1) 0 0 2 0) 3).heap_size = 0 ∧
    pathfinder_step (grid_init 3 1)
        (run (grid_init 3 1) (pathfinder_init (grid_init 3 1) 0 0 2 0) 3)
      = run (grid_init 3 1) (pathfinder_init (grid_init 3 1) 0 0 2 0) 3 :=
  ⟨by decide, (step_exhausted_noop (grid_init 3 1) _ (by decide)).1⟩

/-- C7: in every state of a run (representable cell count, in-range start, any
goal) every node with `hix != INVALID_INDEX` has `path_sum != INVALID_PATH_SUM`,
so the assertion in `node_color` holds at every node; and for an in-range cell
`pathfinder_node_color` is `RED_NODE` exactly when the path sum is unknown,
`YELLOW_NODE` exactly when the cell occupies a live heap slot, and `GREEN_NODE`
exactly when the path sum is known and the cell occupies no live heap slot. -/
theorem open_cells_have_distance (g : grid) (sx sy ex ey : Nat)
    (hsx : sx < g.width) (hsy : sy < g.height) (hN : cell_count g < INVALID_INDEX)
    (k x y : Nat) (hx : x < g.width) (hy : y < g.height) :
    (∀ c, node_color_assert (node_at (run g (pathfinder_init g sx sy ex ey) k) c)) ∧
    (pathfinder_node_color g (run g (pathfinder_init g sx sy ex ey) k) x y = .RED_NODE ↔
      (node_at (run g (pathfinder_init g sx sy ex ey) k) (g.width * y + x)).path_sum
        = INVALID_PATH_SUM) ∧
    (pathfinder_node_color g (run g (pathfinder_init g sx sy ex ey) k) x y = .YELLOW_NODE ↔
      ∃ i, i < (run g (pathfinder_init g sx sy ex ey) k).heap_size ∧
        heap_at (run g (pathfinder_init g sx sy ex ey) k) i = g.width * y + x) ∧
    (pathfinder_node_color g (run g (pathfinder_init g sx sy ex ey) k) x y = .GREEN_NODE ↔
      (node_at (run g (pathfinder_init g sx sy ex ey) k) (g.width * y + x)).path_sum
        ≠ INVALID_PATH_SUM ∧
      ¬ ∃ i, i < (run g (pathfinder_init g sx sy ex ey) k).heap_size ∧
        heap_at (run g (pathfinder_init g sx sy ex ey) k) i = g.width * y + x) := by
  have hNI := hN
  obtain ⟨inv, _, _⟩ := run_SInv g sx sy ex ey hsx hsy hN k
  obtain ⟨_, hcN⟩ := get_coord_in_range g x y hx hy hNI
  have hslot : (node_at (run g (pathfinder_init g sx sy ex ey) k) (g.width * y + x)).hix
      ≠ INVALID_INDEX ↔ ∃ i, i < (run g (pathfinder_init g sx sy ex ey) k).heap_size ∧
        heap_at (run g (pathfinder_init g sx sy ex ey) k) i = g.width * y + x := by
    constructor
    · intro h
      exact ⟨_, inv.wf.bwd _ hcN h⟩
    · rintro ⟨i, hi, e⟩
      have := (inv.wf.fwd i hi).2
      rw [e] at this
      rw [this]
      have := inv.wf.hsz
      omega
  rw [pathfinder_node_color_eq g _ x y hx hy hNI]
  refine ⟨?_, ?_, ?_, ?_⟩
  · intro c hq
    by_cases hc : c < cell_count g
    · exact inv.vis c hc hq
    · rw [node_at_out_of_range _ c (by rw [inv.wf.nlen]; omega)] at hq
      exact absurd rfl hq
  · rw [node_color_red_iff]
    constructor
    · exact fun h => h.2
    · intro h
      refine ⟨?_, h⟩
      by_contra hq
      exact inv.vis _ hcN hq h
  · rw [node_color_yellow_iff, hslot]
  · rw [node_color_green_iff, ← hslot, not_not, and_comm]

theorem open_cells_have_distance_witness :
    ((0 : Nat) < (grid_init 3 1).width ∧ (0 : Nat) < (grid_init 3 1).height ∧
      cell_count (grid_init 3 1) < INVALID_INDEX ∧ (1 : Nat) < (grid_init 3 1).width) ∧
    node_color_assert (node_at (run (grid_init 3 1)
      (pathfinder_init (grid_init 3 1) 0 0 2 0) 1) 1) :=
  ⟨by decide,
    (open_cells_have_distance (grid_init 3 1) 0 0 2 0 (by decide) (by decide) (by decide)
      1 1 0 (by decide) (by decide)).1 1⟩

/-- C8: for an in-range start `(sx, sy)` the state returned by `pathfinder_init`
has a heap buffer and a node table of `width * height` entries, `heap_size = 1`,
`heap[0] = width*sy + sx`, the start node has `path_sum = 0` and `hix = 0` and is
`YELLOW_NODE`, and every other node has `path_sum = INVALID_PATH_SUM` and
`hix = INVALID_INDEX` and is `RED_NODE`. -/
theorem pathfinder_init_state (g : grid) (sx sy ex ey : Nat)
    (hsx : sx < g.width) (hsy : sy < g.height) (hN : cell_count g < INVALID_INDEX) :
    (pathfinder_init g sx sy ex ey).heap.length = g.width * g.height ∧
    (pathfinder_init g sx sy ex ey).nodes.length = g.width * g.height ∧
    (pathfinder_init g sx sy ex ey).heap_size = 1 ∧
    heap_at (pathfinder_init g sx sy ex ey) 0 = g.width * sy + sx ∧
    node_at (pathfinder_init g sx sy ex ey) (g.width * sy + sx) = ⟨0, 0⟩ ∧
    pathfinder_node_color g (pathfinder_init g sx sy ex ey) sx sy = .YELLOW_NODE ∧
    (∀ c, c ≠ g.width * sy + sx →
      node_at (pathfinder_init g sx sy ex ey) c = ⟨INVALID_PATH_SUM, INVALID_INDEX⟩) ∧
    (∀ x y, x < g.width → y < g.height → (x, y) ≠ (sx, sy) →
      pathfinder_node_color g (pathfinder_init g sx sy ex ey) x y = .RED_NODE) := by
  obtain ⟨h1, h2, h3, _, _, h6, h7, h8⟩ := pathfinder_init_facts g sx sy ex ey hsx hsy hN
  refine ⟨h1, h2, h3, h6, h7, ?_, h8, ?_⟩
  · rw [pathfinder_node_color_eq g _ sx sy hsx hsy hN, h7]
    decide
  · intro x y hx hy hne
    rw [pathfinder_node_color_eq g _ x y hx hy hN, h8]
    · decide
    · intro e
      apply hne
      have e1 := congrArg (· % g.width) e
      have e2 := congrArg (· / g.width) e
      simp only [coord_mod _ _ _ hx, coord_mod _ _ _ hsx, coord_div _ _ _ hx,
        coord_div _ _ _ hsx] at e1 e2
      rw [e1, e2]

theorem pathfinder_init_state_witness :
    ((1 : Nat) < (grid_init 3 2).width ∧ (1 : Nat) < (grid_init 3 2).height ∧
      cell_count (grid_init 3 2) < INVALID_INDEX) ∧
    heap_at (pathfinder_init (grid_init 3 2) 1 1 2 0) 0 = (grid_init 3 2).width * 1 + 1 :=
  ⟨by decide,
    (pathfinder_init_state (grid_init 3 2) 1 1 2 0 (by decide) (by decide) (by decide)).2.2.2.1⟩

end Pathfinder

namespace Pathfinder

/-! ## A line of more than `2^32 - 1` cells -/

theorem line_cell_count (w : Nat) : cell_count (grid_init w 1) = w := by
  show w * 1 = w
  omega

theorem line_edge_succ (w k : Nat) (hk : k + 1 < w) :
    open_edge (grid_init w 1) k (k + 1) = true := by
  have h := open_edge_xy w 1 (List.replicate (2 * w * 1 - w - 1) false) k 0 (k + 1) 0
    (by omega) (by omega) hk (by omega)
  rw [Nat.mul_zero, Nat.zero_add, Nat.zero_add] at h
  apply h.2
  refine Or.inl ⟨rfl, rfl, ?_⟩
  show (k == w - 1 || wall_read (grid_init w 1) _) = false
  rw [wall_read_grid_init, Bool.or_false]
  exact beq_false_of_ne (by omega)

theorem line_edge_only (w k c : Nat) (h : open_edge (grid_init w 1) k c = true) :
    c = k + 1 ∨ c + 1 = k := by
  obtain ⟨hk, hc⟩ := open_edge_lt _ _ _ h
  rw [line_cell_count] at hk hc
  have h2 := open_edge_xy w 1 (List.replicate (2 * w * 1 - w - 1) false) k 0 c 0
    hk (by omega) hc (by omega)
  rw [Nat.mul_zero, Nat.zero_add, Nat.zero_add] at h2
  rcases h2.1 h with ⟨_, e, _⟩ | ⟨_, e, _⟩ | ⟨_, e, _⟩ | ⟨_, e, _⟩
  · exact Or.inl e.symm
  · exact Or.inr e
  · omega
  · omega

theorem line_reachable (w c : Nat) (hc : c < w) : Walk (grid_init w 1) 0 c c := by
  induction c with
  | zero => exact Walk.start
  | succ c ih => exact Walk.step (ih (by omega)) (line_edge_succ w c hc)

/-- On the wall-free line of `w` cells searched from cell 0 with goal cell 0, after
`k` steps the cells before `k` are closed with path sum equal to their index,
cell `k` is the only open cell, and the cells after `k` are unvisited. -/
theorem line_run (w : Nat) (hw : w < INVALID_INDEX) (k : Nat) (hk : k < w)
    (hk2 : k < INVALID_PATH_SUM) :
    ∀ c, c < w →
      (c < k →
        (node_at (run (grid_init w 1) (pathfinder_init (grid_init w 1) 0 0 0 0) k) c).hix
          = INVALID_INDEX ∧
        (node_at (run (grid_init w 1) (pathfinder_init (grid_init w 1) 0 0 0 0) k) c).path_sum
          = c) ∧
      (c = k →
        (node_at (run (grid_init w 1) (pathfinder_init (grid_init w 1) 0 0 0 0) k) c).hix
          ≠ INVALID_INDEX ∧
        (node_at (run (grid_init w 1) (pathfinder_init (grid_init w 1) 0 0 0 0) k) c).path_sum
          = k) ∧
      (k < c →
        (node_at (run (grid_init w 1) (pathfinder_init (grid_init w 1) 0 0 0 0) k) c).hix
          = INVALID_INDEX ∧
        (node_at (run (grid_init w 1) (pathfinder_init (grid_init w 1) 0 0 0 0) k) c).path_sum
          = INVALID_PATH_SUM) := by
  have hN : cell_count (grid_init w 1) < INVALID_INDEX := by rw [line_cell_count]; exact hw
  have hw0 : (0 : Nat) < (grid_init w 1).width := by show 0 < w; omega
  have hh0 : (0 : Nat) < (grid_init w 1).height := by show 0 < 1; omega
  induction k with
  | zero =>
    obtain ⟨_, _, _, _, _, _, hself, hoth⟩ :=
      pathfinder_init_facts (grid_init w 1) 0 0 0 0 hw0 hh0 hN
    have e0 : (grid_init w 1).width * 0 + 0 = 0 := by omega
    rw [e0] at hself hoth
    intro c _
    refine ⟨fun h => absurd h (Nat.not_lt_zero c), ?_, ?_⟩
    · intro e
      subst e
      have e1 : run (grid_init w 1) (pathfinder_init (grid_init w 1) 0 0 0 0) 0
        = pathfinder_init (grid_init w 1) 0 0 0 0 := rfl
      rw [e1, hself]
      exact ⟨by decide, rfl⟩
    · intro h
      have e1 : run (grid_init w 1) (pathfinder_init (grid_init w 1) 0 0 0 0) 0
        = pathfinder_init (grid_init w 1) 0 0 0 0 := rfl
      rw [e1, hoth c (by omega)]
      exact ⟨rfl, rfl⟩
  | succ k ih =>
    have ih := ih (by omega) (by omega)
    obtain ⟨inv, _, _⟩ := run_SInv (grid_init w 1) 0 0 0 0 hw0 hh0 hN k
    have hkq := ((ih k (by omega)).2.1 rfl)
    have hs : (run (grid_init w 1) (pathfinder_init (grid_init w 1) 0 0 0 0) k).heap_size ≠ 0 := by
      have := (inv.wf.bwd k (by rw [line_cell_count]; omega) hkq.1).1
      omega
    obtain ⟨hmN, hmh, hmv, _, _, _, psm, hxm, rel, keep, _⟩ :=
      step_cells (grid_init w 1) _ _ hN inv hs
    rw [line_cell_count] at hmN
    have hm : heap_at (run (grid_init w 1) (pathfinder_init (grid_init w 1) 0 0 0 0) k) 0 = k := by
      have hmq := (root_not_closed (grid_init w 1) _ _ hN inv hs).1
      obtain ⟨t1, _, t3⟩ := ih _ hmN
      by_contra hne
      rcases Nat.lt_or_gt_of_ne hne with h | h
      · exact hmq (t1 h).1
      · exact hmq (t3 h).1
    rw [hm] at psm hxm rel keep
    rw [hkq.2] at rel keep
    intro c hc
    rw [run_succ]
    by_cases hck : c = k
    · subst hck
      refine ⟨fun _ => ⟨hxm, psm.trans hkq.2⟩, fun h => by omega, fun h => by omega⟩
    · obtain ⟨t1, _, t3⟩ := ih c hc
      by_cases hc1 : c = k + 1
      · subst hc1
        obtain ⟨q1, q2⟩ := t3 (by omega)
        have := rel (k + 1) hck ⟨line_edge_succ w k (by omega), by
          rw [Ne, node_color_green_iff, q2]; exact fun h => h.2 rfl, by rw [q2]; omega⟩
        exact ⟨fun h => by omega, fun _ => ⟨this.2, this.1⟩, fun h => by omega⟩
      · have hkeep := keep c hck (by
          intro hcond
          rcases line_edge_only w k c hcond.1 with e | e
          · exact hc1 e
          · apply hcond.2.1
            obtain ⟨q1, q2⟩ := t1 (by omega)
            rw [node_color_green_iff, q1, q2]
            exact ⟨rfl, by omega⟩)
        refine ⟨fun h => ?_, fun h => by omega, fun h => ?_⟩
        · obtain ⟨q1, q2⟩ := t1 (by omega)
          exact ⟨hkeep.2.2 q1, hkeep.1.trans q2⟩
        · obtain ⟨q1, q2⟩ := t3 (by omega)
          exact ⟨hkeep.2.2 q1, hkeep.1.trans q2⟩

/-- On a wall-free line of more than `2^32 - 1` cells the heap is empty after
`2^32 - 1` steps: the cell at distance `2^32 - 2` offers its neighbour the path
sum `2^32 - 1 = INVALID_PATH_SUM`, which is not below the neighbour's
`INVALID_PATH_SUM`, so the neighbour is never enqueued. -/
theorem line_exhausted (w : Nat) (hw : w < INVALID_INDEX) (hw2 : INVALID_PATH_SUM < w) :
    (run (grid_init w 1) (pathfinder_init (grid_init w 1) 0 0 0 0)
      (INVALID_PATH_SUM - 1 + 1)).heap_size = 0 := by
  have hN : cell_count (grid_init w 1) < INVALID_INDEX := by rw [line_cell_count]; exact hw
  have hw0 : (0 : Nat) < (grid_init w 1).width := by show 0 < w; omega
  have hh0 : (0 : Nat) < (grid_init w 1).height := by show 0 < 1; omega
  have hI : INVALID_PATH_SUM = 2 ^ 32 - 1 := rfl
  have hL := line_run w hw (INVALID_PATH_SUM - 1) (by omega) (by omega)
  obtain ⟨inv, _, _⟩ := run_SInv (grid_init w 1) 0 0 0 0 hw0 hh0 hN (INVALID_PATH_SUM - 1)
  have hkq := ((hL (INVALID_PATH_SUM - 1) (by omega)).2.1 rfl)
  have hs : (run (grid_init w 1) (pathfinder_init (grid_init w 1) 0 0 0 0)
      (INVALID_PATH_SUM - 1)).heap_size ≠ 0 := by
    have := (inv.wf.bwd _ (by rw [line_cell_count]; omega) hkq.1).1
    omega
  obtain ⟨hmN, hmh, hmv, wf2, _, _, psm, hxm, rel, keep, _⟩ :=
    step_cells (grid_init w 1) _ _ hN inv hs
  rw [line_cell_count] at hmN
  have hm : heap_at (run (grid_init w 1) (pathfinder_init (grid_init w 1) 0 0 0 0)
      (INVALID_PATH_SUM - 1)) 0 = INVALID_PATH_SUM - 1 := by
    have hmq := (root_not_closed (grid_init w 1) _ _ hN inv hs).1
    obtain ⟨t1, _, t3⟩ := hL _ hmN
    by_contra hne
    rcases Nat.lt_or_gt_of_ne hne with h | h
    · exact hmq (t1 h).1
    · exact hmq (t3 h).1
  rw [hm] at hxm keep
  rw [hkq.2] at keep
  rw [run_succ]
  by_contra hne
  obtain ⟨hrN, hrh⟩ := wf2.fwd 0 (Nat.pos_of_ne_zero hne)
  rw [line_cell_count] at hrN
  have hrq : (node_at (pathfinder_step (grid_init w 1)
      (run (grid_init w 1) (pathfinder_init (grid_init w 1) 0 0 0 0) (INVALID_PATH_SUM - 1)))
      (heap_at (pathfinder_step (grid_init w 1)
        (run (grid_init w 1) (pathfinder_init (grid_init w 1) 0 0 0 0)
          (INVALID_PATH_SUM - 1))) 0)).hix ≠ INVALID_INDEX := by
    rw [hrh]; exact fun e => absurd e.symm (by omega)
  apply hrq
  generalize heap_at (pathfinder_step (grid_init w 1)
      (run (grid_init w 1) (pathfinder_init (grid_init w 1) 0 0 0 0)
        (INVALID_PATH_SUM - 1))) 0 = r at hrN hrq ⊢
  by_cases hrk : r = INVALID_PATH_SUM - 1
  · rw [hrk]; exact hxm
  · obtain ⟨t1, _, t3⟩ := hL r hrN
    have hkeep := keep r hrk (by
      intro hcond
      rcases line_edge_only w _ r hcond.1 with e | e
      · have := (t3 (by omega)).2
        have := hcond.2.2
        omega
      · apply hcond.2.1
        obtain ⟨q1, q2⟩ := t1 (by omega)
        rw [node_color_green_iff, q1, q2]
        exact ⟨rfl, by omega⟩)
    rcases Nat.lt_or_gt_of_ne hrk with h | h
    · exact hkeep.2.2 (t1 h).1
    · exact hkeep.2.2 (t3 h).1

/-- C3 fails on the wall-free `2^32 x 1` grid searched from `(0,0)`: all `2^32`
cells are reachable, yet the heap is already empty after `2^32 - 1` steps. -/
theorem long_line_exhausted_early :
    ((0 : Nat) < (grid_init (2 ^ 32) 1).width ∧ (0 : Nat) < (grid_init (2 ^ 32) 1).height) ∧
    (∀ c, c ∈ Finset.range (2 ^ 32) ↔
      Reachable (grid_init (2 ^ 32) 1) ((grid_init (2 ^ 32) 1).width * 0 + 0) c) ∧
    2 ^ 32 - 1 < (Finset.range (2 ^ 32)).card ∧
    (run (grid_init (2 ^ 32) 1) (pathfinder_init (grid_init (2 ^ 32) 1) 0 0 0 0)
      (2 ^ 32 - 1)).heap_size = 0 := by
  refine ⟨⟨by show 0 < 2 ^ 32; omega, by show 0 < 1; omega⟩, ?_, ?_, ?_⟩
  · intro c
    rw [Finset.mem_range]
    constructor
    · intro hc
      exact ⟨c, line_reachable (2 ^ 32) c hc⟩
    · rintro ⟨k, hw⟩
      have := walk_lt (grid_init (2 ^ 32) 1) 0
        (by rw [line_cell_count]; omega) c k hw
      rw [line_cell_count] at this
      exact this
  · rw [Finset.card_range]; omega
  · exact line_exhausted (2 ^ 32) (by show 2 ^ 32 < 2 ^ 64 - 1; omega)
      (by show 2 ^ 32 - 1 < 2 ^ 32; omega)

end Pathfinder

namespace Pathfinder

/-! ## The fuel of the sift functions never runs out -/

theorem parent_hix_lt (k : Nat) (h0 : k ≠ 0) : parent_hix k < k := by
  show ((k + 2 ^ 64 - 1) % 2 ^ 64) / 2 < k
  omega

theorem sift_up_fuel_stable (g : grid) :
    ∀ (f1 f2 : Nat) (pf : pathfinder) (k : Nat), k < f1 → k < f2 →
      sift_up_fuel g f1 pf k = sift_up_fuel g f2 pf k := by
  intro f1
  induction f1 with
  | zero => intro f2 pf k h; omega
  | succ f1 ih =>
    intro f2 pf k h1 h2
    cases f2 with
    | zero => omega
    | succ f2 =>
      unfold sift_up_fuel
      by_cases hc : k = 0 ∨ ¬ heap_compare g pf k (parent_hix k) = true
      · rw [if_pos hc, if_pos hc]
      · rw [if_neg hc, if_neg hc]
        have hk0 : k ≠ 0 := fun e => hc (Or.inl e)
        have := parent_hix_lt k hk0
        exact ih f2 _ _ (by omega) (by omega)

/-- The recursion of `sift_up` as written in the source. -/
theorem sift_up_unfold (g : grid) (pf : pathfinder) (hix : Nat) :
    sift_up g pf hix =
      if hix = 0 ∨ ¬ heap_compare g pf hix (parent_hix hix) = true then pf
      else sift_up g (heap_swap pf hix (parent_hix hix)) (parent_hix hix) := by
  unfold sift_up
  rw [sift_up_fuel]
  by_cases hc : hix = 0 ∨ ¬ heap_compare g pf hix (parent_hix hix) = true
  · rw [if_pos hc, if_pos hc]
  · rw [if_neg hc, if_neg hc]
    have hk0 : hix ≠ 0 := fun e => hc (Or.inl e)
    have := parent_hix_lt hix hk0
    exact sift_up_fuel_stable g _ _ _ _ (by omega) (by omega)

theorem heap_swap_heap_size (pf : pathfinder) (i j : Nat) :
    (heap_swap pf i j).heap_size = pf.heap_size := rfl

theorem sift_down_target_bounds (g : grid) (pf : pathfinder) (k : Nat)
    (h : sift_down_target g pf k ≠ k) :
    k < sift_down_target g pf k ∧ sift_down_target g pf k < pf.heap_size := by
  rcases sift_down_target_cases g pf k with c | c | c
  · exact absurd c.1 h
  · rw [c.1]; exact ⟨by omega, c.2.1⟩
  · rw [c.1]; exact ⟨by omega, c.2.1⟩

theorem sift_down_fuel_stable (g : grid) :
    ∀ (f1 f2 : Nat) (pf : pathfinder) (k : Nat), pf.heap_size < f1 + k → pf.heap_size < f2 + k →
      sift_down_fuel g f1 pf k = sift_down_fuel g f2 pf k := by
  intro f1
  induction f1 with
  | zero =>
    intro f2 pf k h1 _
    cases f2 with
    | zero => rfl
    | succ f2 =>
      unfold sift_down_fuel
      by_cases hc : sift_down_target g pf k = k
      · rw [if_pos hc]
      · have := sift_down_target_bounds g pf k hc
        omega
  | succ f1 ih =>
    intro f2 pf k h1 h2
    cases f2 with
    | zero =>
      unfold sift_down_fuel
      by_cases hc : sift_down_target g pf k = k
      · rw [if_pos hc]
      · have := sift_down_target_bounds g pf k hc
        omega
    | succ f2 =>
      unfold sift_down_fuel
      by_cases hc : sift_down_target g pf k = k
      · rw [if_pos hc, if_pos hc]
      · rw [if_neg hc, if_neg hc]
        have := sift_down_target_bounds g pf k hc
        exact ih f2 _ _ (by rw [heap_swap_heap_size]; omega) (by rw [heap_swap_heap_size]; omega)

/-- The recursion of `sift_down` as written in the source. -/
theorem sift_down_unfold (g : grid) (pf : pathfinder) (hix : Nat) :
    sift_down g pf hix =
      if sift_down_target g pf hix = hix then pf
      else sift_down g (heap_swap pf hix (sift_down_target g pf hix))
        (sift_down_target g pf hix) := by
  unfold sift_down
  rw [sift_down_fuel]
  by_cases hc : sift_down_target g pf hix = hix
  · rw [if_pos hc, if_pos hc]
  · rw [if_neg hc, if_neg hc]
    have := sift_down_target_bounds g pf hix hc
    exact sift_down_fuel_stable g _ _ _ _ (by rw [heap_swap_heap_size]; omega)
      (by rw [heap_swap_heap_size]; omega)

end Pathfinder

namespace Pathfinder

/-! ## Grid: checked reads and the layout of the wall storage -/

theorem cell_wall_checked_eq (g : grid) (b a : Bool) (p : Nat)
    (h : b = false → a = true ∧ p < g.walls.length) :
    cell_wall_checked g b a p = some (b || wall_read g p) := by
  unfold cell_wall_checked
  cases b with
  | true => simp
  | false =>
    obtain ⟨ha, hp⟩ := h rfl
    simp [ha, wall_read_checked, hp]

theorem wall_read_write_ne (g : grid) (p q : Nat) (v : Bool) (h : p ≠ q) :
    wall_read (wall_write g p v) q = wall_read g q := by
  unfold wall_read wall_write
  exact getD_set_ne _ _ _ _ _ h

theorem right_wall_inj (g : grid) (x y x2 y2 : Nat) (hx : x < g.width - 1)
    (hx2 : x2 < g.width - 1) (h : grid_right_wall g x y = grid_right_wall g x2 y2) :
    x = x2 ∧ y = y2 := by
  unfold grid_right_wall at h
  have e1 := congrArg (· % (g.width - 1)) h
  have e2 := congrArg (· / (g.width - 1)) h
  simp only [coord_mod _ _ _ hx, coord_mod _ _ _ hx2, coord_div _ _ _ hx,
    coord_div _ _ _ hx2] at e1 e2
  exact ⟨e1, e2⟩

theorem lower_wall_inj (g : grid) (x y x2 y2 : Nat) (hx : x < g.width)
    (hx2 : x2 < g.width) (h : grid_lower_wall g x y = grid_lower_wall g x2 y2) :
    x = x2 ∧ y = y2 := by
  unfold grid_lower_wall at h
  have h2 : g.width * y + x = g.width * y2 + x2 := Nat.add_left_cancel h
  have e1 := congrArg (· % g.width) h2
  have e2 := congrArg (· / g.width) h2
  simp only [coord_mod _ _ _ hx, coord_mod _ _ _ hx2, coord_div _ _ _ hx,
    coord_div _ _ _ hx2] at e1 e2
  exact ⟨e1, e2⟩

theorem right_wall_ne_lower_wall (g : grid) (x y x2 y2 : Nat) (hx : x < g.width - 1)
    (hy : y < g.height) : grid_right_wall g x y ≠ grid_lower_wall g x2 y2 := by
  unfold grid_right_wall grid_lower_wall
  have := coord_lt (g.width - 1) g.height x y hx hy
  omega

/-- C11: on a well-formed grid and an in-range cell, `grid_cell_walls` with
assertions enabled and storage bounds checked returns a result (no assertion of a
wall accessor fails, no read leaves `walls`), the same as the unchecked function;
each accessor it reaches satisfies its assertions and indexes inside `walls`; and
each of the four results is true exactly when the direction lies on the boundary
or the stored flag of that edge is set. -/
theorem grid_cell_walls_total (g : grid) (hg : grid_wf g) (x y : Nat)
    (hx : x < g.width) (hy : y < g.height) :
    grid_cell_walls_checked g x y = some (grid_cell_walls g x y) ∧
    (x ≠ g.width - 1 →
      grid_right_wall_assert g x y ∧ grid_right_wall g x y < g.walls.length) ∧
    (y ≠ g.height - 1 →
      grid_lower_wall_assert g x y ∧ grid_lower_wall g x y < g.walls.length) ∧
    (x ≠ 0 → grid_left_wall_assert g x y ∧ grid_left_wall g x y < g.walls.length) ∧
    (y ≠ 0 → grid_upper_wall_assert g x y ∧ grid_upper_wall g x y < g.walls.length) ∧
    ((grid_cell_walls g x y).right = true ↔
      (x = g.width - 1 ∨ wall_read g (grid_right_wall g x y) = true)) ∧
    ((grid_cell_walls g x y).lower = true ↔
      (y = g.height - 1 ∨ wall_read g (grid_lower_wall g x y) = true)) ∧
    ((grid_cell_walls g x y).left = true ↔
      (x = 0 ∨ wall_read g (grid_left_wall g x y) = true)) ∧
    ((grid_cell_walls g x y).upper = true ↔
      (y = 0 ∨ wall_read g (grid_upper_wall g x y) = true)) := by
  have hr : x ≠ g.width - 1 →
      grid_right_wall_assert g x y ∧ grid_right_wall g x y < g.walls.length := by
    intro h
    have h1 : x < g.width - 1 := by omega
    exact ⟨⟨h1, hy⟩, right_wall_in_bounds g hg x y h1 hy⟩
  have hl : y ≠ g.height - 1 →
      grid_lower_wall_assert g x y ∧ grid_lower_wall g x y < g.walls.length := by
    intro h
    have h1 : y < g.height - 1 := by omega
    exact ⟨⟨h1, hx⟩, lower_wall_in_bounds g hg x y hx h1⟩
  have hle : x ≠ 0 →
      grid_left_wall_assert g x y ∧ grid_left_wall g x y < g.walls.length := by
    intro h
    have h1 : x - 1 < g.width - 1 := by omega
    exact ⟨⟨by omega, h1, hy⟩, right_wall_in_bounds g hg (x - 1) y h1 hy⟩
  have hu : y ≠ 0 →
      grid_upper_wall_assert g x y ∧ grid_upper_wall g x y < g.walls.length := by
    intro h
    have h1 : y - 1 < g.height - 1 := by omega
    exact ⟨⟨by omega, h1, hx⟩, lower_wall_in_bounds g hg x (y - 1) hx h1⟩
  refine ⟨?_, hr, hl, hle, hu, ?_, ?_, ?_, ?_⟩
  · unfold grid_cell_walls_checked
    rw [cell_wall_checked_eq g _ _ _ (by
        intro h
        have := hr (by simpa using h)
        exact ⟨by simpa using this.1, this.2⟩),
      cell_wall_checked_eq g _ _ _ (by
        intro h
        have := hl (by simpa using h)
        exact ⟨by simpa using this.1, this.2⟩),
      cell_wall_checked_eq g _ _ _ (by
        intro h
        have := hle (by simpa using h)
        exact ⟨by simpa using this.1, this.2⟩),
      cell_wall_checked_eq g _ _ _ (by
        intro h
        have := hu (by simpa using h)
        exact ⟨by simpa using this.1, this.2⟩)]
    rfl
  · simp [grid_cell_walls]
  · simp [grid_cell_walls]
  · simp [grid_cell_walls]
  · simp [grid_cell_walls]

theorem grid_cell_walls_total_witness :
    (grid_wf (wall_write (grid_init 3 2) (grid_lower_wall (grid_init 3 2) 1 0) true) ∧
      (1 : Nat) < (wall_write (grid_init 3 2) (grid_lower_wall (grid_init 3 2) 1 0) true).width ∧
      (0 : Nat) < (wall_write (grid_init 3 2) (grid_lower_wall (grid_init 3 2) 1 0)
        true).height) ∧
    grid_cell_walls_checked
        (wall_write (grid_init 3 2) (grid_lower_wall (grid_init 3 2) 1 0) true) 1 0
      = some (grid_cell_walls
        (wall_write (grid_init 3 2) (grid_lower_wall (grid_init 3 2) 1 0) true) 1 0) :=
  ⟨by decide,
    (grid_cell_walls_total
      (wall_write (grid_init 3 2) (grid_lower_wall (grid_init 3 2) 1 0) true)
      (by decide) 1 0 (by decide) (by decide)).1⟩

/-- C14: on a well-formed grid the index of every stored right wall and of every
stored lower wall is below the allocated count `2*width*height - width - height`;
two different interior edges never share an index; hence a write through the
pointer of one edge leaves the flag of every other edge, vertical or
horizontal, as it was. -/
theorem wall_storage_disjoint (g : grid) (hg : grid_wf g) :
    (∀ x y, x < g.width - 1 → y < g.height →
      grid_right_wall g x y < 2 * g.width * g.height - g.width - g.height) ∧
    (∀ x y, x < g.width → y < g.height - 1 →
      grid_lower_wall g x y < 2 * g.width * g.height - g.width - g.height) ∧
    (∀ x y x2 y2, x < g.width - 1 → y < g.height → x2 < g.width - 1 → y2 < g.height →
      grid_right_wall g x y = grid_right_wall g x2 y2 → x = x2 ∧ y = y2) ∧
    (∀ x y x2 y2, x < g.width → y < g.height - 1 → x2 < g.width → y2 < g.height - 1 →
      grid_lower_wall g x y = grid_lower_wall g x2 y2 → x = x2 ∧ y = y2) ∧
    (∀ x y x2 y2, x < g.width - 1 → y < g.height → x2 < g.width → y2 < g.height - 1 →
      grid_right_wall g x y ≠ grid_lower_wall g x2 y2) ∧
    (∀ v x y, x < g.width - 1 → y < g.height →
      (∀ x2 y2, x2 < g.width - 1 → y2 < g.height → (x2, y2) ≠ (x, y) →
        wall_read (wall_write g (grid_right_wall g x y) v) (grid_right_wall g x2 y2)
          = wall_read g (grid_right_wall g x2 y2)) ∧
      (∀ x2 y2, x2 < g.width → y2 < g.height - 1 →
        wall_read (wall_write g (grid_right_wall g x y) v) (grid_lower_wall g x2 y2)
          = wall_read g (grid_lower_wall g x2 y2))) ∧
    (∀ v x y, x < g.width → y < g.height - 1 →
      (∀ x2 y2, x2 < g.width → y2 < g.height - 1 → (x2, y2) ≠ (x, y) →
        wall_read (wall_write g (grid_lower_wall g x y) v) (grid_lower_wall g x2 y2)
          = wall_read g (grid_lower_wall g x2 y2)) ∧
      (∀ x2 y2, x2 < g.width - 1 → y2 < g.height →
        wall_read (wall_write g (grid_lower_wall g x y) v) (grid_right_wall g x2 y2)
          = wall_read g (grid_right_wall g x2 y2))) := by
  refine ⟨?_, ?_, ?_, ?_, ?_, ?_, ?_⟩
  · intro x y hx hy
    rw [← hg.2.2]
    exact right_wall_in_bounds g hg x y hx hy
  · intro x y hx hy
    rw [← hg.2.2]
    exact lower_wall_in_bounds g hg x y hx hy
  · intro x y x2 y2 hx _ hx2 _ h
    exact right_wall_inj g x y x2 y2 hx hx2 h
  · intro x y x2 y2 hx _ hx2 _ h
    exact lower_wall_inj g x y x2 y2 hx hx2 h
  · intro x y x2 y2 hx hy _ _
    exact right_wall_ne_lower_wall g x y x2 y2 hx hy
  · intro v x y hx hy
    constructor
    · intro x2 y2 hx2 _ hne
      apply wall_read_write_ne
      intro e
      obtain ⟨e1, e2⟩ := right_wall_inj g x y x2 y2 hx hx2 e
      exact hne (by rw [e1, e2])
    · intro x2 y2 _ _
      exact wall_read_write_ne g _ _ v (right_wall_ne_lower_wall g x y x2 y2 hx hy)
  · intro v x y hx hy
    constructor
    · intro x2 y2 hx2 _ hne
      apply wall_read_write_ne
      intro e
      obtain ⟨e1, e2⟩ := lower_wall_inj g x y x2 y2 hx hx2 e
      exact hne (by rw [e1, e2])
    · intro x2 y2 hx2 hy2
      exact wall_read_write_ne g _ _ v
        (Ne.symm (right_wall_ne_lower_wall g x2 y2 x y hx2 hy2))

theorem wall_storage_disjoint_witness :
    grid_wf (grid_init 3 2) ∧
    wall_read (wall_write (grid_init 3 2) (grid_right_wall (grid_init 3 2) 1 0) true)
        (grid_lower_wall (grid_init 3 2) 1 0)
      = wall_read (grid_init 3 2) (grid_lower_wall (grid_init 3 2) 1 0) :=
  ⟨by decide,
    ((wall_storage_disjoint (grid_init 3 2) (by decide)).2.2.2.2.2.1 true 1 0
      (by decide) (by decide)).2 1 0 (by decide) (by decide)⟩

end Pathfinder

namespace Pathfinder

/-! ## Classification queries with assertions enabled, and a concrete trace -/

theorem node_color_debug_eq (n : node) (h : node_color_assert n) :
    node_color_debug n = some (node_color n) := by
  unfold node_color_debug node_color
  by_cases h1 : n.hix = INVALID_INDEX
  · rw [if_pos h1, if_pos h1]
    split <;> rfl
  · rw [if_neg h1, if_neg h1, if_pos (h h1)]

/-- C12 fails: on the 3x2 grid, one step after `pathfinder_init` with start
`(0,0)`, the out-of-range query `(3,0)` (`x = width`) does not signal an assertion
failure with assertions enabled; it reads `nodes[3]` and returns `YELLOW_NODE`,
the classification of cell `(0,1)`. -/
theorem out_of_range_query_returns :
    (3 : Nat) ≥ (grid_init 3 2).width ∧
    pathfinder_node_color_debug (grid_init 3 2)
        (run (grid_init 3 2) (pathfinder_init (grid_init 3 2) 0 0 2 1) 1) 3 0
      = some .YELLOW_NODE ∧
    pathfinder_node_color (grid_init 3 2)
        (run (grid_init 3 2) (pathfinder_init (grid_init 3 2) 0 0 2 1) 1) 0 1
      = .YELLOW_NODE := by
  decide

/-- C12, amended: `pathfinder_node_color` makes no range check. With assertions
enabled, in every state of a run and for every `(x, y)`, in range or not, whose
coord `width*y + x` lies inside the node table, the query signals no assertion
failure and returns the classification of the cell that has this coord, which is
cell `((width*y + x) mod width, (width*y + x) div width)`. -/
theorem node_color_query_unchecked (g : grid) (sx sy ex ey : Nat)
    (hsx : sx < g.width) (hsy : sy < g.height) (hN : cell_count g < INVALID_INDEX)
    (k x y : Nat) (hc : g.width * y + x < cell_count g) :
    pathfinder_node_color_debug g (run g (pathfinder_init g sx sy ex ey) k) x y
      = some (node_color (node_at (run g (pathfinder_init g sx sy ex ey) k)
          (g.width * y + x))) ∧
    pathfinder_node_color_debug g (run g (pathfinder_init g sx sy ex ey) k) x y
      = some (pathfinder_node_color g (run g (pathfinder_init g sx sy ex ey) k)
          ((g.width * y + x) % g.width) ((g.width * y + x) / g.width)) := by
  obtain ⟨inv, _, _⟩ := run_SInv g sx sy ex ey hsx hsy hN k
  have hI := INVALID_INDEX_lt_SIZE_MOD
  have e1 : get_coord g x y = g.width * y + x := by
    unfold get_coord grid_width
    exact Nat.mod_eq_of_lt (by omega)
  have e2 : get_coord g ((g.width * y + x) % g.width) ((g.width * y + x) / g.width)
      = g.width * y + x := by
    unfold get_coord grid_width
    rw [Nat.div_add_mod]
    exact Nat.mod_eq_of_lt (by omega)
  have h1 : pathfinder_node_color_debug g (run g (pathfinder_init g sx sy ex ey) k) x y
      = some (node_color (node_at (run g (pathfinder_init g sx sy ex ey) k)
          (g.width * y + x))) := by
    unfold pathfinder_node_color_debug
    rw [e1]
    exact node_color_debug_eq _ (inv.vis _ hc)
  refine ⟨h1, ?_⟩
  rw [h1]
  unfold pathfinder_node_color
  rw [e2]

theorem node_color_query_unchecked_witness :
    ((0 : Nat) < (grid_init 3 2).width ∧ (0 : Nat) < (grid_init 3 2).height ∧
      cell_count (grid_init 3 2) < INVALID_INDEX ∧
      (grid_init 3 2).width * 0 + 4 < cell_count (grid_init 3 2)) ∧
    pathfinder_node_color_debug (grid_init 3 2)
        (run (grid_init 3 2) (pathfinder_init (grid_init 3 2) 0 0 2 1) 2) 4 0
      = some (pathfinder_node_color (grid_init 3 2)
          (run (grid_init 3 2) (pathfinder_init (grid_init 3 2) 0 0 2 1) 2)
          (((grid_init 3 2).width * 0 + 4) % (grid_init 3 2).width)
          (((grid_init 3 2).width * 0 + 4) / (grid_init 3 2).width)) :=
  ⟨by decide,
    (node_color_query_unchecked (grid_init 3 2) 0 0 2 1 (by decide) (by decide) (by decide)
      2 4 0 (by decide)).2⟩

/-- C13: the trace on the wall-free 3x1 grid with start `(0,0)` and goal `(2,0)`:
initially `(0,0)` is open with distance 0 and `(1,0)`, `(2,0)` are unvisited;
after step 1 `(0,0)` is closed, `(1,0)` is open with distance 1 and `(2,0)` is
unvisited; after step 2 `(1,0)` is closed and `(2,0)` is open with distance 2;
after step 3 `(2,0)` is closed with distance 2 and the heap is empty. -/
theorem trace_open_3x1 :
    (pathfinder_node_color (grid_init 3 1) (pathfinder_init (grid_init 3 1) 0 0 2 0) 0 0
        = .YELLOW_NODE ∧
      (node_at (pathfinder_init (grid_init 3 1) 0 0 2 0) (get_coord (grid_init 3 1) 0 0)).path_sum
        = 0 ∧
      pathfinder_node_color (grid_init 3 1) (pathfinder_init (grid_init 3 1) 0 0 2 0) 1 0
        = .RED_NODE ∧
      pathfinder_node_color (grid_init 3 1) (pathfinder_init (grid_init 3 1) 0 0 2 0) 2 0
        = .RED_NODE) ∧
    (pathfinder_node_color (grid_init 3 1)
        (run (grid_init 3 1) (pathfinder_init (grid_init 3 1) 0 0 2 0) 1) 0 0 = .GREEN_NODE ∧
      pathfinder_node_color (grid_init 3 1)
        (run (grid_init 3 1) (pathfinder_init (grid_init 3 1) 0 0 2 0) 1) 1 0 = .YELLOW_NODE ∧
      (node_at (run (grid_init 3 1) (pathfinder_init (grid_init 3 1) 0 0 2 0) 1)
        (get_coord (grid_init 3 1) 1 0)).path_sum = 1 ∧
      pathfinder_node_color (grid_init 3 1)
        (run (grid_init 3 1) (pathfinder_init (grid_init 3 1) 0 0 2 0) 1) 2 0 = .RED_NODE) ∧
    (pathfinder_node_color (grid_init 3 1)
        (run (grid_init 3 1) (pathfinder_init (grid_init 3 1) 0 0 2 0) 2) 1 0 = .GREEN_NODE ∧
      pathfinder_node_color (grid_init 3 1)
        (run (grid_init 3 1) (pathfinder_init (grid_init 3 1) 0 0 2 0) 2) 2 0 = .YELLOW_NODE ∧
      (node_at (run (grid_init 3 1) (pathfinder_init (grid_init 3 1) 0 0 2 0) 2)
        (get_coord (grid_init 3 1) 2 0)).path_sum = 2) ∧
    (pathfinder_node_color (grid_init 3 1)
        (run (grid_init 3 1) (pathfinder_init (grid_init 3 1) 0 0 2 0) 3) 2 0 = .GREEN_NODE ∧
      (node_at (run (grid_init 3 1) (pathfinder_init (grid_init 3 1) 0 0 2 0) 3)
        (get_coord (grid_init 3 1) 2 0)).path_sum = 2 ∧
      (run (grid_init 3 1) (pathfinder_init (grid_init 3 1) 0 0 2 0) 3).heap_size = 0) := by
  decide

end Pathfinder

namespace Pathfinder

/-! ## States inside a step -/

/-- The coords in a terminator-free prefix of the buffer of `get_surround` are
cells of the grid. -/
theorem surround_prefix_lt (g : grid) (c : Nat) (hc : c < cell_count g)
    (hN : cell_count g < INVALID_INDEX) (L : List Nat) (hL : L <+: get_surround g c)
    (hI : INVALID_INDEX ∉ L) : ∀ n ∈ L, n < cell_count g := by
  obtain ⟨nb, hnb, hmem⟩ := get_surround_spec g c hc hN
  intro n hn
  have h1 : n ∈ get_surround g c := hL.subset hn
  rw [hnb, List.mem_append, List.mem_singleton] at h1
  rcases h1 with h | h
  · exact (open_edge_lt g _ _ ((hmem n).1 h)).2
  · rw [h] at hn; exact absurd hn hI

theorem surround_lt (g : grid) (c : Nat) (hc : c < cell_count g)
    (hN : cell_count g < INVALID_INDEX) (n : Nat) (hn : n ∈ get_surround g c)
    (hne : n ≠ INVALID_INDEX) : n < cell_count g := by
  obtain ⟨nb, hnb, hmem⟩ := get_surround_spec g c hc hN
  rw [hnb, List.mem_append, List.mem_singleton] at hn
  rcases hn with h | h
  · exact (open_edge_lt g _ _ ((hmem n).1 h)).2
  · exact absurd h hne

/-- The state inside `pathfinder_step` after the pop and after the loop has
relaxed the neighbours in `L`, a terminator-free prefix of the buffer of
`get_surround`: the bookkeeping holds, and so does the heap order if it held
before the step and the weights cannot wrap. -/
theorem mid_step_state (g : grid) (s : Nat) (pf : pathfinder)
    (hN : cell_count g < INVALID_INDEX) (inv : SInv g s pf) (hs : pf.heap_size ≠ 0)
    (L : List Nat) (hL : L <+: get_surround g (next_green_coord g pf).1)
    (hI : INVALID_INDEX ∉ L) :
    HeapWF (cell_count g) (relax_surround g (next_green_coord g pf).2
      (((node_at (next_green_coord g pf).2 (next_green_coord g pf).1).path_sum + 1) % UINT_MOD)
      (L ++ [INVALID_INDEX])) ∧
    (HeapOrd g pf → (∀ c, c < cell_count g → manhattan g pf c + UINT_MOD ≤ SIZE_MOD) →
      HeapOrd g (next_green_coord g pf).2 ∧
      HeapOrd g (relax_surround g (next_green_coord g pf).2
        (((node_at (next_green_coord g pf).2 (next_green_coord g pf).1).path_sum + 1)
          % UINT_MOD)
        (L ++ [INVALID_INDEX]))) := by
  obtain ⟨r1, wf1, _, gx1, gy1, ps1, _, _, ord1⟩ :=
    next_green_coord_spec g (cell_count g) hN pf inv.wf hs
  have hmN : heap_at pf 0 < cell_count g := (inv.wf.fwd 0 (Nat.pos_of_ne_zero hs)).1
  rw [r1] at hL
  have hLN := surround_prefix_lt g _ hmN hN L hL hI
  have hd : ((node_at (next_green_coord g pf).2 (next_green_coord g pf).1).path_sum + 1)
      % UINT_MOD < UINT_MOD := Nat.mod_lt _ (by unfold UINT_MOD; omega)
  obtain ⟨wf2, _, _, _, _, ord2⟩ :=
    relax_surround_spec g (cell_count g) hN _ hd L (next_green_coord g pf).2 hLN wf1
  refine ⟨wf2, fun ho hman => ⟨ord1 ho, ord2 (ord1 ho) ?_ ?_⟩⟩
  · intro c; rw [ps1]; exact inv.typed c
  · intro c hc
    rw [manhattan_congr g pf _ c gx1 gy1]
    exact hman c hc

/-- With its whole buffer as the list, the loop state is the result of the step. -/
theorem pathfinder_step_eq_relax (g : grid) (pf : pathfinder) (hs : pf.heap_size ≠ 0) :
    pathfinder_step g pf = relax_surround g (next_green_coord g pf).2
      (((node_at (next_green_coord g pf).2 (next_green_coord g pf).1).path_sum + 1) % UINT_MOD)
      (get_surround g (next_green_coord g pf).1) := by
  unfold pathfinder_step
  rw [if_neg hs]

/-- C16: in every state of a run (representable cell count, in-range start, any
goal) every live heap slot `i` holds an in-range coord whose node has `hix = i`,
every in-range node with `hix != INVALID_INDEX` has `hix < heap_size` and
`heap[hix]` is its coord; so no cell occupies two live slots, the live heap
entries are exactly the `YELLOW_NODE` cells, and the assertions at the top of
`next_green_coord` hold whenever `pathfinder_step` calls it. -/
theorem heap_slot_bookkeeping (g : grid) (sx sy ex ey : Nat)
    (hsx : sx < g.width) (hsy : sy < g.height) (hN : cell_count g < INVALID_INDEX) (k : Nat) :
    (∀ i, i < (run g (pathfinder_init g sx sy ex ey) k).heap_size →
      heap_at (run g (pathfinder_init g sx sy ex ey) k) i < cell_count g ∧
      (node_at (run g (pathfinder_init g sx sy ex ey) k)
        (heap_at (run g (pathfinder_init g sx sy ex ey) k) i)).hix = i) ∧
    (∀ c, c < cell_count g →
      (node_at (run g (pathfinder_init g sx sy ex ey) k) c).hix ≠ INVALID_INDEX →
      (node_at (run g (pathfinder_init g sx sy ex ey) k) c).hix
        < (run g (pathfinder_init g sx sy ex ey) k).heap_size ∧
      heap_at (run g (pathfinder_init g sx sy ex ey) k)
        (node_at (run g (pathfinder_init g sx sy ex ey) k) c).hix = c) ∧
    (∀ i j, i < (run g (pathfinder_init g sx sy ex ey) k).heap_size →
      j < (run g (pathfinder_init g sx sy ex ey) k).heap_size →
      heap_at (run g (pathfinder_init g sx sy ex ey) k) i
        = heap_at (run g (pathfinder_init g sx sy ex ey) k) j → i = j) ∧
    (∀ c, c < cell_count g →
      ((∃ i, i < (run g (pathfinder_init g sx sy ex ey) k).heap_size ∧
          heap_at (run g (pathfinder_init g sx sy ex ey) k) i = c) ↔
        node_color (node_at (run g (pathfinder_init g sx sy ex ey) k) c) = .YELLOW_NODE)) ∧
    ((run g (pathfinder_init g sx sy ex ey) k).heap_size ≠ 0 →
      next_green_coord_assert (run g (pathfinder_init g sx sy ex ey) k)) := by
  obtain ⟨inv, _, _⟩ := run_SInv g sx sy ex ey hsx hsy hN k
  refine ⟨inv.wf.fwd, inv.wf.bwd, ?_, ?_, ?_⟩
  · intro i j hi hj e
    by_contra hne
    exact inv.wf.slot_ne _ _ i j hi hj hne e
  · intro c hc
    rw [node_color_yellow_iff]
    constructor
    · rintro ⟨i, hi, e⟩
      have := (inv.wf.fwd i hi).2
      rw [e] at this
      rw [this]
      have := inv.wf.hsz
      omega
    · intro h
      exact ⟨_, inv.wf.bwd c hc h⟩
  · intro hs
    exact ⟨hs, (inv.wf.fwd 0 (Nat.pos_of_ne_zero hs)).2⟩

theorem heap_slot_bookkeeping_witness :
    ((0 : Nat) < (grid_init 3 2).width ∧ (0 : Nat) < (grid_init 3 2).height ∧
      cell_count (grid_init 3 2) < INVALID_INDEX ∧
      (run (grid_init 3 2) (pathfinder_init (grid_init 3 2) 0 0 2 1) 2).heap_size ≠ 0) ∧
    next_green_coord_assert (run (grid_init 3 2) (pathfinder_init (grid_init 3 2) 0 0 2 1) 2) :=
  ⟨by decide,
    (heap_slot_bookkeeping (grid_init 3 2) 0 0 2 1 (by decide) (by decide) (by decide)
      2).2.2.2.2 (by decide)⟩

end Pathfinder

namespace Pathfinder

/-! ## Heap order, relaxation rule, buffer bounds -/

/-- Relaxing any in-range cell with any 32-bit candidate keeps the heap order,
whether the cell is skipped, appended, or already open and moved up. -/
theorem update_path_sum_ord (g : grid) (s : Nat) (pf : pathfinder)
    (hN : cell_count g < INVALID_INDEX) (inv : SInv g s pf) (ho : HeapOrd g pf)
    (hman : ∀ c, c < cell_count g → manhattan g pf c + UINT_MOD ≤ SIZE_MOD)
    (n d : Nat) (hn : n < cell_count g) (hd : d < UINT_MOD) :
    HeapOrd g (update_path_sum g pf n d) := by
  by_cases hc : node_color (node_at pf n) ≠ .GREEN_NODE ∧ d < (node_at pf n).path_sum
  · obtain ⟨_, _, _, _, _, _, _, ord⟩ := update_path_sum_spec g _ hN pf inv.wf n d hn hd hc
    apply ord ho
    intro _
    have hnl : n < pf.nodes.length := by rw [inv.wf.nlen]; exact hn
    rw [heap_weight_eq g pf n (inv.typed n) (hman n hn),
      heap_weight_eq g (set_path_sum pf n d) n
        (by rw [path_sum_set_path_sum_self pf n d hnl]; exact hd)
        (by rw [manhattan_congr g pf (set_path_sum pf n d) n rfl rfl]; exact hman n hn),
      path_sum_set_path_sum_self pf n d hnl,
      manhattan_congr g pf (set_path_sum pf n d) n rfl rfl]
    have := hc.2
    omega
  · rw [update_path_sum_skip g pf n d hc]
    exact ho

/-- C15: in every state of a run (a grid whose node table fits in memory,
in-range start and goal) `heap_weight(c)` is
`path_sum(c) + |x_c - goal_x| + |y_c - goal_y|` without wrap-around, every
non-root live slot weighs at least as much as its parent, and the root, which
`next_green_coord` pops, has minimal weight among the open cells. Inside a step
the order holds again after the pop (`sift_down` from the root) and after each
relaxation of the loop; and a relaxation of any cell of such a state, be it
skipped, appended or already open with a lowered distance (`sift_up` from its
slot), leaves the order intact. -/
theorem heap_order_invariant (g : grid) (sx sy ex ey : Nat)
    (hsx : sx < g.width) (hsy : sy < g.height) (hex : ex < g.width) (hey : ey < g.height)
    (hN : alloc_fits g) (k : Nat) :
    (∀ c, c < cell_count g →
      heap_weight g (run g (pathfinder_init g sx sy ex ey) k) c
        = (node_at (run g (pathfinder_init g sx sy ex ey) k) c).path_sum
          + diff (c % g.width) ex + diff (c / g.width) ey) ∧
    (∀ i, 0 < i → i < (run g (pathfinder_init g sx sy ex ey) k).heap_size →
      heap_weight g (run g (pathfinder_init g sx sy ex ey) k)
          (heap_at (run g (pathfinder_init g sx sy ex ey) k) ((i - 1) / 2))
        ≤ heap_weight g (run g (pathfinder_init g sx sy ex ey) k)
          (heap_at (run g (pathfinder_init g sx sy ex ey) k) i)) ∧
    (∀ c, c < cell_count g →
      node_color (node_at (run g (pathfinder_init g sx sy ex ey) k) c) = .YELLOW_NODE →
      heap_weight g (run g (pathfinder_init g sx sy ex ey) k)
          (next_green_coord g (run g (pathfinder_init g sx sy ex ey) k)).1
        ≤ heap_weight g (run g (pathfinder_init g sx sy ex ey) k) c) ∧
    ((run g (pathfinder_init g sx sy ex ey) k).heap_size ≠ 0 →
      HeapOrd g (next_green_coord g (run g (pathfinder_init g sx sy ex ey) k)).2 ∧
      ∀ L, L <+: get_surround g (next_green_coord g (run g (pathfinder_init g sx sy ex ey) k)).1 →
        INVALID_INDEX ∉ L →
        HeapOrd g (relax_surround g
          (next_green_coord g (run g (pathfinder_init g sx sy ex ey) k)).2
          (((node_at (next_green_coord g (run g (pathfinder_init g sx sy ex ey) k)).2
            (next_green_coord g (run g (pathfinder_init g sx sy ex ey) k)).1).path_sum + 1)
            % UINT_MOD)
          (L ++ [INVALID_INDEX]))) ∧
    (∀ n d, n < cell_count g → d < UINT_MOD →
      HeapOrd g (update_path_sum g (run g (pathfinder_init g sx sy ex ey) k) n d)) := by
  have hNI : cell_count g < INVALID_INDEX := alloc_fits_lt g hN
  obtain ⟨inv, _, _⟩ := run_SInv g sx sy ex ey hsx hsy hNI k
  have ainv := run_AInv g sx sy ex ey hsx hsy hex hey hN k
  obtain ⟨gx, gy⟩ := run_goal g sx sy ex ey hsx hsy hNI k
  refine ⟨?_, ainv.ord, ?_, ?_, ?_⟩
  · intro c hc
    rw [heap_weight_eq g _ c (inv.typed c) (ainv.man c hc)]
    unfold manhattan grid_width
    rw [gx, gy, Nat.add_assoc]
  · intro c hc hy
    obtain ⟨b1, b2⟩ := inv.wf.bwd c hc ((node_color_yellow_iff _).1 hy)
    have := heap_root_min g _ ainv.ord _ b1
    rw [b2] at this
    exact this
  · intro hs
    refine ⟨(mid_step_state g _ _ hNI inv hs [] (List.nil_prefix) (List.not_mem_nil _)).2
      ainv.ord ainv.man |>.1, ?_⟩
    intro L hL hI
    exact ((mid_step_state g _ _ hNI inv hs L hL hI).2 ainv.ord ainv.man).2
  · intro n d hn hd
    exact update_path_sum_ord g _ _ hNI inv ainv.ord ainv.man n d hn hd

theorem heap_order_invariant_witness :
    ((0 : Nat) < (grid_init 3 2).width ∧ (0 : Nat) < (grid_init 3 2).height ∧
      (2 : Nat) < (grid_init 3 2).width ∧ (1 : Nat) < (grid_init 3 2).height ∧
      alloc_fits (grid_init 3 2) ∧ (0 : Nat) < 1 ∧
      1 < (run (grid_init 3 2) (pathfinder_init (grid_init 3 2) 0 0 2 1) 1).heap_size) ∧
    heap_weight (grid_init 3 2) (run (grid_init 3 2) (pathfinder_init (grid_init 3 2) 0 0 2 1) 1)
        (heap_at (run (grid_init 3 2) (pathfinder_init (grid_init 3 2) 0 0 2 1) 1)
          ((1 - 1) / 2))
      ≤ heap_weight (grid_init 3 2)
        (run (grid_init 3 2) (pathfinder_init (grid_init 3 2) 0 0 2 1) 1)
        (heap_at (run (grid_init 3 2) (pathfinder_init (grid_init 3 2) 0 0 2 1) 1) 1) :=
  ⟨by decide,
    (heap_order_invariant (grid_init 3 2) 0 0 2 1 (by decide) (by decide) (by decide)
      (by decide) (by decide) 1).2.1 1 (by decide) (by decide)⟩

/-- C17: in every state of a run (representable cell count, in-range start, any
goal), for an in-range cell `n` and a candidate `d < 2^32 - 1`:
`update_path_sum(n, d)` returns the state unchanged if `n` is `GREEN_NODE` or
`d >= path_sum(n)` (`INVALID_PATH_SUM` being the largest value); otherwise it sets
`path_sum(n) = d`, keeps every other path sum, raises `heap_size` by one if `n`
was `RED_NODE` and keeps it if `n` was `YELLOW_NODE`, and `n` is `YELLOW_NODE`
afterwards with the assertion of `node_color` satisfied. -/
theorem relaxation_rule (g : grid) (sx sy ex ey : Nat)
    (hsx : sx < g.width) (hsy : sy < g.height) (hN : cell_count g < INVALID_INDEX)
    (k n d : Nat) (hn : n < cell_count g) (hd : d < INVALID_PATH_SUM) :
    ((node_color (node_at (run g (pathfinder_init g sx sy ex ey) k) n) = .GREEN_NODE ∨
        (node_at (run g (pathfinder_init g sx sy ex ey) k) n).path_sum ≤ d) →
      update_path_sum g (run g (pathfinder_init g sx sy ex ey) k) n d
        = run g (pathfinder_init g sx sy ex ey) k) ∧
    (¬ (node_color (node_at (run g (pathfinder_init g sx sy ex ey) k) n) = .GREEN_NODE ∨
        (node_at (run g (pathfinder_init g sx sy ex ey) k) n).path_sum ≤ d) →
      (node_at (update_path_sum g (run g (pathfinder_init g sx sy ex ey) k) n d) n).path_sum
        = d ∧
      (∀ c, c ≠ n →
        (node_at (update_path_sum g (run g (pathfinder_init g sx sy ex ey) k) n d) c).path_sum
          = (node_at (run g (pathfinder_init g sx sy ex ey) k) c).path_sum) ∧
      (node_color (node_at (run g (pathfinder_init g sx sy ex ey) k) n) = .RED_NODE →
        (update_path_sum g (run g (pathfinder_init g sx sy ex ey) k) n d).heap_size
          = (run g (pathfinder_init g sx sy ex ey) k).heap_size + 1) ∧
      (node_color (node_at (run g (pathfinder_init g sx sy ex ey) k) n) = .YELLOW_NODE →
        (update_path_sum g (run g (pathfinder_init g sx sy ex ey) k) n d).heap_size
          = (run g (pathfinder_init g sx sy ex ey) k).heap_size) ∧
      node_color (node_at (update_path_sum g (run g (pathfinder_init g sx sy ex ey) k) n d) n)
        = .YELLOW_NODE ∧
      node_color_assert
        (node_at (update_path_sum g (run g (pathfinder_init g sx sy ex ey) k) n d) n)) := by
  obtain ⟨inv, _, _⟩ := run_SInv g sx sy ex ey hsx hsy hN k
  have hsucc := INVALID_PATH_SUM_succ
  constructor
  · intro h
    apply update_path_sum_skip
    rintro ⟨h1, h2⟩
    rcases h with h | h
    · exact h1 h
    · omega
  · intro h
    have hc : node_color (node_at (run g (pathfinder_init g sx sy ex ey) k) n) ≠ .GREEN_NODE ∧
        d < (node_at (run g (pathfinder_init g sx sy ex ey) k) n).path_sum := by
      constructor
      · exact fun e => h (Or.inl e)
      · by_contra hle
        exact h (Or.inr (by omega))
    obtain ⟨_, _, _, hsz, ps1, hx1, oth, _⟩ :=
      update_path_sum_spec g _ hN _ inv.wf n d hn (by omega) hc
    refine ⟨ps1, fun c hcn => (oth c hcn).1, ?_, ?_, (node_color_yellow_iff _).2 hx1, ?_⟩
    · intro hr
      rw [hsz, if_pos ((node_color_red_iff _).1 hr).1]
    · intro hy
      rw [hsz, if_neg ((node_color_yellow_iff _).1 hy)]
    · intro _
      rw [ps1]
      omega

theorem relaxation_rule_witness :
    ((0 : Nat) < (grid_init 3 2).width ∧ (0 : Nat) < (grid_init 3 2).height ∧
      cell_count (grid_init 3 2) < INVALID_INDEX ∧ (4 : Nat) < cell_count (grid_init 3 2) ∧
      (1 : Nat) < INVALID_PATH_SUM ∧
      ¬ (node_color (node_at (run (grid_init 3 2)
            (pathfinder_init (grid_init 3 2) 0 0 2 1) 2) 4) = .GREEN_NODE ∨
          (node_at (run (grid_init 3 2)
            (pathfinder_init (grid_init 3 2) 0 0 2 1) 2) 4).path_sum ≤ 1)) ∧
    (node_at (update_path_sum (grid_init 3 2)
      (run (grid_init 3 2) (pathfinder_init (grid_init 3 2) 0 0 2 1) 2) 4 1) 4).path_sum = 1 :=
  ⟨by decide,
    ((relaxation_rule (grid_init 3 2) 0 0 2 1 (by decide) (by decide) (by decide)
      2 4 1 (by decide) (by decide)).2 (by decide)).1⟩

/-- C20: in every state of a run (representable cell count, in-range start, any
goal) the heap buffer and the node table have `width*height` entries,
`heap_size <= width*height`, every live heap entry is a coord below
`width*height`, and every coord that `get_surround` stores for an in-range cell
is below `width*height`. Inside a step, after the pop and after any number of
relaxations of the loop, the same bounds hold and a cell without a heap slot
leaves `heap_size` below the buffer length, so the append
`heap[heap_size] = coord` of `update_path_sum` stays inside the buffer; a
relaxation that raises `heap_size` turns a `RED_NODE` cell into a
`YELLOW_NODE` one. -/
theorem heap_within_buffer (g : grid) (sx sy ex ey : Nat)
    (hsx : sx < g.width) (hsy : sy < g.height) (hN : cell_count g < INVALID_INDEX) (k : Nat) :
    ((run g (pathfinder_init g sx sy ex ey) k).heap.length = g.width * g.height ∧
      (run g (pathfinder_init g sx sy ex ey) k).nodes.length = g.width * g.height ∧
      (run g (pathfinder_init g sx sy ex ey) k).heap_size ≤ g.width * g.height ∧
      ∀ i, i < (run g (pathfinder_init g sx sy ex ey) k).heap_size →
        heap_at (run g (pathfinder_init g sx sy ex ey) k) i < g.width * g.height) ∧
    (∀ c n, c < g.width * g.height → n ∈ get_surround g c → n ≠ INVALID_INDEX →
      n < g.width * g.height) ∧
    ((run g (pathfinder_init g sx sy ex ey) k).heap_size ≠ 0 →
      ∀ L, L <+: get_surround g (next_green_coord g (run g (pathfinder_init g sx sy ex ey) k)).1 →
        INVALID_INDEX ∉ L →
        ∀ pf2, pf2 = relax_surround g
          (next_green_coord g (run g (pathfinder_init g sx sy ex ey) k)).2
          (((node_at (next_green_coord g (run g (pathfinder_init g sx sy ex ey) k)).2
            (next_green_coord g (run g (pathfinder_init g sx sy ex ey) k)).1).path_sum + 1)
            % UINT_MOD)
          (L ++ [INVALID_INDEX]) →
        pf2.heap.length = g.width * g.height ∧
        pf2.nodes.length = g.width * g.height ∧
        pf2.heap_size ≤ g.width * g.height ∧
        (∀ i, i < pf2.heap_size → heap_at pf2 i < g.width * g.height) ∧
        (∀ n, n < g.width * g.height → (node_at pf2 n).hix = INVALID_INDEX →
          pf2.heap_size < pf2.heap.length) ∧
        (∀ n d, n < g.width * g.height → d < UINT_MOD →
          (update_path_sum g pf2 n d).heap_size ≠ pf2.heap_size →
          node_color (node_at pf2 n) = .RED_NODE ∧
          node_color (node_at (update_path_sum g pf2 n d) n) = .YELLOW_NODE ∧
          (update_path_sum g pf2 n d).heap_size = pf2.heap_size + 1)) := by
  obtain ⟨inv, _, _⟩ := run_SInv g sx sy ex ey hsx hsy hN k
  have hcc : cell_count g = g.width * g.height := rfl
  refine ⟨⟨inv.wf.hlen, inv.wf.nlen, inv.wf.hsz, fun i hi => (inv.wf.fwd i hi).1⟩, ?_, ?_⟩
  · intro c n hc hn hne
    exact surround_lt g c hc hN n hn hne
  · intro hs L hL hI pf2 hpf2
    have wf2 := (mid_step_state g _ _ hN inv hs L hL hI).1
    rw [← hpf2] at wf2
    refine ⟨wf2.hlen, wf2.nlen, wf2.hsz, fun i hi => (wf2.fwd i hi).1, ?_, ?_⟩
    · intro n hn hq
      rw [wf2.hlen]
      exact heap_size_lt_of_unqueued _ hN pf2 wf2 n hn hq
    · intro n d hn hd hne
      by_cases hc : node_color (node_at pf2 n) ≠ .GREEN_NODE ∧ d < (node_at pf2 n).path_sum
      · obtain ⟨_, _, _, hsz, _, hx1, _, _⟩ :=
          update_path_sum_spec g _ hN pf2 wf2 n d hn hd hc
        by_cases hq : (node_at pf2 n).hix = INVALID_INDEX
        · rw [if_pos hq] at hsz
          refine ⟨?_, (node_color_yellow_iff _).2 hx1, hsz⟩
          have := hc.1
          rw [Ne, node_color_green_iff] at this
          rw [node_color_red_iff]
          refine ⟨hq, ?_⟩
          by_contra hv
          exact this ⟨hq, hv⟩
        · rw [if_neg hq] at hsz
          exact absurd hsz hne
      · rw [update_path_sum_skip g pf2 n d hc] at hne
        exact absurd rfl hne

theorem heap_within_buffer_witness :
    ((0 : Nat) < (grid_init 3 2).width ∧ (0 : Nat) < (grid_init 3 2).height ∧
      cell_count (grid_init 3 2) < INVALID_INDEX) ∧
    (run (grid_init 3 2) (pathfinder_init (grid_init 3 2) 0 0 2 1) 2).heap_size
      ≤ (grid_init 3 2).width * (grid_init 3 2).height :=
  ⟨by decide,
    (heap_within_buffer (grid_init 3 2) 0 0 2 1 (by decide) (by decide) (by decide)
      2).1.2.2.1⟩

end Pathfinder

namespace Pathfinder

/-! ## The heuristic, and the depth of the sift recursions -/

theorem diff_abs (a b : Nat) : ((diff a b : Nat) : Int) = |(a : Int) - (b : Int)| := by
  unfold diff
  split
  · rw [abs_sub_comm, abs_of_nonneg (by omega)]; omega
  · rw [abs_of_nonneg (by omega)]; omega

theorem diff_self (a : Nat) : diff a a = 0 := by
  unfold diff
  split <;> omega

/-- The heuristic drops by at most one per edge along a walk. -/
theorem manhattan_walk (g : grid) (pf : pathfinder) (c : Nat) :
    ∀ v k, Walk g c v k → manhattan g pf c ≤ manhattan g pf v + k := by
  intro v k hw
  induction hw with
  | start => omega
  | step _ he ih =>
    have := manhattan_edge g pf _ _ he
    omega

/-- C18: the heuristic inside `heap_weight` is
`h(c) = diff(x_c, goal_x) + diff(y_c, goal_y)`. It is consistent: for an in-range
cell `c` and every coord `n` that `get_surround` stores for `c`,
`h(c) <= 1 + h(n)`. With `goal_x` in range, `h(goal) = 0`, and `h(c)` is at most
the length of any walk from `c` to the goal through open edges, hence at most the
true distance. `diff(a,b)` is `|a - b|`, and the subtraction it performs never
has a minuend below its subtrahend. -/
theorem manhattan_consistent_admissible (g : grid) (pf : pathfinder)
    (hN : cell_count g < INVALID_INDEX) (hgx : pf.goal_x < g.width) :
    (∀ c, heap_weight g pf c
        = ((node_at pf c).path_sum
            + (diff (c % g.width) pf.goal_x + diff (c / g.width) pf.goal_y)) % SIZE_MOD ∧
      manhattan g pf c = diff (c % g.width) pf.goal_x + diff (c / g.width) pf.goal_y) ∧
    (∀ c n, c < cell_count g → n ∈ get_surround g c → n ≠ INVALID_INDEX →
      manhattan g pf c ≤ 1 + manhattan g pf n) ∧
    manhattan g pf (g.width * pf.goal_y + pf.goal_x) = 0 ∧
    (∀ c k, Walk g c (g.width * pf.goal_y + pf.goal_x) k → manhattan g pf c ≤ k) ∧
    (∀ c d, IsDist g c (g.width * pf.goal_y + pf.goal_x) d → manhattan g pf c ≤ d) ∧
    (∀ a b : Nat, ((diff a b : Nat) : Int) = |(a : Int) - (b : Int)| ∧
      (a < b → diff a b = b - a ∧ a ≤ b) ∧ (¬ a < b → diff a b = a - b ∧ b ≤ a) ∧
      (a < SIZE_MOD → b < SIZE_MOD → diff a b < SIZE_MOD)) := by
  have hgoal : manhattan g pf (g.width * pf.goal_y + pf.goal_x) = 0 := by
    unfold manhattan grid_width
    rw [coord_mod _ _ _ hgx, coord_div _ _ _ hgx, diff_self, diff_self]
  have hwalk : ∀ c k, Walk g c (g.width * pf.goal_y + pf.goal_x) k → manhattan g pf c ≤ k := by
    intro c k hw
    have := manhattan_walk g pf c _ k hw
    omega
  refine ⟨?_, ?_, hgoal, hwalk, fun c d h => hwalk c d h.1, ?_⟩
  · intro c
    constructor
    · unfold heap_weight grid_width
      simp only [Nat.add_assoc]
    · rfl
  · intro c n hc hn hne
    obtain ⟨nb, hnb, hmem⟩ := get_surround_spec g c hc hN
    rw [hnb, List.mem_append, List.mem_singleton] at hn
    rcases hn with h | h
    · have := manhattan_edge g pf c n ((hmem n).1 h)
      omega
    · exact absurd h hne
  · intro a b
    refine ⟨diff_abs a b, ?_, ?_, ?_⟩
    · intro h
      unfold diff
      rw [if_pos h]
      exact ⟨rfl, by omega⟩
    · intro h
      unfold diff
      rw [if_neg h]
      exact ⟨rfl, by omega⟩
    · intro ha hb
      unfold diff
      split <;> omega

theorem manhattan_consistent_admissible_witness :
    (cell_count (grid_init 3 2) < INVALID_INDEX ∧
      (pathfinder_init (grid_init 3 2) 0 0 2 1).goal_x < (grid_init 3 2).width ∧
      (0 : Nat) < cell_count (grid_init 3 2) ∧ (1 : Nat) ∈ get_surround (grid_init 3 2) 0 ∧
      (1 : Nat) ≠ INVALID_INDEX) ∧
    manhattan (grid_init 3 2) (pathfinder_init (grid_init 3 2) 0 0 2 1) 0
      ≤ 1 + manhattan (grid_init 3 2) (pathfinder_init (grid_init 3 2) 0 0 2 1) 1 :=
  ⟨by decide,
    (manhattan_consistent_admissible (grid_init 3 2) (pathfinder_init (grid_init 3 2) 0 0 2 1)
      (by decide) (by decide)).2.1 0 1 (by decide) (by decide) (by decide)⟩

theorem sift_up_swaps_stable (g : grid) :
    ∀ (f1 f2 : Nat) (pf : pathfinder) (k : Nat), k < f1 → k < f2 →
      sift_up_swaps g f1 pf k = sift_up_swaps g f2 pf k := by
  intro f1
  induction f1 with
  | zero => intro f2 pf k h; omega
  | succ f1 ih =>
    intro f2 pf k h1 h2
    cases f2 with
    | zero => omega
    | succ f2 =>
      unfold sift_up_swaps
      by_cases hc : k = 0 ∨ ¬ heap_compare g pf k (parent_hix k) = true
      · rw [if_pos hc, if_pos hc]
      · rw [if_neg hc, if_neg hc]
        have hk0 : k ≠ 0 := fun e => hc (Or.inl e)
        have := parent_hix_lt k hk0
        rw [ih f2 _ _ (by omega) (by omega)]

theorem sift_down_swaps_stable (g : grid) :
    ∀ (f1 f2 : Nat) (pf : pathfinder) (k : Nat), pf.heap_size < f1 + k → pf.heap_size < f2 + k →
      sift_down_swaps g f1 pf k = sift_down_swaps g f2 pf k := by
  intro f1
  induction f1 with
  | zero =>
    intro f2 pf k h1 _
    cases f2 with
    | zero => rfl
    | succ f2 =>
      unfold sift_down_swaps
      by_cases hc : sift_down_target g pf k = k
      · rw [if_pos hc]
      · have := sift_down_target_bounds g pf k hc
        omega
  | succ f1 ih =>
    intro f2 pf k h1 h2
    cases f2 with
    | zero =>
      unfold sift_down_swaps
      by_cases hc : sift_down_target g pf k = k
      · rw [if_pos hc]
      · have := sift_down_target_bounds g pf k hc
        omega
    | succ f2 =>
      unfold sift_down_swaps
      by_cases hc : sift_down_target g pf k = k
      · rw [if_pos hc, if_pos hc]
      · rw [if_neg hc, if_neg hc]
        have := sift_down_target_bounds g pf k hc
        rw [ih f2 _ _ (by rw [heap_swap_heap_size]; omega) (by rw [heap_swap_heap_size]; omega)]

theorem sift_up_swaps_pow (g : grid) :
    ∀ (fuel : Nat) (pf : pathfinder) (k : Nat), k < SIZE_MOD →
      2 ^ sift_up_swaps g fuel pf k ≤ k + 1 := by
  intro fuel
  induction fuel with
  | zero => intro pf k _; simp [sift_up_swaps]
  | succ fuel ih =>
    intro pf k hk
    unfold sift_up_swaps
    by_cases hc : k = 0 ∨ ¬ heap_compare g pf k (parent_hix k) = true
    · rw [if_pos hc]; simp
    · rw [if_neg hc]
      have hk0 : 0 < k := Nat.pos_of_ne_zero (fun e => hc (Or.inl e))
      have hp := parent_hix_eq k hk0 hk
      have := ih (heap_swap pf k (parent_hix k)) (parent_hix k) (by omega)
      rw [Nat.pow_add, Nat.pow_one]
      omega

theorem sift_down_swaps_pow (g : grid) :
    ∀ (fuel : Nat) (pf : pathfinder) (k : Nat), k < pf.heap_size →
      2 ^ sift_down_swaps g fuel pf k * (k + 1) ≤ pf.heap_size := by
  intro fuel
  induction fuel with
  | zero => intro pf k hk; simp [sift_down_swaps]; omega
  | succ fuel ih =>
    intro pf k hk
    unfold sift_down_swaps
    by_cases hc : sift_down_target g pf k = k
    · rw [if_pos hc]; simp; omega
    · rw [if_neg hc]
      have hb := sift_down_target_bounds g pf k hc
      have ht : 2 * (k + 1) ≤ sift_down_target g pf k + 1 := by
        rcases sift_down_target_cases g pf k with c | c | c
        · exact absurd c.1 hc
        · rw [c.1]; omega
        · rw [c.1]; omega
      have := ih (heap_swap pf k (sift_down_target g pf k)) (sift_down_target g pf k)
        (by rw [heap_swap_heap_size]; exact hb.2)
      rw [heap_swap_heap_size] at this
      calc 2 ^ (1 + sift_down_swaps g fuel (heap_swap pf k (sift_down_target g pf k))
              (sift_down_target g pf k)) * (k + 1)
          = 2 ^ sift_down_swaps g fuel (heap_swap pf k (sift_down_target g pf k))
              (sift_down_target g pf k) * (2 * (k + 1)) := by
            rw [Nat.pow_add, Nat.pow_one]; ring
        _ ≤ 2 ^ sift_down_swaps g fuel (heap_swap pf k (sift_down_target g pf k))
              (sift_down_target g pf k) * (sift_down_target g pf k + 1) :=
            Nat.mul_le_mul_left _ ht
        _ ≤ pf.heap_size := this

/-- C19: for a slot `hix < heap_size` of any pathfinder state, `sift_up(hix)` and
`sift_down(hix)` terminate: they obey the recursion of the source, and any
unrolling bound above `hix` resp. above `heap_size - hix` yields the same state
and the same number of swaps. `sift_up` makes at most `floor(log2(hix+1))`
swaps and `sift_down` at most `floor(log2(heap_size))`, so both are bounded by
`floor(log2(N))` for any `N >= heap_size`, such as the cell count. At `hix = 0`
`sift_up` returns its argument without a swap, whatever the wrapped-around
parent index `(2^64 - 1)/2` holds. -/
theorem sift_depth_bound (g : grid) (pf : pathfinder) (hix : Nat)
    (hh : hix < pf.heap_size) (hS : pf.heap_size < SIZE_MOD) :
    (sift_up g pf hix =
        (if hix = 0 ∨ ¬ heap_compare g pf hix (parent_hix hix) = true then pf
         else sift_up g (heap_swap pf hix (parent_hix hix)) (parent_hix hix)) ∧
      ∀ fuel, hix < fuel →
        sift_up_fuel g fuel pf hix = sift_up g pf hix ∧
        sift_up_swaps g fuel pf hix = sift_up_swaps g (hix + 1) pf hix) ∧
    sift_up_swaps g (hix + 1) pf hix ≤ Nat.log2 (hix + 1) ∧
    (sift_down g pf hix =
        (if sift_down_target g pf hix = hix then pf
         else sift_down g (heap_swap pf hix (sift_down_target g pf hix))
           (sift_down_target g pf hix)) ∧
      ∀ fuel, pf.heap_size < fuel + hix →
        sift_down_fuel g fuel pf hix = sift_down g pf hix ∧
        sift_down_swaps g fuel pf hix = sift_down_swaps g (pf.heap_size + 1) pf hix) ∧
    sift_down_swaps g (pf.heap_size + 1) pf hix ≤ Nat.log2 pf.heap_size ∧
    (∀ N, pf.heap_size ≤ N →
      sift_up_swaps g (hix + 1) pf hix ≤ Nat.log2 N ∧
      sift_down_swaps g (pf.heap_size + 1) pf hix ≤ Nat.log2 N) ∧
    (sift_up g pf 0 = pf ∧ sift_up_swaps g (0 + 1) pf 0 = 0 ∧
      parent_hix 0 = (2 ^ 64 - 1) / 2) := by
  have hup : sift_up_swaps g (hix + 1) pf hix ≤ Nat.log2 (hix + 1) :=
    (Nat.le_log2 (by omega)).2 (sift_up_swaps_pow g _ pf hix (by omega))
  have hdown : sift_down_swaps g (pf.heap_size + 1) pf hix ≤ Nat.log2 pf.heap_size := by
    apply (Nat.le_log2 (by omega)).2
    have h1 := sift_down_swaps_pow g (pf.heap_size + 1) pf hix hh
    have h2 : 2 ^ sift_down_swaps g (pf.heap_size + 1) pf hix * 1
        ≤ 2 ^ sift_down_swaps g (pf.heap_size + 1) pf hix * (hix + 1) :=
      Nat.mul_le_mul_left _ (by omega)
    omega
  have hmono : ∀ a b : Nat, a ≤ b → Nat.log2 a ≤ Nat.log2 b := by
    intro a b hab
    rw [Nat.log2_eq_log_two, Nat.log2_eq_log_two]
    exact Nat.log_mono_right hab
  refine ⟨⟨sift_up_unfold g pf hix, fun fuel hf => ⟨?_, ?_⟩⟩, hup,
    ⟨sift_down_unfold g pf hix, fun fuel hf => ⟨?_, ?_⟩⟩, hdown, ?_, ?_, ?_, ?_⟩
  · exact sift_up_fuel_stable g fuel (hix + 1) pf hix hf (by omega)
  · exact sift_up_swaps_stable g fuel (hix + 1) pf hix hf (by omega)
  · exact sift_down_fuel_stable g fuel (pf.heap_size + 1) pf hix hf (by omega)
  · exact sift_down_swaps_stable g fuel (pf.heap_size + 1) pf hix hf (by omega)
  · intro N hN
    exact ⟨le_trans hup (hmono _ _ (by omega)), le_trans hdown (hmono _ _ hN)⟩
  · rw [sift_up_unfold, if_pos (Or.inl rfl)]
  · simp [sift_up_swaps]
  · rfl

theorem sift_depth_bound_witness :
    ((1 : Nat) < (run (grid_init 3 2) (pathfinder_init (grid_init 3 2) 0 0 2 1) 1).heap_size ∧
      (run (grid_init 3 2) (pathfinder_init (grid_init 3 2) 0 0 2 1) 1).heap_size
        < SIZE_MOD) ∧
    sift_up_swaps (grid_init 3 2)
        (1 + 1) (run (grid_init 3 2) (pathfinder_init (grid_init 3 2) 0 0 2 1) 1) 1
      ≤ Nat.log2 (1 + 1) :=
  ⟨by decide,
    (sift_depth_bound (grid_init 3 2)
      (run (grid_init 3 2) (pathfinder_init (grid_init 3 2) 0 0 2 1) 1) 1
      (by decide) (by decide)).2.1⟩

end Pathfinder
